import Mathlib

/-!
Shortest paths over the graph store (`src/main.cpp`).

A shallow embedding of `dijkstra`, of the path reconstruction and of the
stress loop of `main`, and the properties of the specification that are
about them.

Modelling decisions.

* `double` is `Dbl`: NaN, the two infinities and the finite values of IEEE 754
  binary64.  Every finite binary64 value is an integer multiple of `2^-1074`,
  and `Dbl.fin k` is the value `k * 2^-1074`; the value `1.0` is
  `Dbl.ofInt 1 = Dbl.fin (2^1074)`.  The `+` of the program is `Dbl.add`: the
  exact sum rounded to the nearest double, to the one with the even
  significand when two are equally near, and to an infinity when the rounded
  sum reaches `2^1024` (`Dbl.round`).  The sign of zero is not modelled: the
  program only adds and compares, and `-0.0` behaves as `0.0` there.
  `Dbl.sum` is the sum without rounding, for the total weight of a path as a
  real number.
* `unsigned int` is `Nat` below `2^32`, `int` is `Int`; the two conversions
  that the program performs between them are `toInt32` and `toUInt32`.
* `std::unordered_map<unsigned int, V>` is `UMap V` when the program only
  uses `emplace`, `at` and assignment on it (`dist`, `prev`), and a list of
  key/value pairs in iteration order when the program iterates over it
  (`g.nodes`).
* `std::out_of_range` thrown by `at` is `Err.out_of_range`.
* The `while` loops take fuel.  `dijkstra` gives its main loop the number of
  nodes, which is enough on every graph; the reconstruction loop of `main`
  is shown to end for every fuel from a stated bound on.
* `graph.h` is not among the sources: `Graph`, `Node`, `Edge` and the store
  operations are modelled from the specification, an edge list holding the
  edge objects that the pointers of the program refer to.
-/

set_option exponentiation.threshold 4096

namespace GraphStore

/-! ## double -/

/-- The values of a C++ `double` (IEEE 754 binary64): `fin k` is the finite
value `k * 2^-1074`.  The doubles among these values are the ones that
`Dbl.is_double` holds of. -/
inductive Dbl where
  | nan
  | ninf
  | fin (k : Int)
  | pinf
  deriving DecidableEq, Repr

namespace Dbl

/-- One step of the search for the leading binary digit: when `2^k` fits
into the number in first place, the number is divided by `2^k` and `k` is
added to the count in second place. -/
def blog_step (s : Nat × Nat) (k : Nat) : Nat × Nat :=
  if 2 ^ k ≤ s.1 then (s.1 / 2 ^ k, s.2 + k) else s

/-- The position of the leading binary digit of `n`, for `n` below `2^4096`:
the `l` with `2^l <= n < 2^(l+1)`, and `0` for `n = 0` (`blog_spec`). -/
def blog (n : Nat) : Nat :=
  ([2048, 1024, 512, 256, 128, 64, 32, 16, 8, 4, 2, 1].foldl blog_step (n, 0)).2

/-- The multiple of `2^e` nearest to `n`, the even multiple when `n` lies
half-way between two multiples. -/
def round_to (e n : Nat) : Nat :=
  let q := n / 2 ^ e
  let r := n % 2 ^ e
  let h := 2 ^ (e - 1)
  if r < h ∨ (r = h ∧ q % 2 = 0) then q * 2 ^ e else (q + 1) * 2 ^ e

/-- The magnitude `n`, counted in units of `2^-1074`, rounded to a
significand of 53 binary digits: below `2^53` units every integer is a double
(the subnormal numbers and the first binade), and from `2^l` to `2^(l+1)` the
doubles are the multiples of `2^(l-52)`.  A magnitude from `2^2098` units on,
which is `2^1024`, overflows whatever it is rounded to, and is left as it is. -/
def round_nat (n : Nat) : Nat :=
  if n < 2 ^ 2098 then round_to (blog n - 52) n else n

/-- The double that an operation returns when its exact result is
`k * 2^-1074`: the nearest double, and an infinity when the rounded magnitude
reaches `2^1024` (round to nearest, ties to even, the default of IEEE 754). -/
def round (k : Int) : Dbl :=
  let m := round_nat k.natAbs
  if m < 2 ^ 2098 then fin (if k < 0 then -(m : Int) else (m : Int))
  else if k < 0 then ninf else pinf

/-- The double of the integer value `k`, for `k` of at most 53 binary digits. -/
def ofInt (k : Int) : Dbl := fin (k * ((2 ^ 1074 : Nat) : Int))

/-- Whether a value is a double: the finite ones are those that rounding
leaves alone. -/
def is_double : Dbl → Bool
  | fin k => round k == fin k
  | _ => true

/-- The `+` of two doubles, as in line 59: the exact sum of two finite values
rounded by `round`; the special values follow IEEE 754. -/
def add : Dbl → Dbl → Dbl
  | nan, _ => nan
  | ninf, nan => nan
  | ninf, ninf => ninf
  | ninf, fin _ => ninf
  | ninf, pinf => nan
  | fin _, nan => nan
  | fin _, ninf => ninf
  | fin a, fin b => round (a + b)
  | fin _, pinf => pinf
  | pinf, nan => nan
  | pinf, ninf => nan
  | pinf, fin _ => pinf
  | pinf, pinf => pinf

/-- The sum of two values as extended real numbers, without rounding (NaN
where the sum is not defined). -/
def sum : Dbl → Dbl → Dbl
  | nan, _ => nan
  | ninf, nan => nan
  | ninf, ninf => ninf
  | ninf, fin _ => ninf
  | ninf, pinf => nan
  | fin _, nan => nan
  | fin _, ninf => ninf
  | fin a, fin b => fin (a + b)
  | fin _, pinf => pinf
  | pinf, nan => nan
  | pinf, ninf => nan
  | pinf, fin _ => pinf
  | pinf, pinf => pinf

/-- The `<` of two doubles. -/
def lt : Dbl → Dbl → Bool
  | nan, _ => false
  | ninf, nan => false
  | ninf, ninf => false
  | ninf, fin _ => true
  | ninf, pinf => true
  | fin _, nan => false
  | fin _, ninf => false
  | fin a, fin b => decide (a < b)
  | fin _, pinf => true
  | pinf, _ => false

/-- The `>=` of two doubles. -/
def ge : Dbl → Dbl → Bool
  | nan, _ => false
  | ninf, nan => false
  | ninf, ninf => true
  | ninf, fin _ => false
  | ninf, pinf => false
  | fin _, nan => false
  | fin _, ninf => true
  | fin a, fin b => decide (b ≤ a)
  | fin _, pinf => false
  | pinf, nan => false
  | pinf, _ => true

/-- The `<=` of two doubles: `a <= b` is `b >= a`. -/
def le (a b : Dbl) : Bool := ge b a

/-- A weight `w` is non-negative when `w >= 0` holds. -/
def nonneg (w : Dbl) : Bool := ge w (fin 0)

/-- A double is finite when it is neither NaN nor an infinity. -/
def finite : Dbl → Bool
  | fin _ => true
  | _ => false

end Dbl

/-- The constant `INF` of `main.cpp`: `numeric_limits<double>::infinity()`. -/
def INF : Dbl := Dbl.pinf

/-! ## unsigned int and int -/

/-- The conversion of an `unsigned int` to `int` (two's complement, 32 bits),
performed by `prev.at(neighbour) = node`. -/
def toInt32 (n : Nat) : Int :=
  if n % 2 ^ 32 < 2 ^ 31 then ((n % 2 ^ 32 : Nat) : Int) else ((n % 2 ^ 32 : Nat) : Int) - 2 ^ 32

/-- The conversion of an `int` to `unsigned int`, performed by `u = prev.at(u)`. -/
def toUInt32 (i : Int) : Nat := (i % 2 ^ 32).toNat

/-! ## unordered_map -/

/-- What a failing operation throws, or that the fuel of a loop ran out. -/
inductive Err where
  | out_of_range
  | out_of_fuel
  deriving DecidableEq, Repr

/-- A `std::unordered_map<unsigned int, V>` seen through its lookups. -/
def UMap (V : Type) : Type := Nat → Option V

namespace UMap

/-- The map without any key. -/
def empty {V : Type} : UMap V := fun _ => none

/-- Whether `k` is a key of `m`: `m.find(k) != m.end()`. -/
def contains {V : Type} (m : UMap V) (k : Nat) : Bool := (m k).isSome

/-- The call `m.emplace(k, v)`: inserts only when the key is not yet there. -/
def emplace {V : Type} (m : UMap V) (k : Nat) (v : V) : UMap V :=
  fun j => if j = k then (match m k with | some old => some old | none => some v) else m j

/-- The read `m.at(k)`, which throws when `k` is not a key. -/
def at_ {V : Type} (m : UMap V) (k : Nat) : Except Err V :=
  match m k with
  | some v => .ok v
  | none => .error Err.out_of_range

/-- The map `m` with the value at `k` replaced by `v`. -/
def set {V : Type} (m : UMap V) (k : Nat) (v : V) : UMap V :=
  fun j => if j = k then some v else m j

/-- The write `m.at(k) = v`, which throws when `k` is not a key. -/
def assign {V : Type} (m : UMap V) (k : Nat) (v : V) : Except Err (UMap V) :=
  match m k with
  | some _ => .ok (m.set k v)
  | none => .error Err.out_of_range

end UMap

/-! ## The graph store, as `dijkstra` reads it -/

/-- Modelled from the spec: the class `Edge` of `graph.h`, which is not among
the sources.  An edge is identified by the ordered pair of its end points and
carries a weight; `from_` and `to_` are the ids of the nodes that the pointers
`e->from` and `e->to` refer to. -/
structure Edge (E : Type) where
  from_ : Nat
  to_ : Nat
  data : E
  deriving DecidableEq, Repr

/-- Modelled from the spec: the class `Node` of `graph.h`, which is not among
the sources.  A node has an id, a payload, and the lists of its inbound and
outbound edges (the objects that the stored pointers refer to). -/
structure Node (N E : Type) where
  id : Nat
  data : N
  edges_in : List (Edge E)
  edges_out : List (Edge E)
  deriving DecidableEq, Repr

/-- Modelled from the spec: the class `Graph` of `graph.h`, which is not among
the sources.  `nodes` maps an id to its node and `edges` maps a pair of ids to
its edge; both are listed in the order in which the map is iterated. -/
structure Graph (N E : Type) where
  nodes : List (Nat × Node N E)
  edges : List ((Nat × Nat) × Edge E)
  deriving Repr

namespace Graph

/-- The ids of the nodes, in iteration order. -/
def ids {N E : Type} (g : Graph N E) : List Nat := g.nodes.map Prod.fst

/-- Whether `k` is a node: `g.nodes.find(k) != g.nodes.end()`. -/
def has_node {N E : Type} (g : Graph N E) (k : Nat) : Bool := (g.nodes.lookup k).isSome

/-- The read `g.nodes.at(k)`, which throws when `k` is not a node. -/
def node_at {N E : Type} (g : Graph N E) (k : Nat) : Except Err (Node N E) :=
  match g.nodes.lookup k with
  | some n => .ok n
  | none => .error Err.out_of_range

/-- The outbound edges of node `k` (none when `k` is not a node). -/
def out_edges {N E : Type} (g : Graph N E) (k : Nat) : List (Edge E) :=
  match g.nodes.lookup k with
  | some n => n.edges_out
  | none => []

/-- The weight of the edge `u -> v`: that of the first outbound edge of `u`
that leads to `v`. -/
def weight {N E : Type} (g : Graph N E) (u v : Nat) : Option E :=
  ((g.out_edges u).find? (fun e => e.to_ == v)).map Edge.data

/-- What `dijkstra` relies on in a graph: the keys of `nodes` are pairwise
different and fit an `unsigned int`, every outbound edge of a node leads to a
node of the graph, and a node has at most one outbound edge to each node. -/
def WF {N E : Type} (g : Graph N E) : Prop :=
  g.ids.Nodup ∧ (∀ k ∈ g.ids, k < 2 ^ 32) ∧
  ∀ p ∈ g.nodes, (∀ e ∈ p.2.edges_out, e.to_ ∈ g.ids) ∧ (p.2.edges_out.map Edge.to_).Nodup

instance {N E : Type} (g : Graph N E) : Decidable g.WF := by
  unfold WF; infer_instance

/-- The destination of every outbound edge of every node is itself a node of
the graph. -/
def Closed {N E : Type} (g : Graph N E) : Prop :=
  ∀ p ∈ g.nodes, ∀ e ∈ p.2.edges_out, e.to_ ∈ g.ids

instance {N E : Type} (g : Graph N E) : Decidable g.Closed := by
  unfold Closed; infer_instance

end Graph

/-! ## dijkstra -/

/-- The local variables of `dijkstra` inside its main loop.  `relaxed` is a
ghost variable: the neighbours that lines 62-63 assigned to, in order. -/
structure LoopState where
  list : List Nat
  dist : UMap Dbl
  prev : UMap Int
  relaxed : List Nat

/-- Lines 27-32: one round of the initialisation loop. -/
def init_step (st : LoopState) (n : Nat × Node Dbl Dbl) : LoopState :=
  { st with
    list := st.list ++ [n.1]
    dist := st.dist.emplace n.1 INF
    prev := st.prev.emplace n.1 (-1) }

/-- Lines 22-32: the initialisation loop. -/
def init (g : Graph Dbl Dbl) : LoopState :=
  g.nodes.foldl init_step ⟨[], UMap.empty, UMap.empty, []⟩

/-- Lines 41-42: one round of the scan for the smallest distance. -/
def select_step (dist : UMap Dbl) (node id : Nat) : Except Err Nat := do
  let a ← dist.at_ id
  let b ← dist.at_ node
  pure (if a.lt b then id else node)

/-- Lines 39-42: the node of `list` with the smallest distance. -/
def select (dist : UMap Dbl) (list : List Nat) : Except Err Nat :=
  match list with
  | [] => .error Err.out_of_range
  | first :: _ => list.foldlM (select_step dist) first

/-- Lines 58-65: the relaxation of one outbound edge of `node`. -/
def relax_edge (node : Nat) (st : LoopState) (e : Edge Dbl) : Except Err LoopState := do
  let neighbour := e.to_
  let d ← st.dist.at_ node
  let new_dist := d.add e.data
  let old ← st.dist.at_ neighbour
  if new_dist.lt old then
    let dist ← st.dist.assign neighbour new_dist
    let prev ← st.prev.assign neighbour (toInt32 node)
    pure { st with dist := dist, prev := prev, relaxed := st.relaxed ++ [neighbour] }
  else
    pure st

/-- Lines 56-67: the relaxation of all outbound edges of `node`. -/
def relax (g : Graph Dbl Dbl) (node : Nat) (st : LoopState) : Except Err LoopState := do
  let n ← g.node_at node
  n.edges_out.foldlM (relax_edge node) st

/-- Lines 36-68: the main loop, `fuel` bounding the number of rounds. -/
def loop (g : Graph Dbl Dbl) (target : Nat) : Nat → LoopState → Except Err LoopState
  | 0, st => if st.list.isEmpty then .ok st else .error Err.out_of_fuel
  | fuel + 1, st =>
    if st.list.isEmpty then .ok st
    else do
      let node ← select st.dist st.list
      if node = target then
        pure st
      else
        let st1 : LoopState := { st with list := st.list.filter (fun id => id != node) }
        let d ← st1.dist.at_ node
        if d.ge INF then
          pure st1
        else
          let st2 ← relax g node st1
          loop g target fuel st2

/-- What a call of `dijkstra` leaves behind: whether it took the branch
"Source and/or target nodes not in graph", the two output parameters, and the
ghost variable `relaxed`. -/
structure Outcome where
  not_in_graph : Bool
  return_dist : UMap Dbl
  return_prev : UMap Int
  relaxed : List Nat

/-- Lines 13-72: `dijkstra`.  `return_dist` and `return_prev` are the output
parameters as the caller passes them in.  Every round of the main loop that
does not leave it removes a node from `list`, so the length of `list` is
enough fuel on every graph (`dijkstra_ne_fuel`). -/
def dijkstra (g : Graph Dbl Dbl) (source target : Nat)
    (return_dist : UMap Dbl) (return_prev : UMap Int) : Except Err Outcome :=
  if !g.has_node source || !g.has_node target then
    .ok ⟨true, return_dist, return_prev, []⟩
  else do
    let st0 := init g
    let dist ← st0.dist.assign source (Dbl.fin 0)
    let st ← loop g target st0.list.length { st0 with dist := dist }
    pure ⟨false, st.dist, st.prev, st.relaxed⟩

/-! ## Path reconstruction in `main` -/

/-- Lines 120-126 of `main`: follows `prev` from `u`, pushing the visited
nodes onto `path`; `fuel` bounds the number of rounds. -/
def construct_path_loop (prev : UMap Int) : Nat → Nat → List Nat → Except Err (List Nat)
  | 0, u, path => do
    let p ← prev.at_ u
    if p ≥ 0 then .error Err.out_of_fuel else pure (path ++ [u])
  | fuel + 1, u, path => do
    let p ← prev.at_ u
    if p ≥ 0 then construct_path_loop prev fuel (toUInt32 p) (path ++ [u])
    else pure (path ++ [u])

/-- Lines 118-126 of `main`: the vector `path`, from `target` backwards. -/
def construct_path (prev : UMap Int) (fuel target : Nat) : Except Err (List Nat) :=
  construct_path_loop prev fuel target []

/-- Lines 134-140 of `main`: the path in the order in which it is printed,
from the last element of `path` to the first. -/
def printed_path (prev : UMap Int) (fuel target : Nat) : Except Err (List Nat) :=
  (construct_path prev fuel target).map List.reverse

/-! ## Directed paths -/

/-- The weight of the walk that starts in `u` with weight `acc` so far and
goes on through the nodes `rest`, added up from left to right with the `+` of
the program, as line 59 adds the weight of an edge to the distance of its
source; `none` when two consecutive nodes are not joined by an edge. -/
def path_weight_from (g : Graph Dbl Dbl) (acc : Dbl) : Nat → List Nat → Option Dbl
  | _, [] => some acc
  | u, v :: rest =>
    match g.weight u v with
    | some c => path_weight_from g (acc.add c) v rest
    | none => none

/-- The weight of the directed path through the nodes `p`, added up in double
arithmetic from the first node on; `none` when `p` is not a directed path of
the graph. -/
def path_weight (g : Graph Dbl Dbl) : List Nat → Option Dbl
  | [] => none
  | s :: rest => if g.has_node s then path_weight_from g (Dbl.fin 0) s rest else none

/-- The node sequence `p` is a directed path of `g` from `s` to `t` whose
weights, added up in double arithmetic from `s` on, give `w`.  A node may
occur several times on it. -/
def IsPath (g : Graph Dbl Dbl) (s t : Nat) (p : List Nat) (w : Dbl) : Prop :=
  p.head? = some s ∧ p.getLast? = some t ∧ path_weight g p = some w

/-- There is a directed path from `s` to `t`. -/
def Reachable (g : Graph Dbl Dbl) (s t : Nat) : Prop := ∃ p w, IsPath g s t p w

/-- There is a walk from `s` to the node in first place whose weights, added
up in double arithmetic from `s` on, give the value in second place. -/
inductive Walk (g : Graph Dbl Dbl) (s : Nat) : Nat → Dbl → Prop where
  | nil : g.has_node s = true → Walk g s s (Dbl.fin 0)
  | snoc {u v : Nat} {w c : Dbl} : Walk g s u w → g.weight u v = some c → Walk g s v (w.add c)

/-- All edge weights of the graph are non-negative. -/
def NonnegWeights (g : Graph Dbl Dbl) : Prop :=
  ∀ p ∈ g.nodes, ∀ e ∈ p.2.edges_out, e.data.nonneg = true

instance (g : Graph Dbl Dbl) : Decidable (NonnegWeights g) := by
  unfold NonnegWeights; infer_instance

/-! ## The graph of `main` -/

/-- Node `i` of `my_graph` with the outbound edges that lines 89-95 add. -/
def my_node (i : Nat) (ins outs : List (Nat × Nat × Int)) : Nat × Node Dbl Dbl :=
  (i, ⟨i, Dbl.fin 0, ins.map (fun e => ⟨e.1, e.2.1, Dbl.ofInt e.2.2⟩),
    outs.map (fun e => ⟨e.1, e.2.1, Dbl.ofInt e.2.2⟩)⟩)

/-- The nodes of `my_graph` after lines 85-95, in ascending order of id. -/
def my_nodes : List (Nat × Node Dbl Dbl) :=
  [ my_node 0 [] [(0, 1, 4), (0, 2, 2)],
    my_node 1 [(0, 1, 4)] [(1, 2, 5), (1, 3, 10)],
    my_node 2 [(0, 2, 2), (1, 2, 5)] [(2, 4, 3)],
    my_node 3 [(1, 3, 10), (4, 3, 4)] [(3, 5, 11)],
    my_node 4 [(2, 4, 3)] [(4, 3, 4)],
    my_node 5 [(3, 5, 11)] [] ]

/-- The edges of `my_graph` after lines 89-95. -/
def my_edges : List ((Nat × Nat) × Edge Dbl) :=
  [(0, 1, 4), (0, 2, 2), (1, 2, 5), (1, 3, 10), (2, 4, 3), (4, 3, 4), (3, 5, 11)].map
    (fun e : Nat × Nat × Int => ((e.1, e.2.1), ⟨e.1, e.2.1, Dbl.ofInt e.2.2⟩))

/-- The graph `my_graph` of `main`, its node map iterated in ascending order. -/
def my_graph : Graph Dbl Dbl := ⟨my_nodes, my_edges⟩

/-! ## Notions used in the invariants -/

/-- The current distance of `k`, NaN when `k` is not a key of `dist`. -/
def LoopState.dv (st : LoopState) (k : Nat) : Dbl := (st.dist k).getD Dbl.nan

/-- The maps `dist` and `prev` have exactly the nodes of the graph as keys,
and `list` holds nodes of the graph only. -/
structure Dom (g : Graph Dbl Dbl) (st : LoopState) : Prop where
  dist_in : ∀ k ∈ g.ids, ∃ d, st.dist k = some d
  dist_out : ∀ k, k ∉ g.ids → st.dist k = none
  prev_in : ∀ k ∈ g.ids, ∃ p, st.prev k = some p
  prev_out : ∀ k, k ∉ g.ids → st.prev k = none
  list_sub : ∀ k ∈ st.list, k ∈ g.ids

/-- The state after lines 58-65 when no lookup throws. -/
def relaxed_state (node : Nat) (st : LoopState) (e : Edge Dbl) : LoopState :=
  if ((st.dv node).add e.data).lt (st.dv e.to_) then
    { st with
      dist := st.dist.set e.to_ ((st.dv node).add e.data)
      prev := st.prev.set e.to_ (toInt32 node)
      relaxed := st.relaxed ++ [e.to_] }
  else st

/-- The state after line 49: `node` erased from `list`. -/
def erased_state (node : Nat) (st : LoopState) : LoopState :=
  { st with list := st.list.filter (fun id => id != node) }

/-- The state in which the main loop starts: lines 22-34. -/
def start_state (g : Graph Dbl Dbl) (source : Nat) : LoopState :=
  { init g with dist := (init g).dist.set source (Dbl.fin 0) }

/-- What holds before every round of the main loop, whatever the weights are:
a distance other than `INF` is the weight of a walk from `source`, and a node
that no relaxation assigned to has the distance and the predecessor of the
initialisation. -/
structure InvA (g : Graph Dbl Dbl) (source : Nat) (st : LoopState) : Prop where
  dom : Dom g st
  walk : ∀ v ∈ g.ids, st.dv v ≠ Dbl.pinf → Walk g source v (st.dv v)
  untouched : ∀ v ∈ g.ids, v ∉ st.relaxed →
    st.prev v = some (-1) ∧ st.dv v = if v = source then Dbl.fin 0 else Dbl.pinf
  touched : ∀ v ∈ st.relaxed, v ∈ g.ids ∧ st.dv v ≠ Dbl.pinf

/-! ## The operations of the store that the claims refer to -/

namespace Graph

/-- Modelled from the spec: `remove_edge` of `graph.h`, which is not among the
sources.  A no-op when the edge is absent; otherwise the edge leaves the edge
mapping, the outbound list of its source and the inbound list of its
destination. -/
def remove_edge {N E : Type} (g : Graph N E) (from_ to_ : Nat) : Graph N E :=
  if (g.edges.lookup (from_, to_)).isSome then
    { nodes := g.nodes.map (fun p =>
        (p.1, { p.2 with
          edges_out := if p.1 = from_ then
              p.2.edges_out.filter (fun e => !(e.from_ == from_ && e.to_ == to_))
            else p.2.edges_out
          edges_in := if p.1 = to_ then
              p.2.edges_in.filter (fun e => !(e.from_ == from_ && e.to_ == to_))
            else p.2.edges_in }))
      edges := g.edges.filter (fun p => p.1 != (from_, to_)) }
  else g

/-- Modelled from the spec: `remove_node` of `graph.h`, which is not among the
sources.  A no-op when the node is absent; otherwise every edge of which the
node is the source or the destination is removed as by `remove_edge`, and
then the node itself. -/
def remove_node {N E : Type} (g : Graph N E) (id : Nat) : Graph N E :=
  if g.has_node id then
    let incident := (g.edges.map Prod.fst).filter (fun k => k.1 == id || k.2 == id)
    let g1 := incident.foldl (fun acc k => acc.remove_edge k.1 k.2) g
    { g1 with nodes := g1.nodes.filter (fun p => p.1 != id) }
  else g

end Graph

/-- The variables of `main` that the call of line 111 can reach. -/
structure MainState where
  graph : Graph Dbl Dbl
  dist : UMap Dbl
  prev : UMap Int

/-- Line 111 of `main`: the call `dijkstra(my_graph, source, target, dist, prev)`.
The graph is passed by value and the two maps by reference. -/
def call_dijkstra (m : MainState) (source target : Nat) : Except Err MainState :=
  match dijkstra m.graph source target m.dist m.prev with
  | .ok o => .ok { m with dist := o.return_dist, prev := o.return_prev }
  | .error e => .error e

/-- A graph of two nodes without any edge. -/
def two_nodes : Graph Dbl Dbl :=
  ⟨[(0, ⟨0, Dbl.fin 0, [], []⟩), (1, ⟨1, Dbl.fin 0, [], []⟩)], []⟩

/-- The nodes that lines 120-126 of `main` visit from the node in first place
on, in the order of the vector `path`. -/
inductive Chain (prev : UMap Int) : Nat → List Nat → Prop where
  | stop {v : Nat} {p : Int} : prev v = some p → p < 0 → Chain prev v [v]
  | step {v : Nat} {p : Int} {path : List Nat} : prev v = some p → 0 ≤ p →
      Chain prev (toUInt32 p) path → Chain prev v (v :: path)

/-- What holds during the whole main loop when the weights are non-negative.
The nodes outside `list` are the finalised ones. -/
structure Core (g : Graph Dbl Dbl) (source target : Nat) (st : LoopState) : Prop where
  invA : InvA g source st
  target_in : target ∈ st.list
  nonneg : ∀ v ∈ g.ids, (st.dv v).nonneg = true
  src : st.dv source = Dbl.fin 0
  final_le : ∀ u ∈ g.ids, u ∉ st.list → ∀ v ∈ st.list, (st.dv u).le (st.dv v) = true
  link : ∀ v ∈ st.relaxed, ∃ u c, u ∈ g.ids ∧ u ∉ st.list ∧ st.prev v = some (toInt32 u) ∧
    g.weight u v = some c ∧ st.dv v = (st.dv u).add c ∧ st.dv u ≠ Dbl.pinf
  chain : ∀ v ∈ g.ids, v ∉ st.list →
    ∃ path, Chain st.prev v path ∧ (∀ x ∈ path, x ∈ g.ids ∧ x ∉ st.list) ∧ path.Nodup
  spath : ∀ v ∈ g.ids, st.dv v ≠ Dbl.pinf →
    ∃ p, IsPath g source v p (st.dv v) ∧ p.Nodup ∧ ∀ y ∈ p, y ≠ v → y ∉ st.list

/-- What holds before every round of the main loop when the weights are
non-negative: every edge that leaves a finalised node is relaxed. -/
structure InvN (g : Graph Dbl Dbl) (source target : Nat) (st : LoopState) : Prop where
  core : Core g source target st
  edges_done : ∀ u ∈ g.ids, u ∉ st.list → ∀ v c, g.weight u v = some c →
    (st.dv v).le ((st.dv u).add c) = true

/-- What holds inside the relaxation of the outbound edges of `x`, after the
edges `done`, when the weights are non-negative. -/
structure InvR (g : Graph Dbl Dbl) (source target x : Nat) (done : List (Edge Dbl))
    (st : LoopState) : Prop where
  core : Core g source target st
  x_in : x ∈ g.ids
  x_out : x ∉ st.list
  x_max : ∀ u ∈ g.ids, u ∉ st.list → (st.dv u).le (st.dv x) = true
  edges_done : ∀ u ∈ g.ids, u ∉ st.list → u ≠ x → ∀ v c, g.weight u v = some c →
    (st.dv v).le ((st.dv u).add c) = true
  done_sub : ∀ e ∈ done, e ∈ g.out_edges x
  edges_x : ∀ e ∈ done, (st.dv e.to_).le ((st.dv x).add e.data) = true

/-- All edge weights of the graph are finite. -/
def FiniteWeights (g : Graph Dbl Dbl) : Prop :=
  ∀ p ∈ g.nodes, ∀ e ∈ p.2.edges_out, e.data.finite = true

instance (g : Graph Dbl Dbl) : Decidable (FiniteWeights g) := by
  unfold FiniteWeights; infer_instance

/-- A graph of two nodes and the edge `0 -> 1` of weight `+infinity`. -/
def inf_edge : Graph Dbl Dbl :=
  ⟨[(0, ⟨0, Dbl.fin 0, [], [⟨0, 1, Dbl.pinf⟩]⟩), (1, ⟨1, Dbl.fin 0, [⟨0, 1, Dbl.pinf⟩], []⟩)],
    [((0, 1), ⟨0, 1, Dbl.pinf⟩)]⟩

instance (g : Graph Dbl Dbl) (s t : Nat) (p : List Nat) (w : Dbl) :
    Decidable (IsPath g s t p w) := by
  unfold IsPath; infer_instance

/-- Whether a run of `dijkstra` with source `0` and target `5` on the node
map `nodes` gives distance `20` to node `5` and the predecessors
`5 <- 3 <- 4 <- 2 <- 0`, node `0` having none. -/
def main_check (nodes : List (Nat × Node Dbl Dbl)) : Bool :=
  match dijkstra ⟨nodes, []⟩ 0 5 UMap.empty UMap.empty with
  | .ok o => !o.not_in_graph && o.return_dist 5 == some (Dbl.ofInt 20) &&
      o.return_prev 5 == some 3 && o.return_prev 3 == some 4 && o.return_prev 4 == some 2 &&
      o.return_prev 2 == some 0 && o.return_prev 0 == some (-1)
  | .error _ => false

/-- The states in which the main loop of `dijkstra` starts a round: the state
after the initialisation, and the state after every round that goes through
the relaxation (lines 39-67). -/
inductive LoopHead (g : Graph Dbl Dbl) (source target : Nat) : LoopState → Prop where
  | start : LoopHead g source target (start_state g source)
  | round {st st2 : LoopState} {node : Nat} {d : Dbl} :
      LoopHead g source target st → st.list.isEmpty = false →
      select st.dist st.list = .ok node → node ≠ target →
      (erased_state node st).dist.at_ node = .ok d → d.ge INF = false →
      relax g node (erased_state node st) = .ok st2 → LoopHead g source target st2

/-- Every node of `list` has a distance, and this distance is not NaN. -/
def Scannable (st : LoopState) : Prop :=
  ∀ k ∈ st.list, ∃ a, st.dist k = some a ∧ a ≠ Dbl.nan

/-- A graph of the nodes `4294967295` and `0` and the edge `4294967295 -> 0`
of weight 1. -/
def big_id : Graph Dbl Dbl :=
  ⟨[(4294967295, ⟨4294967295, Dbl.fin 0, [], [⟨4294967295, 0, Dbl.ofInt 1⟩]⟩),
    (0, ⟨0, Dbl.fin 0, [⟨4294967295, 0, Dbl.ofInt 1⟩], []⟩)],
    [((4294967295, 0), ⟨4294967295, 0, Dbl.ofInt 1⟩)]⟩

/-! ## The store operations of the stress loop -/

/-- Modelled from the spec: the error kinds of the store (section 7). -/
inductive StoreErr where
  | DuplicateNode
  | DuplicateEdge
  | UnknownNode
  | UnknownEdge
  deriving DecidableEq, Repr

namespace Graph

/-- Modelled from the spec: `add_node` of `graph.h`, which is not among the
sources.  Fails with `DuplicateNode` when the id is present and leaves the
store as it is; otherwise adds a node without edges.  The result is the
signalled error, if any, and the store after the call. -/
def add_node {N E : Type} (g : Graph N E) (id : Nat) (data : N) :
    Option StoreErr × Graph N E :=
  if g.has_node id then (some StoreErr.DuplicateNode, g)
  else (none, { g with nodes := g.nodes ++ [(id, ⟨id, data, [], []⟩)] })

/-- Modelled from the spec: `add_edge` of `graph.h`, which is not among the
sources.  Fails with `UnknownNode` when an end point is absent and with
`DuplicateEdge` when the edge is present, and then leaves the store as it is;
otherwise the edge enters the edge mapping, the outbound list of its source
and the inbound list of its destination. -/
def add_edge {N E : Type} (g : Graph N E) (from_ to_ : Nat) (data : E) :
    Option StoreErr × Graph N E :=
  if !g.has_node from_ || !g.has_node to_ then (some StoreErr.UnknownNode, g)
  else if (g.edges.lookup (from_, to_)).isSome then (some StoreErr.DuplicateEdge, g)
  else
    (none,
      { nodes := g.nodes.map (fun p =>
          (p.1, { p.2 with
            edges_out := if p.1 = from_ then p.2.edges_out ++ [⟨from_, to_, data⟩]
              else p.2.edges_out
            edges_in := if p.1 = to_ then p.2.edges_in ++ [⟨from_, to_, data⟩]
              else p.2.edges_in }))
        edges := g.edges ++ [((from_, to_), ⟨from_, to_, data⟩)] })

/-- The number of nodes: `nodes.size()`. -/
def node_count {N E : Type} (g : Graph N E) : Nat := g.nodes.length

/-- The number of edges: `edges.size()`. -/
def edge_count {N E : Type} (g : Graph N E) : Nat := g.edges.length

/-- Lines 178-183 of `main`: the sum `c` of the sizes of all inbound and
outbound lists. -/
def adjacency_count {N E : Type} (g : Graph N E) : Nat :=
  g.nodes.foldl (fun c n => c + n.2.edges_in.length + n.2.edges_out.length) 0

/-- Modelled from the spec: the invariants of the store (section 3).  The
node ids and the edge keys are unique; an edge is keyed by its end points,
which are nodes of the store; the outbound list of a node holds the edges of
the store that leave it, its inbound list those that enter it, and nothing
else. -/
def Consistent {N E : Type} (g : Graph N E) : Prop :=
  g.ids.Nodup ∧ (g.edges.map Prod.fst).Nodup ∧
  (∀ q ∈ g.edges, q.1 = (q.2.from_, q.2.to_) ∧ g.has_node q.2.from_ = true ∧
    g.has_node q.2.to_ = true) ∧
  (∀ p ∈ g.nodes,
    (∀ e ∈ p.2.edges_out, e.from_ = p.1 ∧ ((e.from_, e.to_), e) ∈ g.edges) ∧
    (∀ e ∈ p.2.edges_in, e.to_ = p.1 ∧ ((e.from_, e.to_), e) ∈ g.edges)) ∧
  (∀ q ∈ g.edges, ∀ p ∈ g.nodes,
    (p.1 = q.1.1 → q.2 ∈ p.2.edges_out) ∧ (p.1 = q.1.2 → q.2 ∈ p.2.edges_in))

instance {N E : Type} [DecidableEq E] (g : Graph N E) : Decidable g.Consistent := by
  unfold Consistent; infer_instance

end Graph

/-- The struct `Data` of `main.cpp`: a vector of doubles, empty after the
constructor (the reserved capacity is not modelled). -/
structure Data where
  bar : List Dbl
  deriving DecidableEq, Repr

/-- Lines 163-168 of `main`: `mem_graph` with the nodes `0..9`. -/
def stress_init : Graph Data Data :=
  (List.range 10).foldl (fun g i => (g.add_node i ⟨[]⟩).2) ⟨[], []⟩

/-- Lines 174-176 of `main`: one round of the stress loop, for the value `i`
of the loop variable. -/
def stress_round (g : Graph Data Data) (i : Nat) : Graph Data Data :=
  (((g.add_node i ⟨[]⟩).2.add_edge (i - 1) i ⟨[]⟩).2).remove_node (i - 2)

/-- Lines 172-187 of `main`: `mem_graph` after the first `n` rounds of the
stress loop, which starts at `i = 10`. -/
def stress_run : Nat → Graph Data Data
  | 0 => stress_init
  | n + 1 => stress_round (stress_run n) (10 + n)

/-- A node of `mem_graph` with its inbound and outbound edges. -/
def stress_node (k : Nat) (ins outs : List (Edge Data)) : Nat × Node Data Data :=
  (k, ⟨k, ⟨[]⟩, ins, outs⟩)

/-- An edge of `mem_graph`. -/
def stress_edge (a b : Nat) : Edge Data := ⟨a, b, ⟨[]⟩⟩

/-- The nodes `0..7` of `mem_graph`, which the stress loop leaves alone. -/
def stress_base : List (Nat × Node Data Data) :=
  (List.range 8).map (fun k => stress_node k [] [])

/-- The store that the round of the stress loop with `i = 10 + n` leaves
behind: the nodes `0..7`, `i - 1` and `i`, and the edge from `i - 1` to `i`. -/
def stress_state (n : Nat) : Graph Data Data :=
  ⟨stress_base ++
    [stress_node (n + 9) [] [stress_edge (n + 9) (n + 10)],
     stress_node (n + 10) [stress_edge (n + 9) (n + 10)] []],
    [((n + 9, n + 10), stress_edge (n + 9) (n + 10))]⟩

/-- The store of the stress loop after `add_node(i)`, for `i = 11 + n`. -/
def stress_mid1 (n : Nat) : Graph Data Data :=
  ⟨stress_base ++
    [stress_node (n + 9) [] [stress_edge (n + 9) (n + 10)],
     stress_node (n + 10) [stress_edge (n + 9) (n + 10)] [],
     stress_node (n + 11) [] []],
    [((n + 9, n + 10), stress_edge (n + 9) (n + 10))]⟩

/-- The store of the stress loop after `add_edge(i-1, i)`, for `i = 11 + n`. -/
def stress_mid2 (n : Nat) : Graph Data Data :=
  ⟨stress_base ++
    [stress_node (n + 9) [] [stress_edge (n + 9) (n + 10)],
     stress_node (n + 10) [stress_edge (n + 9) (n + 10)] [stress_edge (n + 10) (n + 11)],
     stress_node (n + 11) [stress_edge (n + 10) (n + 11)] []],
    [((n + 9, n + 10), stress_edge (n + 9) (n + 10)),
     ((n + 10, n + 11), stress_edge (n + 10) (n + 11))]⟩

/-- The store of the stress loop after the edge from `i - 2` to `i - 1` has
been removed, for `i = 11 + n`. -/
def stress_mid3 (n : Nat) : Graph Data Data :=
  ⟨stress_base ++
    [stress_node (n + 9) [] [],
     stress_node (n + 10) [] [stress_edge (n + 10) (n + 11)],
     stress_node (n + 11) [stress_edge (n + 10) (n + 11)] []],
    [((n + 10, n + 11), stress_edge (n + 10) (n + 11))]⟩

/-- The part of the invariants of the store that `remove_node` relies on: an
edge is keyed by its end points, and the edges in the lists of a node start
or end at this node and are keys of the edge mapping. -/
def Graph.Linked {N E : Type} (g : Graph N E) : Prop :=
  (∀ q ∈ g.edges, q.1 = (q.2.from_, q.2.to_)) ∧
  ∀ p ∈ g.nodes,
    (∀ e ∈ p.2.edges_out, e.from_ = p.1 ∧ (e.from_, e.to_) ∈ g.edges.map Prod.fst) ∧
    (∀ e ∈ p.2.edges_in, e.to_ = p.1 ∧ (e.from_, e.to_) ∈ g.edges.map Prod.fst)

/-- All edge weights of the graph are doubles. -/
def DoubleWeights (g : Graph Dbl Dbl) : Prop :=
  ∀ p ∈ g.nodes, ∀ e ∈ p.2.edges_out, e.data.is_double = true

instance (g : Graph Dbl Dbl) : Decidable (DoubleWeights g) := by
  unfold DoubleWeights; infer_instance

/-- The double `0.1`, which is `3602879701896397 * 2^-55`. -/
def tenth : Dbl := Dbl.fin (3602879701896397 * ((2 ^ 1019 : Nat) : Int))

/-- The double `0.2`, which is `3602879701896397 * 2^-54`. -/
def fifth : Dbl := Dbl.fin (3602879701896397 * ((2 ^ 1020 : Nat) : Int))

/-- The largest finite double, `(2^53 - 1) * 2^971`. -/
def max_double : Dbl := Dbl.fin (9007199254740991 * ((2 ^ 2045 : Nat) : Int))

/-! ## Total weights, without rounding -/

/-- The total weight of the walk that starts in `u` with the total `acc` so
far and goes on through the nodes `rest`: the sum of the weights as real
numbers, without rounding; `none` when two consecutive nodes are not joined by
an edge. -/
def total_weight_from (g : Graph Dbl Dbl) (acc : Dbl) : Nat → List Nat → Option Dbl
  | _, [] => some acc
  | u, v :: rest =>
    match g.weight u v with
    | some c => total_weight_from g (acc.sum c) v rest
    | none => none

/-- The total weight of the directed path through the nodes `p`: the sum of
the weights of its edges as real numbers; `none` when `p` is not a directed
path of the graph. -/
def total_weight (g : Graph Dbl Dbl) : List Nat → Option Dbl
  | [] => none
  | s :: rest => if g.has_node s then total_weight_from g (Dbl.fin 0) s rest else none

/-- The node sequence `p` is a directed path of `g` from `s` to `t` of total
weight `w`, the weights added as real numbers.  A node may occur several
times on it. -/
def IsPathTotal (g : Graph Dbl Dbl) (s t : Nat) (p : List Nat) (w : Dbl) : Prop :=
  p.head? = some s ∧ p.getLast? = some t ∧ total_weight g p = some w

instance (g : Graph Dbl Dbl) (s t : Nat) (p : List Nat) (w : Dbl) :
    Decidable (IsPathTotal g s t p w) := by
  unfold IsPathTotal; infer_instance

/-- A graph of the nodes `0..3` with the edges `0 -> 1` of weight `2^53`
(`9007199254740992`) and `1 -> 2` of weight `1`; node `3` has no edge. -/
def round_chain : Graph Dbl Dbl :=
  ⟨[(0, ⟨0, Dbl.fin 0, [], [⟨0, 1, Dbl.ofInt 9007199254740992⟩]⟩),
    (1, ⟨1, Dbl.fin 0, [⟨0, 1, Dbl.ofInt 9007199254740992⟩], [⟨1, 2, Dbl.ofInt 1⟩]⟩),
    (2, ⟨2, Dbl.fin 0, [⟨1, 2, Dbl.ofInt 1⟩], []⟩),
    (3, ⟨3, Dbl.fin 0, [], []⟩)],
    [((0, 1), ⟨0, 1, Dbl.ofInt 9007199254740992⟩), ((1, 2), ⟨1, 2, Dbl.ofInt 1⟩)]⟩

/-- The double `2^1023`. -/
def two_pow_1023 : Dbl := Dbl.ofInt ((2 ^ 1023 : Nat) : Int)

/-- A graph of the nodes `0..2` with the edges `0 -> 1` and `1 -> 2`, both of
weight `2^1023`. -/
def overflow_chain : Graph Dbl Dbl :=
  ⟨[(0, ⟨0, Dbl.fin 0, [], [⟨0, 1, two_pow_1023⟩]⟩),
    (1, ⟨1, Dbl.fin 0, [⟨0, 1, two_pow_1023⟩], [⟨1, 2, two_pow_1023⟩]⟩),
    (2, ⟨2, Dbl.fin 0, [⟨1, 2, two_pow_1023⟩], []⟩)],
    [((0, 1), ⟨0, 1, two_pow_1023⟩), ((1, 2), ⟨1, 2, two_pow_1023⟩)]⟩

/-- A graph of the nodes `0..3` with the edges `0 -> 1` of weight `10^16`,
`0 -> 3` of weight `10^16 + 2`, `1 -> 2` of weight `1` and `2 -> 3` of weight
`1`; all four weights are doubles. -/
def round_fork : Graph Dbl Dbl :=
  ⟨[(0, ⟨0, Dbl.fin 0, [],
      [⟨0, 1, Dbl.ofInt 10000000000000000⟩, ⟨0, 3, Dbl.ofInt 10000000000000002⟩]⟩),
    (1, ⟨1, Dbl.fin 0, [⟨0, 1, Dbl.ofInt 10000000000000000⟩], [⟨1, 2, Dbl.ofInt 1⟩]⟩),
    (2, ⟨2, Dbl.fin 0, [⟨1, 2, Dbl.ofInt 1⟩], [⟨2, 3, Dbl.ofInt 1⟩]⟩),
    (3, ⟨3, Dbl.fin 0, [⟨0, 3, Dbl.ofInt 10000000000000002⟩, ⟨2, 3, Dbl.ofInt 1⟩], []⟩)],
    [((0, 1), ⟨0, 1, Dbl.ofInt 10000000000000000⟩),
     ((0, 3), ⟨0, 3, Dbl.ofInt 10000000000000002⟩),
     ((1, 2), ⟨1, 2, Dbl.ofInt 1⟩), ((2, 3), ⟨2, 3, Dbl.ofInt 1⟩)]⟩

/-! ## Weights whose sums do not round -/

/-- The value is `k * 2^j` units for a natural number `k` of at most `K`. -/
def Dbl.is_multiple (j K : Nat) (c : Dbl) : Prop :=
  ∃ k, k ≤ K ∧ c = Dbl.fin ((k * 2 ^ j : Nat) : Int)

instance (j K : Nat) (c : Dbl) : Decidable (c.is_multiple j K) := by
  unfold Dbl.is_multiple; infer_instance

/-- No sum of weights along a path of fewer edges than the graph has nodes
rounds or overflows: every weight is a multiple `k * 2^j` of one power of two
with `k` at most `K`, and `K` times the number of nodes is below `2^53`, so
that such a sum is a multiple of `2^j` below `2^(j+53)`, and `j` is at most
`2045`. -/
def ExactWeights (g : Graph Dbl Dbl) (j K : Nat) : Prop :=
  j ≤ 2045 ∧ K * g.nodes.length < 2 ^ 53 ∧
  ∀ p ∈ g.nodes, ∀ e ∈ p.2.edges_out, e.data.is_multiple j K

instance (g : Graph Dbl Dbl) (j K : Nat) : Decidable (ExactWeights g j K) := by
  unfold ExactWeights; infer_instance

/-- There is a walk from `s` to the node in first place whose total weight,
the weights added as real numbers, is the value in second place. -/
inductive WalkTotal (g : Graph Dbl Dbl) (s : Nat) : Nat → Dbl → Prop where
  | nil : g.has_node s = true → WalkTotal g s s (Dbl.fin 0)
  | snoc {u v : Nat} {w c : Dbl} : WalkTotal g s u w → g.weight u v = some c →
      WalkTotal g s v (w.sum c)

set_option linter.unnecessarySeqFocus false

/-! ## Facts about doubles -/

namespace Dbl

theorem nonneg_iff (a : Dbl) : a.nonneg = true ↔ a = pinf ∨ ∃ k : Int, 0 ≤ k ∧ a = fin k := by
  cases a <;> simp [nonneg, ge]

theorem ge_INF_iff (a : Dbl) : a.ge INF = true ↔ a = pinf := by
  cases a <;> simp [ge, INF]

theorem le_refl_of_nonneg {a : Dbl} (h : a.nonneg = true) : a.le a = true := by
  cases a <;> simp [nonneg, le, ge] at *

theorem le_trans {a b c : Dbl} (h1 : a.le b = true) (h2 : b.le c = true) : a.le c = true := by
  cases a <;> cases b <;> cases c <;> simp [le, ge] at * <;> omega

theorem le_antisymm {a b : Dbl} (h1 : a.le b = true) (h2 : b.le a = true) : a = b := by
  cases a <;> cases b <;> simp [le, ge] at * <;> omega

theorem nonneg_of_le {a b : Dbl} (ha : a.nonneg = true) (h : a.le b = true) : b.nonneg = true := by
  cases a <;> cases b <;> simp [nonneg, le, ge] at * <;> omega

theorem le_pinf {a : Dbl} (h : a.nonneg = true) : a.le pinf = true := by
  cases a <;> simp [nonneg, le, ge] at *

theorem pinf_le {a : Dbl} (h : pinf.le a = true) : a = pinf := by
  cases a <;> simp [le, ge] at *

theorem zero_le {a : Dbl} (h : a.nonneg = true) : (fin 0).le a = true := h

/-! ### Rounding -/

theorem blog_step_spec (n k K : Nat) (hK : K = k + k) (s : Nat × Nat) (h0 : s.1 ≠ 0)
    (h1 : s.1 = n / 2 ^ s.2) (h2 : s.1 < 2 ^ K) :
    (blog_step s k).1 ≠ 0 ∧ (blog_step s k).1 = n / 2 ^ (blog_step s k).2 ∧
      (blog_step s k).1 < 2 ^ k := by
  subst hK
  unfold blog_step
  have hpos : 0 < 2 ^ k := Nat.two_pow_pos _
  by_cases h : 2 ^ k ≤ s.1
  · rw [if_pos h]
    refine ⟨?_, ?_, ?_⟩
    · exact Nat.ne_of_gt (Nat.div_pos h hpos)
    · show s.1 / 2 ^ k = n / 2 ^ (s.2 + k)
      rw [h1, Nat.div_div_eq_div_mul, ← Nat.pow_add]
    · show s.1 / 2 ^ k < 2 ^ k
      rw [Nat.div_lt_iff_lt_mul hpos, ← Nat.pow_add]
      exact h2
  · rw [if_neg h]
    exact ⟨h0, h1, Nat.lt_of_not_le h⟩

theorem pow_le_of_div_eq_one {n a : Nat} (h : n / 2 ^ a = 1) :
    2 ^ a ≤ n ∧ n < 2 ^ (a + 1) := by
  have hpos : 0 < 2 ^ a := Nat.two_pow_pos _
  constructor
  · by_contra hc
    have : n / 2 ^ a = 0 := Nat.div_eq_of_lt (Nat.lt_of_not_le hc)
    omega
  · by_contra hc
    have h2 : 2 ^ (a + 1) ≤ n := Nat.le_of_not_lt hc
    have : 2 ≤ n / 2 ^ a := by
      rw [Nat.le_div_iff_mul_le hpos]
      rw [Nat.pow_succ] at h2
      omega
    omega

theorem blog_spec {n : Nat} (h0 : n ≠ 0) (h : n < 2 ^ 4096) :
    2 ^ blog n ≤ n ∧ n < 2 ^ (blog n + 1) := by
  unfold blog
  simp only [List.foldl]
  have a0 : ((n, 0) : Nat × Nat).1 = n / 2 ^ ((n, 0) : Nat × Nat).2 := by simp
  obtain ⟨b0, b1, b2⟩ := blog_step_spec n 2048 4096 rfl (n, 0) h0 a0 h
  obtain ⟨c0, c1, c2⟩ := blog_step_spec n 1024 2048 rfl _ b0 b1 b2
  obtain ⟨d0, d1, d2⟩ := blog_step_spec n 512 1024 rfl _ c0 c1 c2
  obtain ⟨e0, e1, e2⟩ := blog_step_spec n 256 512 rfl _ d0 d1 d2
  obtain ⟨f0, f1, f2⟩ := blog_step_spec n 128 256 rfl _ e0 e1 e2
  obtain ⟨g0, g1, g2⟩ := blog_step_spec n 64 128 rfl _ f0 f1 f2
  obtain ⟨i0, i1, i2⟩ := blog_step_spec n 32 64 rfl _ g0 g1 g2
  obtain ⟨j0, j1, j2⟩ := blog_step_spec n 16 32 rfl _ i0 i1 i2
  obtain ⟨k0, k1, k2⟩ := blog_step_spec n 8 16 rfl _ j0 j1 j2
  obtain ⟨l0, l1, l2⟩ := blog_step_spec n 4 8 rfl _ k0 k1 k2
  obtain ⟨m0, m1, m2⟩ := blog_step_spec n 2 4 rfl _ l0 l1 l2
  obtain ⟨p0, p1, p2⟩ := blog_step_spec n 1 2 rfl _ m0 m1 m2
  have hs1 : _ = 1 := Nat.le_antisymm (Nat.lt_succ_iff.mp p2) (Nat.pos_of_ne_zero p0)
  rw [hs1] at p1
  exact pow_le_of_div_eq_one p1.symm

theorem blog_zero : blog 0 = 0 := by decide

theorem blog_mono {a b : Nat} (hb : b < 2 ^ 4096) (h : a ≤ b) : blog a ≤ blog b := by
  by_cases ha : a = 0
  · rw [ha, blog_zero]; exact Nat.zero_le _
  · have hb0 : b ≠ 0 := by omega
    obtain ⟨s1, _⟩ := blog_spec ha (Nat.lt_of_le_of_lt h hb)
    obtain ⟨_, t2⟩ := blog_spec hb0 hb
    have : blog a < blog b + 1 :=
      (Nat.pow_lt_pow_iff_right (by decide : 1 < 2)).mp
        (Nat.lt_of_le_of_lt (Nat.le_trans s1 h) t2)
    omega

theorem round_to_cases (e n : Nat) :
    round_to e n = n / 2 ^ e * 2 ^ e ∨ round_to e n = n / 2 ^ e * 2 ^ e + 2 ^ e := by
  unfold round_to
  simp only
  split
  · exact Or.inl rfl
  · exact Or.inr (by rw [Nat.add_mul, Nat.one_mul])

theorem dvd_round_to (e n : Nat) : 2 ^ e ∣ round_to e n := by
  rcases round_to_cases e n with h | h
  · rw [h]; exact Nat.dvd_mul_left _ _
  · rw [h]; exact Nat.dvd_add (Nat.dvd_mul_left _ _) (Nat.dvd_refl _)

theorem round_to_of_dvd {e n : Nat} (h : 2 ^ e ∣ n) : round_to e n = n := by
  unfold round_to
  simp only
  have hr : n % 2 ^ e = 0 := Nat.mod_eq_zero_of_dvd h
  have hh : 0 < 2 ^ (e - 1) := Nat.two_pow_pos _
  rw [hr, if_pos (Or.inl hh)]
  exact Nat.div_mul_cancel h

theorem round_to_mono (e : Nat) {a b : Nat} (h : a ≤ b) : round_to e a ≤ round_to e b := by
  have hP : 0 < 2 ^ e := Nat.two_pow_pos _
  have hq : a / 2 ^ e ≤ b / 2 ^ e := Nat.div_le_div_right h
  have ha := Nat.div_add_mod a (2 ^ e)
  have hb := Nat.div_add_mod b (2 ^ e)
  rw [Nat.mul_comm] at ha hb
  rcases Nat.lt_or_ge (a / 2 ^ e) (b / 2 ^ e) with hlt | hge
  · have h1 : a / 2 ^ e * 2 ^ e + 2 ^ e ≤ b / 2 ^ e * 2 ^ e := by
      have := Nat.mul_le_mul_right (2 ^ e) (Nat.succ_le_of_lt hlt)
      rw [Nat.succ_mul] at this
      exact this
    rcases round_to_cases e a with x | x <;> rcases round_to_cases e b with y | y <;>
      rw [x, y] <;> omega
  · have heq : a / 2 ^ e = b / 2 ^ e := Nat.le_antisymm hq hge
    have hr : a % 2 ^ e ≤ b % 2 ^ e := by
      rw [heq] at ha
      omega
    unfold round_to
    simp only
    rw [heq]
    by_cases cb : b % 2 ^ e < 2 ^ (e - 1) ∨ (b % 2 ^ e = 2 ^ (e - 1) ∧ b / 2 ^ e % 2 = 0)
    · have ca : a % 2 ^ e < 2 ^ (e - 1) ∨ (a % 2 ^ e = 2 ^ (e - 1) ∧ b / 2 ^ e % 2 = 0) := by
        rcases cb with c | ⟨c1, c2⟩
        · exact Or.inl (Nat.lt_of_le_of_lt hr c)
        · rcases Nat.lt_or_ge (a % 2 ^ e) (2 ^ (e - 1)) with d | d
          · exact Or.inl d
          · exact Or.inr ⟨Nat.le_antisymm (c1 ▸ hr) d, c2⟩
      rw [if_pos ca, if_pos cb]
    · rw [if_neg cb]
      split
      · exact Nat.mul_le_mul_right _ (Nat.le_succ _)
      · exact Nat.le_refl _

theorem round_to_le_of_dvd {e n M : Nat} (hM : 2 ^ e ∣ M) (h : n ≤ M) : round_to e n ≤ M := by
  have := round_to_mono e h
  rwa [round_to_of_dvd hM] at this

theorem le_round_to_of_dvd {e n M : Nat} (hM : 2 ^ e ∣ M) (h : M ≤ n) : M ≤ round_to e n := by
  have := round_to_mono e h
  rwa [round_to_of_dvd hM] at this

theorem lt_4096_of_lt {n : Nat} (h : n < 2 ^ 2098) : n < 2 ^ 4096 :=
  Nat.lt_of_lt_of_le h (Nat.pow_le_pow_right (by decide) (by decide))

theorem blog_lt_of_lt {n k : Nat} (h0 : n < 2 ^ 4096) (h : n < 2 ^ k) : blog n < k ∨ n = 0 := by
  by_cases hn : n = 0
  · exact Or.inr hn
  · left
    obtain ⟨s1, _⟩ := blog_spec hn h0
    exact (Nat.pow_lt_pow_iff_right (by decide : 1 < 2)).mp (Nat.lt_of_le_of_lt s1 h)

/-- Below `2^2098` the rounded magnitude is at most `2^2098`. -/
theorem round_nat_le_top {n : Nat} (h : n < 2 ^ 2098) : round_nat n ≤ 2 ^ 2098 := by
  unfold round_nat
  rw [if_pos h]
  apply round_to_le_of_dvd _ (Nat.le_of_lt h)
  apply Nat.pow_dvd_pow
  rcases blog_lt_of_lt (lt_4096_of_lt h) h with h1 | h1
  · omega
  · rw [h1, blog_zero]; decide

theorem round_nat_of_ge {n : Nat} (h : 2 ^ 2098 ≤ n) : round_nat n = n := by
  unfold round_nat
  rw [if_neg (Nat.not_lt.mpr h)]

theorem round_nat_of_lt {n : Nat} (h : n < 2 ^ 2098) :
    round_nat n = round_to (blog n - 52) n := by
  unfold round_nat
  rw [if_pos h]

/-- Rounding is monotone. -/
theorem round_nat_mono {a b : Nat} (h : a ≤ b) : round_nat a ≤ round_nat b := by
  rcases Nat.lt_or_ge b (2 ^ 2098) with hb | hb
  · have ha : a < 2 ^ 2098 := Nat.lt_of_le_of_lt h hb
    have hb' := lt_4096_of_lt hb
    rw [round_nat_of_lt ha, round_nat_of_lt hb]
    have hm := blog_mono hb' h
    rcases Nat.lt_or_ge (blog a - 52) (blog b - 52) with hlt | hge
    · -- different binades
      have hb0 : b ≠ 0 := by
        intro hc
        rw [hc, blog_zero] at hlt
        exact Nat.not_lt_zero _ hlt
      obtain ⟨t1, _⟩ := blog_spec hb0 hb'
      have h1 : round_to (blog a - 52) a ≤ 2 ^ (blog a - 52 + 53) := by
        apply round_to_le_of_dvd (Nat.pow_dvd_pow 2 (by omega))
        by_cases ha0 : a = 0
        · rw [ha0]; exact Nat.zero_le _
        · obtain ⟨_, s2⟩ := blog_spec ha0 (lt_4096_of_lt ha)
          exact Nat.le_of_lt (Nat.lt_of_lt_of_le s2 (Nat.pow_le_pow_right (by decide) (by omega)))
      have h2 : 2 ^ blog b ≤ round_to (blog b - 52) b :=
        le_round_to_of_dvd (Nat.pow_dvd_pow 2 (by omega)) t1
      have h3 : 2 ^ (blog a - 52 + 53) ≤ 2 ^ blog b :=
        Nat.pow_le_pow_right (by decide) (by omega)
      exact Nat.le_trans h1 (Nat.le_trans h3 h2)
    · have heq : blog a - 52 = blog b - 52 := by omega
      rw [heq]
      exact round_to_mono _ h
  · rw [round_nat_of_ge hb]
    rcases Nat.lt_or_ge a (2 ^ 2098) with ha | ha
    · exact Nat.le_trans (round_nat_le_top ha) hb
    · rw [round_nat_of_ge ha]; exact h

/-- A magnitude that is a multiple of `2^j` and below `2^(j+53)` is left alone. -/
theorem round_nat_of_dvd {n j : Nat} (hd : 2 ^ j ∣ n) (h : n < 2 ^ (j + 53)) :
    round_nat n = n := by
  rcases Nat.lt_or_ge n (2 ^ 2098) with hn | hn
  · rw [round_nat_of_lt hn]
    apply round_to_of_dvd
    refine Nat.dvd_trans (Nat.pow_dvd_pow 2 ?_) hd
    rcases blog_lt_of_lt (lt_4096_of_lt hn) h with h1 | h1
    · omega
    · rw [h1, blog_zero]; omega
  · exact round_nat_of_ge hn

/-- Rounding leaves a rounded magnitude alone. -/
theorem round_nat_idem (n : Nat) : round_nat (round_nat n) = round_nat n := by
  rcases Nat.lt_or_ge n (2 ^ 2098) with hn | hn
  · rcases Nat.lt_or_ge (blog n) 53 with hs | hs
    · -- no rounding below 2^53
      have e : round_nat n = n := by
        rw [round_nat_of_lt hn]
        apply round_to_of_dvd
        have : blog n - 52 = 0 := by omega
        rw [this]
        exact Nat.one_dvd _
      rw [e, e]
    · have hn0 : n ≠ 0 := by
        intro hc
        rw [hc, blog_zero] at hs
        omega
      obtain ⟨s1, s2⟩ := blog_spec hn0 (lt_4096_of_lt hn)
      have hm : round_nat n = round_to (blog n - 52) n := round_nat_of_lt hn
      have hd : 2 ^ (blog n - 52) ∣ round_nat n := hm ▸ dvd_round_to _ _
      have hlo : 2 ^ blog n ≤ round_nat n := by
        rw [hm]
        exact le_round_to_of_dvd (Nat.pow_dvd_pow 2 (by omega)) s1
      have hhi : round_nat n ≤ 2 ^ (blog n + 1) := by
        rw [hm]
        exact round_to_le_of_dvd (Nat.pow_dvd_pow 2 (by omega)) (Nat.le_of_lt s2)
      rcases Nat.lt_or_ge (round_nat n) (2 ^ (blog n + 1)) with hlt | hge
      · apply @round_nat_of_dvd _ (blog n - 52) hd
        have : blog n - 52 + 53 = blog n + 1 := by omega
        rw [this]
        exact hlt
      · have e : round_nat n = 2 ^ (blog n + 1) := Nat.le_antisymm hhi hge
        rw [e]
        apply @round_nat_of_dvd _ (blog n + 1) (Nat.dvd_refl _)
        exact Nat.pow_lt_pow_right (by decide) (by omega)
  · rw [round_nat_of_ge hn, round_nat_of_ge hn]

theorem round_ofNat (n : Nat) :
    round (n : Int) = if round_nat n < 2 ^ 2098 then fin (round_nat n : Nat) else pinf := by
  unfold round
  have h : ¬ ((n : Int) < 0) := by omega
  simp only [Int.natAbs_ofNat, if_neg h]

/-- Rounding is monotone on the non-negative numbers. -/
theorem round_mono_nat {a b : Nat} (h : a ≤ b) : ((round (a : Int)).le (round (b : Int))) = true := by
  rw [round_ofNat, round_ofNat]
  have hm := round_nat_mono h
  by_cases hb : round_nat b < 2 ^ 2098
  · have ha : round_nat a < 2 ^ 2098 := Nat.lt_of_le_of_lt hm hb
    rw [if_pos ha, if_pos hb]
    simp only [le, ge, decide_eq_true_eq]
    exact Int.ofNat_le.mpr hm
  · rw [if_neg hb]
    by_cases ha : round_nat a < 2 ^ 2098
    · rw [if_pos ha]; rfl
    · rw [if_neg ha]; rfl

theorem round_nonneg_nat (n : Nat) : (round (n : Int)).nonneg = true := by
  rw [round_ofNat]
  split
  · simp only [nonneg, ge, decide_eq_true_eq]
    exact Int.ofNat_nonneg _
  · rfl

/-- What rounding returns is a double. -/
theorem round_is_double (k : Int) : (round k).is_double = true := by
  unfold round
  simp only
  split
  · rename_i hlt
    unfold is_double
    simp only [beq_iff_eq]
    unfold round
    simp only
    have e : (if k < 0 then -(round_nat k.natAbs : Int) else (round_nat k.natAbs : Int)).natAbs =
        round_nat k.natAbs := by
      split <;> simp
    have s : ((if k < 0 then -(round_nat k.natAbs : Int) else (round_nat k.natAbs : Int)) < 0) ↔
        (k < 0 ∧ round_nat k.natAbs ≠ 0) := by
      split <;> omega
    rw [e, round_nat_idem, if_pos hlt]
    congr 1
    by_cases hk : k < 0
    · by_cases h0 : round_nat k.natAbs = 0
      · rw [if_neg (by rw [s]; exact fun h => h.2 h0), if_pos hk, h0]; rfl
      · rw [if_pos (s.mpr ⟨hk, h0⟩), if_pos hk]
    · rw [if_neg (by rw [s]; exact fun h => hk h.1), if_neg hk]
  · split <;> rfl

/-- What `+` returns is a double. -/
theorem add_is_double (a b : Dbl) : (a.add b).is_double = true := by
  cases a <;> cases b <;> first | rfl | exact round_is_double _

/-- The `+` of the program is the exact sum when that is a double. -/
theorem add_eq_sum {a b : Dbl} (h : (a.sum b).is_double = true) : a.add b = a.sum b := by
  cases a <;> cases b <;> first | rfl | exact eq_of_beq h

theorem is_double_zero : (fin 0).is_double = true := by decide

/-! ### The `+` of the program on some doubles -/

/-- The sum `10^16 + 1` is rounded to `10^16`, the neighbour with the even
significand. -/
theorem add_round_down : (ofInt 10000000000000000).add (ofInt 1) = ofInt 10000000000000000 := by
  decide

/-- The sum `2^53 + 3` is rounded to `2^53 + 4`, the neighbour with the even
significand. -/
theorem add_round_up : (ofInt 9007199254740992).add (ofInt 3) = ofInt 9007199254740996 := by
  decide

/-- Small integers are added without rounding. -/
theorem add_small : (ofInt 9).add (ofInt 11) = ofInt 20 := by
  decide

/-- The sum `0.1 + 0.2` is the double `0.30000000000000004`, which is
`5404319552844596 * 2^-54`. -/
theorem add_tenth_fifth :
    tenth.add fifth = fin (5404319552844596 * ((2 ^ 1020 : Nat) : Int)) := by
  decide

/-- The sum `2^1023 + 2^1023` overflows to `+infinity`. -/
theorem add_overflow : two_pow_1023.add two_pow_1023 = pinf := by
  decide

/-- The largest finite double absorbs `1`, and overflows when half the
distance to `2^1024` is added to it. -/
theorem add_max_double :
    max_double.is_double = true ∧ max_double.add (ofInt 1) = max_double ∧
    max_double.add (fin ((2 ^ 2044 : Nat) : Int)) = pinf := by
  decide

/-- The smallest positive double is one unit, and two units are its double. -/
theorem add_subnormal : (fin 1).is_double = true ∧ (fin 1).add (fin 1) = fin 2 := by
  decide

theorem nonneg_add {a b : Dbl} (ha : a.nonneg = true) (hb : b.nonneg = true) :
    (a.add b).nonneg = true := by
  cases a <;> cases b <;> try (simp [nonneg, ge, add] at * <;> done)
  rename_i x y
  have hx : 0 ≤ x := by simpa [nonneg, ge] using ha
  have hy : 0 ≤ y := by simpa [nonneg, ge] using hb
  obtain ⟨n, rfl⟩ := Int.eq_ofNat_of_zero_le hx
  obtain ⟨m, rfl⟩ := Int.eq_ofNat_of_zero_le hy
  show (round ((n : Int) + (m : Int))).nonneg = true
  rw [← Int.ofNat_add]
  exact round_nonneg_nat _

/-- Adding a non-negative weight to a non-negative double does not make it
smaller. -/
theorem le_add_right {a b : Dbl} (ha : a.nonneg = true) (hb : b.nonneg = true)
    (hd : a.is_double = true) : a.le (a.add b) = true := by
  cases a <;> cases b <;> try (simp [nonneg, le, ge, add] at * <;> done)
  rename_i x y
  have hx : 0 ≤ x := by simpa [nonneg, ge] using ha
  have hy : 0 ≤ y := by simpa [nonneg, ge] using hb
  obtain ⟨n, rfl⟩ := Int.eq_ofNat_of_zero_le hx
  obtain ⟨m, rfl⟩ := Int.eq_ofNat_of_zero_le hy
  show (fin (n : Int)).le (round ((n : Int) + (m : Int))) = true
  have h1 := round_mono_nat (Nat.le_add_right n m)
  rw [Int.ofNat_add] at h1
  have h2 : round (n : Int) = fin (n : Int) := by
    unfold is_double at hd
    exact eq_of_beq hd
  rw [h2] at h1
  exact h1

/-- The `+` of a non-negative weight is monotone. -/
theorem add_le_add_right {a b c : Dbl} (ha : a.nonneg = true) (hc : c.nonneg = true)
    (h : a.le b = true) : (a.add c).le (b.add c) = true := by
  have hbn : b.nonneg = true := nonneg_of_le ha h
  cases c with
  | nan => simp [nonneg, ge] at hc
  | ninf => simp [nonneg, ge] at hc
  | pinf => cases a <;> cases b <;> simp [nonneg, le, ge, add] at *
  | fin z =>
    have hz : 0 ≤ z := by simpa [nonneg, ge] using hc
    obtain ⟨k, rfl⟩ := Int.eq_ofNat_of_zero_le hz
    cases a with
    | nan => simp [nonneg, ge] at ha
    | ninf => simp [nonneg, ge] at ha
    | pinf => cases b <;> simp [nonneg, le, ge, add] at *
    | fin x =>
      have hx : 0 ≤ x := by simpa [nonneg, ge] using ha
      obtain ⟨n, rfl⟩ := Int.eq_ofNat_of_zero_le hx
      cases b with
      | nan => simp [nonneg, ge] at hbn
      | ninf => simp [nonneg, ge] at hbn
      | pinf => exact le_pinf (nonneg_add ha hc)
      | fin y =>
        have hy : 0 ≤ y := by simpa [nonneg, ge] using hbn
        obtain ⟨m, rfl⟩ := Int.eq_ofNat_of_zero_le hy
        have hnm : n ≤ m := by
          have : (n : Int) ≤ (m : Int) := by simpa [le, ge] using h
          omega
        show (round ((n : Int) + (k : Int))).le (round ((m : Int) + (k : Int))) = true
        rw [← Int.ofNat_add, ← Int.ofNat_add]
        exact round_mono_nat (Nat.add_le_add_right hnm k)

theorem le_of_lt {a b : Dbl} (h : a.lt b = true) : a.le b = true := by
  cases a <;> cases b <;> simp [lt, le, ge] at * <;> omega

theorem le_of_not_lt {a b : Dbl} (ha : a.nonneg = true) (hb : b.nonneg = true)
    (h : a.lt b = false) : b.le a = true := by
  cases a <;> cases b <;> simp [nonneg, lt, le, ge] at * <;> omega

theorem not_lt_of_le {a b : Dbl} (h : a.le b = true) : b.lt a = false := by
  cases a <;> cases b <;> simp [lt, le, ge] at * <;> omega

theorem ne_pinf_of_lt {a b : Dbl} (h : a.lt b = true) : a ≠ pinf := by
  cases a <;> simp [lt] at *

theorem pinf_add_not_lt (c b : Dbl) : (pinf.add c).lt b = false := by
  cases c <;> cases b <;> simp [lt, add]

theorem add_zero {a : Dbl} (h : a.is_double = true) : a.add (fin 0) = a := by
  cases a <;> try rfl
  rename_i k
  show round (k + 0) = fin k
  rw [Int.add_zero]
  exact eq_of_beq h

end Dbl

/-! ## Facts about the 32-bit conversions -/

theorem toInt32_of_lt {n : Nat} (h : n < 2 ^ 31) : toInt32 n = (n : Int) := by
  unfold toInt32
  have : n % 2 ^ 32 = n := Nat.mod_eq_of_lt (by omega)
  rw [this]; split <;> omega

theorem toInt32_nonneg_iff {n : Nat} (h : n < 2 ^ 32) : 0 ≤ toInt32 n ↔ n < 2 ^ 31 := by
  unfold toInt32
  have : n % 2 ^ 32 = n := Nat.mod_eq_of_lt h
  rw [this]
  split <;> omega

theorem toUInt32_toInt32 {n : Nat} (h : n < 2 ^ 32) : toUInt32 (toInt32 n) = n := by
  unfold toInt32 toUInt32
  have : n % 2 ^ 32 = n := Nat.mod_eq_of_lt h
  rw [this]
  split <;> omega

namespace Dbl

theorem lt_pinf_of_finite {a : Dbl} (h : a.finite = true) : a.lt pinf = true := by
  cases a <;> simp [finite, lt] at *

theorem finite_of_nonneg_ne_pinf {a : Dbl} (h : a.nonneg = true) (hne : a ≠ pinf) :
    a.finite = true := by
  cases a <;> simp [finite, nonneg, ge] at *

theorem ne_pinf_of_finite {a : Dbl} (h : a.finite = true) : a ≠ pinf := by
  cases a <;> simp [finite] at *

theorem lt_irrefl (a : Dbl) : a.lt a = false := by
  cases a <;> simp [lt]

theorem lt_asymm {a b : Dbl} (h : a.lt b = true) : b.lt a = false := by
  cases a <;> cases b <;> simp [lt] at * <;> omega

theorem lt_trans {a b c : Dbl} (h1 : a.lt b = true) (h2 : b.lt c = true) : a.lt c = true := by
  cases a <;> cases b <;> cases c <;> simp [lt] at * <;> omega

end Dbl

/-! ## Facts about maps -/

namespace UMap

theorem at_ok {V : Type} {m : UMap V} {k : Nat} {v : V} (h : m k = some v) :
    m.at_ k = .ok v := by
  simp [at_, h]

theorem at_ok_iff {V : Type} (m : UMap V) (k : Nat) (v : V) :
    m.at_ k = .ok v ↔ m k = some v := by
  unfold at_
  cases h : m k <;> simp

theorem assign_ok {V : Type} {m : UMap V} {k : Nat} {old : V} (v : V) (h : m k = some old) :
    m.assign k v = .ok (m.set k v) := by
  simp [assign, h]

theorem set_same {V : Type} (m : UMap V) (k : Nat) (v : V) : m.set k v k = some v := by
  simp [set]

theorem set_other {V : Type} (m : UMap V) {k j : Nat} (v : V) (h : j ≠ k) :
    m.set k v j = m j := by
  simp [set, h]

end UMap

theorem lookup_isSome_iff {β : Type} (l : List (Nat × β)) (k : Nat) :
    (l.lookup k).isSome = true ↔ k ∈ l.map Prod.fst := by
  induction l with
  | nil => simp
  | cons a l ih =>
    obtain ⟨j, b⟩ := a
    by_cases h : k = j
    · subst h; simp [List.lookup]
    · have h' : (k == j) = false := by simpa using h
      simp [List.lookup, h', ih, h]

theorem mem_of_lookup {β : Type} {l : List (Nat × β)} {k : Nat} {b : β}
    (h : l.lookup k = some b) : (k, b) ∈ l := by
  induction l with
  | nil => simp at h
  | cons a l ih =>
    obtain ⟨j, c⟩ := a
    by_cases hk : k = j
    · subst hk
      simp [List.lookup] at h
      simp [h]
    · have h' : (k == j) = false := by simpa using hk
      simp [List.lookup, h'] at h
      exact List.mem_cons_of_mem _ (ih h)

namespace Graph

theorem has_node_iff {N E : Type} (g : Graph N E) (k : Nat) :
    g.has_node k = true ↔ k ∈ g.ids :=
  lookup_isSome_iff g.nodes k

theorem node_at_of_mem {N E : Type} (g : Graph N E) {k : Nat} (h : k ∈ g.ids) :
    ∃ n, g.nodes.lookup k = some n ∧ g.node_at k = .ok n ∧ g.out_edges k = n.edges_out ∧
      (k, n) ∈ g.nodes := by
  have h1 := (g.has_node_iff k).mpr h
  unfold has_node at h1
  obtain ⟨n, hn⟩ := Option.isSome_iff_exists.mp h1
  exact ⟨n, hn, by simp [node_at, hn], by simp [out_edges, hn], mem_of_lookup hn⟩

theorem mem_ids_of_mem_out_edges {N E : Type} {g : Graph N E} {k : Nat} {e : Edge E}
    (h : e ∈ g.out_edges k) : k ∈ g.ids := by
  unfold out_edges at h
  cases hl : g.nodes.lookup k with
  | none => simp [hl] at h
  | some n => exact (g.has_node_iff k).mp (by simp [has_node, hl])

theorem WF.closed {N E : Type} {g : Graph N E} (hg : g.WF) : g.Closed :=
  fun p hp => (hg.2.2 p hp).1

theorem to_mem_ids_of_closed {N E : Type} {g : Graph N E} (hg : g.Closed) {k : Nat}
    {e : Edge E} (h : e ∈ g.out_edges k) : e.to_ ∈ g.ids := by
  obtain ⟨n, _, _, ho, hm⟩ := g.node_at_of_mem (mem_ids_of_mem_out_edges h)
  rw [ho] at h
  exact hg _ hm e h

theorem to_mem_ids {N E : Type} {g : Graph N E} (hg : g.WF) {k : Nat} {e : Edge E}
    (h : e ∈ g.out_edges k) : e.to_ ∈ g.ids := by
  obtain ⟨n, _, _, ho, hm⟩ := g.node_at_of_mem (mem_ids_of_mem_out_edges h)
  rw [ho] at h
  exact (hg.2.2 _ hm).1 e h

theorem find_of_nodup {E : Type} (l : List (Edge E)) (hl : (l.map Edge.to_).Nodup)
    {e : Edge E} (he : e ∈ l) : l.find? (fun x => x.to_ == e.to_) = some e := by
  induction l with
  | nil => simp at he
  | cons a l ih =>
    rw [List.map_cons, List.nodup_cons] at hl
    rcases List.mem_cons.mp he with h | h
    · subst h; simp
    · have hne : a.to_ ≠ e.to_ := by
        intro heq
        exact hl.1 (heq ▸ List.mem_map_of_mem Edge.to_ h)
      have : (a.to_ == e.to_) = false := by simpa using hne
      rw [List.find?_cons, this]
      exact ih hl.2 h

theorem weight_of_mem {N E : Type} {g : Graph N E} (hg : g.WF) {k : Nat} {e : Edge E}
    (h : e ∈ g.out_edges k) : g.weight k e.to_ = some e.data := by
  obtain ⟨n, _, _, ho, hm⟩ := g.node_at_of_mem (mem_ids_of_mem_out_edges h)
  unfold weight
  rw [ho] at h ⊢
  rw [find_of_nodup _ (hg.2.2 _ hm).2 h]
  rfl

theorem mem_of_weight {N E : Type} {g : Graph N E} {u v : Nat} {c : E}
    (h : g.weight u v = some c) : ∃ e ∈ g.out_edges u, e.to_ = v ∧ e.data = c := by
  unfold weight at h
  cases hf : (g.out_edges u).find? (fun e => e.to_ == v) with
  | none => simp [hf] at h
  | some e =>
    simp [hf] at h
    have h1 := List.find?_some hf
    exact ⟨e, List.mem_of_find?_eq_some hf, by simpa using h1, h⟩

end Graph

/-! ## Loops that may throw -/

theorem foldlM_inv {α β : Type} (f : β → α → Except Err β) (P : List α → β → Prop)
    (l : List α)
    (hstep : ∀ done a b b', a ∈ l → P done b → f b a = .ok b' → P (done ++ [a]) b') :
    ∀ (done : List α) (b b' : β), P done b → l.foldlM f b = .ok b' → P (done ++ l) b' := by
  induction l with
  | nil =>
    intro done b b' hP h
    simp [List.foldlM, pure, Except.pure] at h
    subst h; simpa using hP
  | cons a l ih =>
    intro done b b' hP h
    rw [List.foldlM_cons] at h
    cases hf : f b a with
    | error e => rw [hf] at h; simp [bind, Except.bind] at h
    | ok b1 =>
      rw [hf] at h
      simp only [bind, Except.bind] at h
      have h1 := hstep done a b b1 (List.mem_cons_self _ _) hP hf
      have := ih (fun d x y y' hx => hstep d x y y' (List.mem_cons_of_mem _ hx)) (done ++ [a]) b1 b' h1 h
      simpa using this

theorem foldlM_ok {α β : Type} (f : β → α → Except Err β) (I : β → Prop) (l : List α)
    (hstep : ∀ a b, a ∈ l → I b → ∃ b', f b a = .ok b' ∧ I b') :
    ∀ b, I b → ∃ b', l.foldlM f b = .ok b' ∧ I b' := by
  induction l with
  | nil => intro b hb; exact ⟨b, rfl, hb⟩
  | cons a l ih =>
    intro b hb
    obtain ⟨b1, hf, hb1⟩ := hstep a b (List.mem_cons_self _ _) hb
    obtain ⟨b2, h2, hb2⟩ := ih (fun x y hx => hstep x y (List.mem_cons_of_mem _ hx)) b1 hb1
    refine ⟨b2, ?_, hb2⟩
    rw [List.foldlM_cons, hf]
    simpa [bind, Except.bind] using h2

/-! ## The initialisation -/

theorem init_fold_list (l : List (Nat × Node Dbl Dbl)) (st : LoopState) :
    (l.foldl init_step st).list = st.list ++ l.map Prod.fst := by
  induction l generalizing st with
  | nil => simp
  | cons a l ih => simp [List.foldl_cons, ih, init_step]

theorem init_fold_relaxed (l : List (Nat × Node Dbl Dbl)) (st : LoopState) :
    (l.foldl init_step st).relaxed = st.relaxed := by
  induction l generalizing st with
  | nil => simp
  | cons a l ih => simp [List.foldl_cons, ih, init_step]

theorem init_fold_dist (l : List (Nat × Node Dbl Dbl)) (st : LoopState) (k : Nat) :
    (l.foldl init_step st).dist k =
      match st.dist k with
      | some d => some d
      | none => if k ∈ l.map Prod.fst then some INF else none := by
  induction l generalizing st with
  | nil => cases h : st.dist k <;> simp [h]
  | cons a l ih =>
    rw [List.foldl_cons, ih]
    by_cases hk : k = a.1
    · subst hk
      cases h : st.dist a.1 <;> simp [init_step, UMap.emplace, h]
    · have hm : (k ∈ a.1 :: l.map Prod.fst) ↔ k ∈ l.map Prod.fst := by
        rw [List.mem_cons]; exact ⟨fun h => h.resolve_left hk, Or.inr⟩
      cases h : st.dist k
      · by_cases hm' : k ∈ l.map Prod.fst
        · simp [init_step, UMap.emplace, h, hk, hm']
        · have := mt hm.mp hm'
          simp only [List.map_cons] at *
          simp [init_step, UMap.emplace, h, hk, hm', this]
      · simp [init_step, UMap.emplace, h, hk]

theorem init_fold_prev (l : List (Nat × Node Dbl Dbl)) (st : LoopState) (k : Nat) :
    (l.foldl init_step st).prev k =
      match st.prev k with
      | some d => some d
      | none => if k ∈ l.map Prod.fst then some (-1) else none := by
  induction l generalizing st with
  | nil => cases h : st.prev k <;> simp [h]
  | cons a l ih =>
    rw [List.foldl_cons, ih]
    by_cases hk : k = a.1
    · subst hk
      cases h : st.prev a.1 <;> simp [init_step, UMap.emplace, h]
    · have hm : (k ∈ a.1 :: l.map Prod.fst) ↔ k ∈ l.map Prod.fst := by
        rw [List.mem_cons]; exact ⟨fun h => h.resolve_left hk, Or.inr⟩
      cases h : st.prev k
      · by_cases hm' : k ∈ l.map Prod.fst
        · simp [init_step, UMap.emplace, h, hk, hm']
        · have := mt hm.mp hm'
          simp only [List.map_cons] at *
          simp [init_step, UMap.emplace, h, hk, hm', this]
      · simp [init_step, UMap.emplace, h, hk]

theorem init_list (g : Graph Dbl Dbl) : (init g).list = g.ids := by
  simp [init, init_fold_list, Graph.ids]

theorem init_relaxed (g : Graph Dbl Dbl) : (init g).relaxed = [] := by
  simp [init, init_fold_relaxed]

theorem init_dist (g : Graph Dbl Dbl) (k : Nat) :
    (init g).dist k = if k ∈ g.ids then some INF else none := by
  simp [init, init_fold_dist, UMap.empty, Graph.ids]

theorem init_prev (g : Graph Dbl Dbl) (k : Nat) :
    (init g).prev k = if k ∈ g.ids then some (-1) else none := by
  simp [init, init_fold_prev, UMap.empty, Graph.ids]

/-! ## The scan for the smallest distance -/

theorem select_step_ok {dist : UMap Dbl} {node id : Nat} {a b : Dbl}
    (ha : dist id = some a) (hb : dist node = some b) :
    select_step dist node id = .ok (if a.lt b then id else node) := by
  simp [select_step, UMap.at_ok ha, UMap.at_ok hb, bind, Except.bind, pure, Except.pure]

theorem select_fold (dist : UMap Dbl) (l : List Nat) :
    ∀ node0, (∃ b, dist node0 = some b) → (∀ k ∈ l, ∃ a, dist k = some a) →
    ∃ node, l.foldlM (select_step dist) node0 = .ok node ∧ (node = node0 ∨ node ∈ l) ∧
      (node = node0 ∨ (((dist node).getD Dbl.nan).lt ((dist node0).getD Dbl.nan)) = true) ∧
      ∀ id ∈ l, (((dist id).getD Dbl.nan).lt ((dist node).getD Dbl.nan)) = false := by
  induction l with
  | nil => intro node0 _ _; exact ⟨node0, rfl, Or.inl rfl, Or.inl rfl, by simp⟩
  | cons id l ih =>
    intro node0 h0 hl
    obtain ⟨b, hb⟩ := h0
    obtain ⟨a, ha⟩ := hl id (List.mem_cons_self _ _)
    have hl' : ∀ k ∈ l, ∃ a, dist k = some a := fun k hk => hl k (List.mem_cons_of_mem _ hk)
    rw [List.foldlM_cons, select_step_ok ha hb]
    simp only [bind, Except.bind]
    by_cases hlt : a.lt b = true
    · simp only [hlt, if_true]
      obtain ⟨node, h1, h2, h3, h4⟩ := ih id ⟨a, ha⟩ hl'
      refine ⟨node, h1, ?_, ?_, ?_⟩
      · rcases h2 with h | h
        · exact Or.inr (h ▸ List.mem_cons_self _ _)
        · exact Or.inr (List.mem_cons_of_mem _ h)
      · right
        rcases h3 with h | h
        · subst h; simpa [ha, hb] using hlt
        · rw [ha] at h
          simp only [hb, Option.getD_some]
          exact Dbl.lt_trans h (by simpa using hlt)
      · intro id' hid'
        rcases List.mem_cons.mp hid' with h | h
        · subst h
          rcases h3 with h | h
          · subst h; exact Dbl.lt_irrefl _
          · exact Dbl.lt_asymm h
        · exact h4 id' h
    · have hlt' : a.lt b = false := by simpa using hlt
      simp only [hlt', Bool.false_eq_true, if_false]
      obtain ⟨node, h1, h2, h3, h4⟩ := ih node0 ⟨b, hb⟩ hl'
      refine ⟨node, h1, ?_, h3, ?_⟩
      · rcases h2 with h | h
        · exact Or.inl h
        · exact Or.inr (List.mem_cons_of_mem _ h)
      · intro id' hid'
        rcases List.mem_cons.mp hid' with h | h
        · subst h
          rcases h3 with h | h
          · subst h; simpa [ha, hb] using hlt'
          · by_contra hc
            have hc' : ((dist id').getD Dbl.nan).lt ((dist node).getD Dbl.nan) = true := by
              simpa using hc
            have := Dbl.lt_trans hc' h
            simp [ha, hb, hlt'] at this
        · exact h4 id' h

/-- The scan returns a node of `list` such that no node of `list` has a
distance below its distance. -/
theorem select_spec (st : LoopState) (h : ∀ k ∈ st.list, ∃ a, st.dist k = some a)
    (hne : st.list ≠ []) :
    ∃ node, select st.dist st.list = .ok node ∧ node ∈ st.list ∧
      ∀ id ∈ st.list, (st.dv id).lt (st.dv node) = false := by
  unfold select
  cases hl : st.list with
  | nil => exact absurd hl hne
  | cons first rest =>
    rw [hl] at h
    obtain ⟨node, h1, h2, _, h4⟩ := select_fold st.dist (first :: rest) first
      (h first (List.mem_cons_self _ _)) h
    refine ⟨node, h1, ?_, h4⟩
    rcases h2 with h | h
    · exact h ▸ List.mem_cons_self _ _
    · exact h

/-! ## One round of the relaxation -/

theorem Dom.dist_eq {g : Graph Dbl Dbl} {st : LoopState} (h : Dom g st) {k : Nat}
    (hk : k ∈ g.ids) : st.dist k = some (st.dv k) := by
  obtain ⟨d, hd⟩ := h.dist_in k hk
  simp [LoopState.dv, hd]

theorem relax_edge_eq {g : Graph Dbl Dbl} {st : LoopState} (h : Dom g st) {node : Nat}
    (hn : node ∈ g.ids) {e : Edge Dbl} (he : e.to_ ∈ g.ids) :
    relax_edge node st e = .ok (relaxed_state node st e) := by
  obtain ⟨p, hp⟩ := h.prev_in _ he
  unfold relax_edge relaxed_state
  simp only [UMap.at_ok (h.dist_eq hn), UMap.at_ok (h.dist_eq he), bind, Except.bind,
    UMap.assign_ok _ (h.dist_eq he), UMap.assign_ok _ hp, pure, Except.pure]
  split <;> rfl

theorem relaxed_state_list (node : Nat) (st : LoopState) (e : Edge Dbl) :
    (relaxed_state node st e).list = st.list := by
  unfold relaxed_state; split <;> rfl

theorem relaxed_state_dom {g : Graph Dbl Dbl} {st : LoopState} (h : Dom g st) (node : Nat)
    {e : Edge Dbl} (he : e.to_ ∈ g.ids) : Dom g (relaxed_state node st e) := by
  unfold relaxed_state
  split
  · refine ⟨?_, ?_, ?_, ?_, h.list_sub⟩
    · intro k hk
      by_cases hke : k = e.to_
      · exact ⟨_, by subst hke; exact UMap.set_same _ _ _⟩
      · obtain ⟨d, hd⟩ := h.dist_in k hk
        exact ⟨d, by simp [UMap.set, hke, hd]⟩
    · intro k hk
      have hke : k ≠ e.to_ := fun hc => hk (hc ▸ he)
      simp [UMap.set, hke, h.dist_out k hk]
    · intro k hk
      by_cases hke : k = e.to_
      · exact ⟨_, by subst hke; exact UMap.set_same _ _ _⟩
      · obtain ⟨d, hd⟩ := h.prev_in k hk
        exact ⟨d, by simp [UMap.set, hke, hd]⟩
    · intro k hk
      have hke : k ≠ e.to_ := fun hc => hk (hc ▸ he)
      simp [UMap.set, hke, h.prev_out k hk]
  · exact h

theorem erased_state_dom {g : Graph Dbl Dbl} {st : LoopState} (h : Dom g st) (node : Nat) :
    Dom g (erased_state node st) :=
  ⟨h.dist_in, h.dist_out, h.prev_in, h.prev_out,
    fun k hk => h.list_sub k (List.mem_of_mem_filter hk)⟩

/-- Lines 56-67 do not throw on a graph whose edges lead to nodes of the
graph, and what holds of the state is what the rounds of the relaxation
establish one after the other. -/
theorem relax_spec {g : Graph Dbl Dbl} (hg : g.Closed) {node : Nat} (hn : node ∈ g.ids)
    (P : List (Edge Dbl) → LoopState → Prop)
    (hstep : ∀ done e st, e ∈ g.out_edges node → Dom g st → P done st →
      P (done ++ [e]) (relaxed_state node st e))
    {st : LoopState} (hd : Dom g st) (hP : P [] st) :
    ∃ st', relax g node st = .ok st' ∧ Dom g st' ∧ st'.list = st.list ∧
      P (g.out_edges node) st' := by
  obtain ⟨n, _, hat, hout, _⟩ := g.node_at_of_mem hn
  have hto : ∀ e ∈ n.edges_out, e.to_ ∈ g.ids := fun e he =>
    Graph.to_mem_ids_of_closed hg (hout ▸ he)
  obtain ⟨st', h1, h2, h3⟩ := foldlM_ok (relax_edge node)
    (fun s => Dom g s ∧ s.list = st.list) n.edges_out
    (fun e s he hs => ⟨relaxed_state node s e, relax_edge_eq hs.1 hn (hto e he),
      relaxed_state_dom hs.1 node (hto e he), by rw [relaxed_state_list]; exact hs.2⟩)
    st ⟨hd, rfl⟩
  have h4 := foldlM_inv (relax_edge node) (fun done s => Dom g s ∧ P done s) n.edges_out
    (fun done e s s' he hs hs' => by
      rw [relax_edge_eq hs.1 hn (hto e he)] at hs'
      have : s' = relaxed_state node s e := by injection hs' with h; exact h.symm
      subst this
      exact ⟨relaxed_state_dom hs.1 node (hto e he), hstep done e s (hout ▸ he) hs.1 hs.2⟩)
    [] st st' ⟨hd, hP⟩ h1
  refine ⟨st', ?_, h2, h3, ?_⟩
  · simp [relax, hat, bind, Except.bind, h1]
  · rw [hout]; simpa using h4.2

/-! ## The main loop -/

/-- The main loop does not throw and does not run out of fuel on a graph whose
edges lead to nodes of the graph; `Inv` holds before every round when the
rounds keep it, and `Post` after the loop when every way out of the loop
establishes it. -/
theorem loop_spec {g : Graph Dbl Dbl} (hg : g.Closed) (target : Nat)
    (Inv Post : LoopState → Prop)
    (hdom : ∀ st, Inv st → Dom g st)
    (h_empty : ∀ st, Inv st → st.list = [] → Post st)
    (h_target : ∀ st, Inv st → target ∈ st.list →
      (∀ id ∈ st.list, (st.dv id).lt (st.dv target) = false) → Post st)
    (h_inf : ∀ st node, Inv st → node ∈ st.list →
      (∀ id ∈ st.list, (st.dv id).lt (st.dv node) = false) → node ≠ target →
      st.dv node = Dbl.pinf → Post (erased_state node st))
    (h_step : ∀ st node st2, Inv st → node ∈ st.list →
      (∀ id ∈ st.list, (st.dv id).lt (st.dv node) = false) → node ≠ target →
      st.dv node ≠ Dbl.pinf → relax g node (erased_state node st) = .ok st2 →
      st2.list = (erased_state node st).list → Inv st2) :
    ∀ fuel st, Inv st → st.list.length ≤ fuel →
      ∃ st', loop g target fuel st = .ok st' ∧ Post st' := by
  intro fuel
  induction fuel with
  | zero =>
    intro st hI hlen
    have : st.list = [] := List.length_eq_zero.mp (Nat.le_zero.mp hlen)
    exact ⟨st, by simp [loop, this], h_empty st hI this⟩
  | succ fuel ih =>
    intro st hI hlen
    by_cases hl : st.list = []
    · exact ⟨st, by simp [loop, hl], h_empty st hI hl⟩
    · have hd := hdom st hI
      obtain ⟨node, hsel, hmem, hmin⟩ := select_spec st
        (fun k hk => hd.dist_in k (hd.list_sub k hk)) hl
      have hemp : st.list.isEmpty = false := by
        cases hs : st.list with
        | nil => exact absurd hs hl
        | cons a l => rfl
      by_cases ht : node = target
      · subst ht
        refine ⟨st, ?_, h_target st hI hmem hmin⟩
        simp [loop, hemp, hsel, bind, Except.bind, pure, Except.pure]
      · have hnid := hd.list_sub node hmem
        have hat : (erased_state node st).dist.at_ node = .ok (st.dv node) :=
          UMap.at_ok (hd.dist_eq hnid)
        by_cases hinf : st.dv node = Dbl.pinf
        · refine ⟨erased_state node st, ?_, h_inf st node hI hmem hmin ht hinf⟩
          have hge : (st.dv node).ge INF = true := (Dbl.ge_INF_iff _).mpr hinf
          have hat' := hat
          unfold erased_state at hat'
          simp [loop, hemp, hsel, bind, Except.bind, pure, Except.pure, ht, hat', hge,
            erased_state]
        · have hge : (st.dv node).ge INF = false := by
            cases hc : (st.dv node).ge INF with
            | false => rfl
            | true => exact absurd ((Dbl.ge_INF_iff _).mp hc) hinf
          obtain ⟨st2, hr, _, hlist, _⟩ := relax_spec hg hnid (fun _ _ => True)
            (fun _ _ _ _ _ _ => trivial) (erased_state_dom hd node) trivial
          have hI2 := h_step st node st2 hI hmem hmin ht hinf hr hlist
          have hlen2 : st2.list.length ≤ fuel := by
            rw [hlist]
            have : (st.list.filter (fun id => id != node)).length < st.list.length := by
              apply List.length_filter_lt_length_iff_exists.mpr
              exact ⟨node, hmem, by simp⟩
            have : (erased_state node st).list.length < st.list.length := this
            omega
          obtain ⟨st', hloop, hpost⟩ := ih st2 hI2 hlen2
          refine ⟨st', ?_, hpost⟩
          have hat' := hat
          have hr' := hr
          unfold erased_state at hat' hr'
          simp [loop, hemp, hsel, bind, Except.bind, pure, Except.pure, ht, hat', hge, hr',
            hloop]

/-! ## Directed paths and walks -/

theorem path_weight_from_snoc (g : Graph Dbl Dbl) (rest : List Nat) :
    ∀ (acc : Dbl) (u x v : Nat) (w c : Dbl), path_weight_from g acc u rest = some w →
      (u :: rest).getLast? = some x → g.weight x v = some c →
      path_weight_from g acc u (rest ++ [v]) = some (w.add c) := by
  induction rest with
  | nil =>
    intro acc u x v w c h hx hc
    simp [path_weight_from] at h
    simp at hx
    subst h; subst hx
    simp [path_weight_from, hc]
  | cons y rest ih =>
    intro acc u x v w c h hx hc
    rw [List.getLast?_cons_cons] at hx
    simp only [path_weight_from, List.cons_append] at h ⊢
    cases hw : g.weight u y with
    | none => simp [hw] at h
    | some c' =>
      simp only [hw] at h ⊢
      exact ih _ _ _ _ _ _ h hx hc

theorem IsPath.snoc {g : Graph Dbl Dbl} {s u v : Nat} {p : List Nat} {w c : Dbl}
    (h : IsPath g s u p w) (hc : g.weight u v = some c) :
    IsPath g s v (p ++ [v]) (w.add c) := by
  obtain ⟨hp1, hp2, hp3⟩ := h
  cases p with
  | nil => simp at hp1
  | cons a rest =>
    simp at hp1
    subst hp1
    refine ⟨by simp, List.getLast?_concat _, ?_⟩
    unfold path_weight at hp3
    show path_weight g (a :: (rest ++ [v])) = _
    unfold path_weight
    by_cases ha : g.has_node a = true
    · simp only [ha, if_true] at hp3 ⊢
      exact path_weight_from_snoc g rest _ _ _ _ _ _ hp3 hp2 hc
    · simp [ha] at hp3

theorem IsPath.single {g : Graph Dbl Dbl} {s : Nat} (hs : g.has_node s = true) :
    IsPath g s s [s] (Dbl.fin 0) := by
  simp [IsPath, path_weight, path_weight_from, hs]

theorem Walk.exists_path {g : Graph Dbl Dbl} {s v : Nat} {w : Dbl} (h : Walk g s v w) :
    ∃ p, IsPath g s v p w := by
  induction h with
  | nil hs => exact ⟨[s], by simp [IsPath, path_weight, path_weight_from, hs]⟩
  | @snoc u v w c _ hc ih =>
    obtain ⟨p, hp1, hp2, hp3⟩ := ih
    cases p with
    | nil => simp at hp1
    | cons a rest =>
      simp at hp1
      subst hp1
      refine ⟨a :: (rest ++ [v]), by simp, ?_, ?_⟩
      · rw [← List.cons_append]; exact List.getLast?_concat _
      · unfold path_weight at hp3 ⊢
        by_cases ha : g.has_node a = true
        · simp only [ha, if_true] at hp3 ⊢
          exact path_weight_from_snoc g rest _ _ _ _ _ _ hp3 hp2 hc
        · simp [ha] at hp3

theorem walk_of_path_from (g : Graph Dbl Dbl) (s : Nat) (rest : List Nat) :
    ∀ (acc : Dbl) (u t : Nat) (w : Dbl), Walk g s u acc →
      path_weight_from g acc u rest = some w → (u :: rest).getLast? = some t →
      Walk g s t w := by
  induction rest with
  | nil =>
    intro acc u t w hw h ht
    simp [path_weight_from] at h
    simp at ht
    subst h; subst ht
    exact hw
  | cons y rest ih =>
    intro acc u t w hw h ht
    rw [List.getLast?_cons_cons] at ht
    simp only [path_weight_from] at h
    cases hc : g.weight u y with
    | none => simp [hc] at h
    | some c =>
      simp only [hc] at h
      exact ih _ _ _ _ (Walk.snoc hw hc) h ht

theorem IsPath.walk {g : Graph Dbl Dbl} {s t : Nat} {p : List Nat} {w : Dbl}
    (h : IsPath g s t p w) : Walk g s t w := by
  obtain ⟨h1, h2, h3⟩ := h
  cases p with
  | nil => simp at h1
  | cons a rest =>
    simp at h1
    subst h1
    unfold path_weight at h3
    by_cases ha : g.has_node a = true
    · simp only [ha, if_true] at h3
      exact walk_of_path_from g a rest _ _ _ _ (Walk.nil ha) h3 h2
    · simp [ha] at h3

theorem reachable_iff_walk (g : Graph Dbl Dbl) (s t : Nat) :
    Reachable g s t ↔ ∃ w, Walk g s t w :=
  ⟨fun ⟨_, w, h⟩ => ⟨w, h.walk⟩, fun ⟨w, h⟩ => by
    obtain ⟨p, hp⟩ := h.exists_path
    exact ⟨p, w, hp⟩⟩

/-- The weight of a walk, added up in double arithmetic, is a double. -/
theorem Walk.is_double {g : Graph Dbl Dbl} {s v : Nat} {w : Dbl} (h : Walk g s v w) :
    w.is_double = true := by
  cases h with
  | nil _ => exact Dbl.is_double_zero
  | snoc _ _ => exact Dbl.add_is_double _ _

/-- Every distance is a double. -/
theorem InvA.dv_is_double {g : Graph Dbl Dbl} {source : Nat} {st : LoopState}
    (h : InvA g source st) {v : Nat} (hv : v ∈ g.ids) : (st.dv v).is_double = true := by
  by_cases hinf : st.dv v = Dbl.pinf
  · rw [hinf]; rfl
  · exact (h.walk v hv hinf).is_double

/-! ## The relaxation, case by case -/

theorem relaxed_state_of_lt {node : Nat} {st : LoopState} {e : Edge Dbl}
    (h : ((st.dv node).add e.data).lt (st.dv e.to_) = true) :
    relaxed_state node st e =
      { st with
        dist := st.dist.set e.to_ ((st.dv node).add e.data)
        prev := st.prev.set e.to_ (toInt32 node)
        relaxed := st.relaxed ++ [e.to_] } := by
  simp [relaxed_state, h]

theorem relaxed_state_of_not_lt {node : Nat} {st : LoopState} {e : Edge Dbl}
    (h : ((st.dv node).add e.data).lt (st.dv e.to_) = false) :
    relaxed_state node st e = st := by
  simp [relaxed_state, h]

theorem dv_relaxed_same {node : Nat} {st : LoopState} {e : Edge Dbl}
    (h : ((st.dv node).add e.data).lt (st.dv e.to_) = true) :
    (relaxed_state node st e).dv e.to_ = (st.dv node).add e.data := by
  rw [relaxed_state_of_lt h]
  simp [LoopState.dv, UMap.set]

theorem dv_relaxed_other {node : Nat} {st : LoopState} {e : Edge Dbl} {v : Nat}
    (hv : v ≠ e.to_) : (relaxed_state node st e).dv v = st.dv v := by
  unfold relaxed_state
  split
  · simp [LoopState.dv, UMap.set, hv]
  · rfl

theorem prev_relaxed_same {node : Nat} {st : LoopState} {e : Edge Dbl}
    (h : ((st.dv node).add e.data).lt (st.dv e.to_) = true) :
    (relaxed_state node st e).prev e.to_ = some (toInt32 node) := by
  rw [relaxed_state_of_lt h]
  simp [UMap.set]

theorem prev_relaxed_other {node : Nat} {st : LoopState} {e : Edge Dbl} {v : Nat}
    (hv : v ≠ e.to_) : (relaxed_state node st e).prev v = st.prev v := by
  unfold relaxed_state
  split
  · simp [UMap.set, hv]
  · rfl

theorem relaxed_relaxed {node : Nat} {st : LoopState} {e : Edge Dbl}
    (h : ((st.dv node).add e.data).lt (st.dv e.to_) = true) :
    (relaxed_state node st e).relaxed = st.relaxed ++ [e.to_] := by
  rw [relaxed_state_of_lt h]

/-! ## What holds whatever the weights are -/

theorem InvA.after_relax_edge {g : Graph Dbl Dbl} (hg : g.WF) {source : Nat} {st : LoopState}
    (h : InvA g source st) {node : Nat} {e : Edge Dbl} (he : e ∈ g.out_edges node) :
    InvA g source (relaxed_state node st e) := by
  have hn := Graph.mem_ids_of_mem_out_edges he
  have hto := Graph.to_mem_ids hg he
  have hw := Graph.weight_of_mem hg he
  cases hlt : ((st.dv node).add e.data).lt (st.dv e.to_) with
  | false => rw [relaxed_state_of_not_lt hlt]; exact h
  | true =>
    have hne : st.dv node ≠ Dbl.pinf := by
      intro hc
      rw [hc, Dbl.pinf_add_not_lt] at hlt
      exact Bool.noConfusion hlt
    have hnew : (st.dv node).add e.data ≠ Dbl.pinf := Dbl.ne_pinf_of_lt hlt
    refine ⟨relaxed_state_dom h.dom node hto, ?_, ?_, ?_⟩
    · intro v hv hvne
      by_cases hve : v = e.to_
      · subst hve
        rw [dv_relaxed_same hlt]
        exact Walk.snoc (h.walk node hn hne) hw
      · rw [dv_relaxed_other hve] at hvne ⊢
        exact h.walk v hv hvne
    · intro v hv hvr
      rw [relaxed_relaxed hlt] at hvr
      have hve : v ≠ e.to_ := fun hc => hvr (by simp [hc])
      rw [prev_relaxed_other hve, dv_relaxed_other hve]
      exact h.untouched v hv (fun hc => hvr (by simp [hc]))
    · intro v hv
      rw [relaxed_relaxed hlt] at hv
      by_cases hve : v = e.to_
      · subst hve
        rw [dv_relaxed_same hlt]
        exact ⟨hto, hnew⟩
      · rw [dv_relaxed_other hve]
        rcases List.mem_append.mp hv with h1 | h1
        · exact h.touched v h1
        · simp at h1; exact absurd h1 hve

theorem InvA.after_erase {g : Graph Dbl Dbl} {source : Nat} {st : LoopState}
    (h : InvA g source st) (node : Nat) : InvA g source (erased_state node st) :=
  ⟨erased_state_dom h.dom node, h.walk, h.untouched, h.touched⟩

theorem start_state_dom (g : Graph Dbl Dbl) {source : Nat} (hs : source ∈ g.ids) :
    Dom g (start_state g source) := by
  refine ⟨?_, ?_, ?_, ?_, ?_⟩
  · intro k hk
    by_cases hks : k = source
    · exact ⟨_, by subst hks; exact UMap.set_same _ _ _⟩
    · exact ⟨INF, by simp [start_state, UMap.set, hks, init_dist, hk]⟩
  · intro k hk
    have hks : k ≠ source := fun hc => hk (hc ▸ hs)
    simp [start_state, UMap.set, hks, init_dist, hk]
  · intro k hk
    exact ⟨-1, by simp [start_state, init_prev, hk]⟩
  · intro k hk
    simp [start_state, init_prev, hk]
  · intro k hk
    simpa [start_state, init_list] using hk

/-! ## The whole of `dijkstra` -/

theorem dijkstra_absent (g : Graph Dbl Dbl) (source target : Nat) (rd : UMap Dbl)
    (rp : UMap Int) (h : g.has_node source = false ∨ g.has_node target = false) :
    dijkstra g source target rd rp = .ok ⟨true, rd, rp, []⟩ := by
  unfold dijkstra
  rcases h with h | h <;> simp [h]

theorem dijkstra_present (g : Graph Dbl Dbl) (source target : Nat) (rd : UMap Dbl)
    (rp : UMap Int) (hs : g.has_node source = true) (ht : g.has_node target = true) :
    dijkstra g source target rd rp =
      match loop g target g.ids.length (start_state g source) with
      | .ok st => .ok ⟨false, st.dist, st.prev, st.relaxed⟩
      | .error e => .error e := by
  have hs' := (g.has_node_iff source).mp hs
  have h1 : (init g).dist.assign source (Dbl.fin 0) = .ok ((init g).dist.set source (Dbl.fin 0)) :=
    @UMap.assign_ok Dbl _ source INF _ (by simp [init_dist, hs'])
  unfold dijkstra start_state
  simp only [hs, ht, Bool.not_true, Bool.or_self, Bool.false_eq_true, if_false, h1, bind,
    Except.bind, init_list, pure, Except.pure]
  generalize loop g target g.ids.length _ = r
  cases r <;> rfl

theorem start_state_dv (g : Graph Dbl Dbl) {source : Nat} (hs : source ∈ g.ids) (v : Nat)
    (hv : v ∈ g.ids) : (start_state g source).dv v = if v = source then Dbl.fin 0 else Dbl.pinf := by
  by_cases h : v = source
  · subst h; simp [start_state, LoopState.dv, UMap.set]
  · simp [start_state, LoopState.dv, UMap.set, h, init_dist, hv, INF]

theorem start_state_invA (g : Graph Dbl Dbl) {source : Nat} (hs : source ∈ g.ids) :
    InvA g source (start_state g source) := by
  refine ⟨start_state_dom g hs, ?_, ?_, ?_⟩
  · intro v hv hne
    rw [start_state_dv g hs v hv] at hne ⊢
    by_cases h : v = source
    · subst h; simp only [if_true]
      exact Walk.nil ((g.has_node_iff v).mpr hv)
    · simp [h] at hne
  · intro v hv _
    exact ⟨by simp [start_state, init_prev, hv], start_state_dv g hs v hv⟩
  · intro v hv
    simp [start_state, init_relaxed] at hv

/-- On a well-formed graph that has `source` and `target`, `dijkstra` returns
its maps, and they satisfy `InvA`. -/
theorem dijkstra_invA {g : Graph Dbl Dbl} (hg : g.WF) {source target : Nat}
    (hs : g.has_node source = true) (ht : g.has_node target = true)
    (rd : UMap Dbl) (rp : UMap Int) :
    ∃ st, dijkstra g source target rd rp = .ok ⟨false, st.dist, st.prev, st.relaxed⟩ ∧
      InvA g source st := by
  have hs' := (g.has_node_iff source).mp hs
  obtain ⟨st, h1, h2⟩ := loop_spec hg.closed target (InvA g source) (InvA g source)
    (fun _ h => h.dom) (fun _ h _ => h) (fun _ h _ _ => h)
    (fun _ node h _ _ _ _ => h.after_erase node)
    (fun st node st2 h hmem _ _ _ hr _ => by
      have hn := h.dom.list_sub node hmem
      obtain ⟨st2', hr', _, _, hP⟩ := relax_spec hg.closed hn (fun _ s => InvA g source s)
        (fun _ e s he _ hs => hs.after_relax_edge hg he) (erased_state_dom h.dom node)
        (h.after_erase node)
      rw [hr] at hr'
      injection hr' with hr'
      exact hr' ▸ hP)
    g.ids.length (start_state g source) (start_state_invA g hs')
    (by simp [start_state, init_list])
  refine ⟨st, ?_, h2⟩
  rw [dijkstra_present g source target rd rp hs ht, h1]

/-! ## Removing a node -/

theorem lookup_filter_ne {β : Type} (l : List (Nat × β)) (k : Nat) :
    (l.filter (fun p => p.1 != k)).lookup k = none := by
  induction l with
  | nil => rfl
  | cons a l ih =>
    by_cases h : a.1 = k
    · simp [List.filter_cons, h, ih]
    · have h' : (k == a.1) = false := by simpa using fun hc => h hc.symm
      simp [List.filter_cons, h, List.lookup, h', ih]

theorem Graph.has_node_remove_node {N E : Type} (g : Graph N E) (id : Nat) :
    (g.remove_node id).has_node id = false := by
  unfold Graph.remove_node
  by_cases h : g.has_node id = true
  · rw [if_pos h]
    simp only [Graph.has_node]
    rw [lookup_filter_ne]
    rfl
  · rw [if_neg h]
    simpa using h

/-! ## Two nodes without an edge -/

theorem two_nodes_weight (u v : Nat) : two_nodes.weight u v = none := by
  unfold Graph.weight Graph.out_edges two_nodes
  by_cases h0 : u = 0
  · subst h0; simp [List.lookup]
  · by_cases h1 : u = 1
    · subst h1; simp [List.lookup]
    · have a : (u == 0) = false := by simpa using h0
      have b : (u == 1) = false := by simpa using h1
      simp [List.lookup, a, b]

theorem two_nodes_unreachable : ¬ Reachable two_nodes 0 1 := by
  rw [reachable_iff_walk]
  rintro ⟨w, h⟩
  have key : ∀ v w, Walk two_nodes 0 v w → v = 0 := by
    intro v w hw
    induction hw with
    | nil _ => rfl
    | snoc _ hc _ => rw [two_nodes_weight] at hc; exact Option.noConfusion hc
  exact absurd (key 1 w h) (by decide)

/-! ## Claims about nodes that are not reachable, and about the key sets -/

theorem construct_path_of_none {prev : UMap Int} {t : Nat} (h : prev t = some (-1))
    (fuel : Nat) : construct_path prev fuel t = .ok [t] := by
  unfold construct_path
  cases fuel <;>
    simp [construct_path_loop, UMap.at_ok h, bind, Except.bind, pure, Except.pure]

/-- A node that no directed path joins to `source` has the distance and the
predecessor of the initialisation. -/
theorem InvA.unreachable {g : Graph Dbl Dbl} {source : Nat} {st : LoopState}
    (h : InvA g source st) (hs : g.has_node source = true) {n : Nat} (hn : n ∈ g.ids)
    (hu : ¬ Reachable g source n) : st.dist n = some INF ∧ st.prev n = some (-1) := by
  have hnr : n ∉ st.relaxed := by
    intro hc
    exact hu ((reachable_iff_walk g source n).mpr ⟨_, h.walk n hn (h.touched n hc).2⟩)
  have hne : n ≠ source := by
    intro hc
    subst hc
    exact hu ((reachable_iff_walk g n n).mpr ⟨_, Walk.nil hs⟩)
  obtain ⟨hp, hd⟩ := h.untouched n hn hnr
  refine ⟨?_, hp⟩
  rw [h.dom.dist_eq hn, hd, if_neg hne]
  rfl

/-- C6: on a well-formed graph that has `source` and `target`, a node `n` that
no directed path joins to `source` has distance `+infinity` and predecessor
none (`-1`) in the maps that `dijkstra` returns, whatever the edge weights. -/
theorem unreachable_node_keeps_inf_and_none (g : Graph Dbl Dbl) (source target n : Nat)
    (rd : UMap Dbl) (rp : UMap Int) (hg : g.WF) (hs : g.has_node source = true)
    (ht : g.has_node target = true) (hn : g.has_node n = true)
    (hu : ¬ Reachable g source n) :
    ∃ o, dijkstra g source target rd rp = .ok o ∧ o.not_in_graph = false ∧
      o.return_dist n = some INF ∧ o.return_prev n = some (-1) := by
  obtain ⟨st, h1, h2⟩ := dijkstra_invA hg hs ht rd rp
  obtain ⟨hd, hp⟩ := h2.unreachable hs ((g.has_node_iff n).mp hn) hu
  exact ⟨_, h1, rfl, hd, hp⟩

/-- In `two_nodes`, node `1` is not reachable from node `0`. -/
theorem unreachable_node_keeps_inf_and_none_witness :
    ∃ o, dijkstra two_nodes 0 0 UMap.empty UMap.empty = .ok o ∧ o.not_in_graph = false ∧
      o.return_dist 1 = some INF ∧ o.return_prev 1 = some (-1) :=
  unreachable_node_keeps_inf_and_none two_nodes 0 0 1 UMap.empty UMap.empty (by decide)
    (by decide) (by decide) (by decide) two_nodes_unreachable

/-- C7: on a well-formed graph that has `source` and `target`, when `target`
differs from `source` and no directed path joins them, `dijkstra` returns
distance `+infinity` and predecessor none for `target`, and the path
reconstruction of `main` yields the sequence that holds `target` alone, in
the vector `path` and in the order in which it is printed. -/
theorem unreachable_target_gives_singleton_path (g : Graph Dbl Dbl) (source target : Nat)
    (rd : UMap Dbl) (rp : UMap Int) (hg : g.WF) (hs : g.has_node source = true)
    (ht : g.has_node target = true) (_hne : target ≠ source)
    (hu : ¬ Reachable g source target) :
    ∃ o, dijkstra g source target rd rp = .ok o ∧ o.not_in_graph = false ∧
      o.return_dist target = some INF ∧ o.return_prev target = some (-1) ∧
      ∀ fuel, construct_path o.return_prev fuel target = .ok [target] ∧
        printed_path o.return_prev fuel target = .ok [target] := by
  obtain ⟨st, h1, h2⟩ := dijkstra_invA hg hs ht rd rp
  obtain ⟨hd, hp⟩ := h2.unreachable hs ((g.has_node_iff target).mp ht) hu
  refine ⟨_, h1, rfl, hd, hp, fun fuel => ⟨construct_path_of_none hp fuel, ?_⟩⟩
  show (construct_path st.prev fuel target).map List.reverse = _
  rw [construct_path_of_none hp fuel]
  rfl

/-- In `two_nodes`, the target `1` is not reachable from the source `0`. -/
theorem unreachable_target_gives_singleton_path_witness :
    ∃ o, dijkstra two_nodes 0 1 UMap.empty UMap.empty = .ok o ∧ o.not_in_graph = false ∧
      o.return_dist 1 = some INF ∧ o.return_prev 1 = some (-1) ∧
      ∀ fuel, construct_path o.return_prev fuel 1 = .ok [1] ∧
        printed_path o.return_prev fuel 1 = .ok [1] :=
  unreachable_target_gives_singleton_path two_nodes 0 1 UMap.empty UMap.empty (by decide)
    (by decide) (by decide) (by decide) two_nodes_unreachable

/-- C8, as the code has it: `dijkstra` takes the branch "not in graph" exactly
when `source` or `target` is not a node of the graph, and it then leaves the
two output maps as the caller passed them in; after `remove_node(id)` a query
with source `id` takes that branch. -/
theorem dijkstra_fails_iff_absent (g : Graph Dbl Dbl) (source target : Nat)
    (rd : UMap Dbl) (rp : UMap Int) :
    ((∃ o, dijkstra g source target rd rp = .ok o ∧ o.not_in_graph = true) ↔
      (g.has_node source = false ∨ g.has_node target = false)) ∧
    (∀ o, dijkstra g source target rd rp = .ok o → o.not_in_graph = true →
      o.return_dist = rd ∧ o.return_prev = rp) ∧
    (∀ id, dijkstra (g.remove_node id) id target rd rp = .ok ⟨true, rd, rp, []⟩) := by
  have key : ∀ o, dijkstra g source target rd rp = .ok o → o.not_in_graph = true →
      (g.has_node source = false ∨ g.has_node target = false) := by
    intro o ho hn
    by_contra hc
    have hs : g.has_node source = true := by
      cases h : g.has_node source with
      | true => rfl
      | false => exact absurd (Or.inl h) hc
    have ht : g.has_node target = true := by
      cases h : g.has_node target with
      | true => rfl
      | false => exact absurd (Or.inr h) hc
    rw [dijkstra_present g source target rd rp hs ht] at ho
    cases hl : loop g target g.ids.length (start_state g source) with
    | error e => rw [hl] at ho; exact Except.noConfusion ho
    | ok st =>
      rw [hl] at ho
      injection ho with ho
      rw [← ho] at hn
      exact Bool.noConfusion hn
  refine ⟨⟨fun ⟨o, ho, hn⟩ => key o ho hn, fun h => ⟨_, dijkstra_absent g source target rd rp h, rfl⟩⟩,
    ?_, ?_⟩
  · intro o ho hn
    rw [dijkstra_absent g source target rd rp (key o ho hn)] at ho
    injection ho with ho
    rw [← ho]
    exact ⟨rfl, rfl⟩
  · intro id
    exact dijkstra_absent _ id target rd rp (Or.inl (g.has_node_remove_node id))

/-- C8 as stated fails: called without node `0` in the graph and with a
distance map that holds the key `7`, `dijkstra` takes the branch "not in
graph" and the distance map it leaves behind still holds the key `7`. -/
theorem dijkstra_fails_maps_not_empty :
    ∃ o, dijkstra ⟨[], []⟩ 0 0 ((UMap.empty : UMap Dbl).set 7 (Dbl.fin 1)) UMap.empty = .ok o ∧
      o.not_in_graph = true ∧ o.return_dist 7 = some (Dbl.fin 1) ∧
      o.return_dist ≠ UMap.empty := by
  refine ⟨_, dijkstra_absent _ 0 0 _ _ (Or.inl rfl), rfl, rfl, ?_⟩
  intro h
  have := congrFun h 7
  simp [UMap.set, UMap.empty] at this

/-- C9: when `source` or `target` is absent from the graph, the call of
`dijkstra` leaves the graph and the two output maps of the caller as they
were. -/
theorem dijkstra_absent_mutates_nothing (m : MainState) (source target : Nat)
    (h : m.graph.has_node source = false ∨ m.graph.has_node target = false) :
    call_dijkstra m source target = .ok m := by
  unfold call_dijkstra
  rw [dijkstra_absent m.graph source target m.dist m.prev h]

/-- Node `9` is absent from `my_graph`; the maps of the caller are not empty. -/
theorem dijkstra_absent_mutates_nothing_witness :
    (my_graph.has_node 9 = false ∨ my_graph.has_node 5 = false) ∧
    call_dijkstra ⟨my_graph, (UMap.empty : UMap Dbl).set 7 (Dbl.fin 1), UMap.empty⟩ 9 5 =
      .ok ⟨my_graph, (UMap.empty : UMap Dbl).set 7 (Dbl.fin 1), UMap.empty⟩ :=
  ⟨by decide, dijkstra_absent_mutates_nothing _ 9 5 (by decide)⟩

/-- C10: on a well-formed graph that has `source` and `target`, the two maps
that `dijkstra` returns have exactly the node ids of the graph as keys, and a
node that no relaxation assigned to keeps predecessor none and the distance of
the initialisation: `+infinity`, and `0` at `source`, which line 34 sets
before the main loop. -/
theorem dijkstra_maps_cover_nodes (g : Graph Dbl Dbl) (source target : Nat)
    (rd : UMap Dbl) (rp : UMap Int) (hg : g.WF) (hs : g.has_node source = true)
    (ht : g.has_node target = true) :
    ∃ o, dijkstra g source target rd rp = .ok o ∧ o.not_in_graph = false ∧
      (∀ k, o.return_dist.contains k = true ↔ g.has_node k = true) ∧
      (∀ k, o.return_prev.contains k = true ↔ g.has_node k = true) ∧
      ∀ n, g.has_node n = true → n ∉ o.relaxed →
        o.return_prev n = some (-1) ∧
        o.return_dist n = some (if n = source then Dbl.fin 0 else INF) := by
  obtain ⟨st, h1, h2⟩ := dijkstra_invA hg hs ht rd rp
  refine ⟨_, h1, rfl, ?_, ?_, ?_⟩
  · intro k
    rw [g.has_node_iff]
    show (st.dist k).isSome = true ↔ _
    constructor
    · intro hk
      by_contra hc
      rw [h2.dom.dist_out k hc] at hk
      exact Bool.noConfusion hk
    · intro hk
      obtain ⟨d, hd⟩ := h2.dom.dist_in k hk
      rw [hd]; rfl
  · intro k
    rw [g.has_node_iff]
    show (st.prev k).isSome = true ↔ _
    constructor
    · intro hk
      by_contra hc
      rw [h2.dom.prev_out k hc] at hk
      exact Bool.noConfusion hk
    · intro hk
      obtain ⟨d, hd⟩ := h2.dom.prev_in k hk
      rw [hd]; rfl
  · intro n hn hnr
    have hn' := (g.has_node_iff n).mp hn
    obtain ⟨hp, hd⟩ := h2.untouched n hn' hnr
    refine ⟨hp, ?_⟩
    show st.dist n = _
    rw [h2.dom.dist_eq hn', hd]
    split <;> rfl

/-- The run of `main` on `my_graph`. -/
theorem dijkstra_maps_cover_nodes_witness :
    ∃ o, dijkstra my_graph 0 5 UMap.empty UMap.empty = .ok o ∧ o.not_in_graph = false ∧
      (∀ k, o.return_dist.contains k = true ↔ my_graph.has_node k = true) ∧
      (∀ k, o.return_prev.contains k = true ↔ my_graph.has_node k = true) ∧
      ∀ n, my_graph.has_node n = true → n ∉ o.relaxed →
        o.return_prev n = some (-1) ∧
        o.return_dist n = some (if n = 0 then Dbl.fin 0 else INF) :=
  dijkstra_maps_cover_nodes my_graph 0 5 UMap.empty UMap.empty (by decide) (by decide)
    (by decide)

/-! ## What holds when the weights are non-negative -/

theorem nonneg_of_mem_out_edges {g : Graph Dbl Dbl} (hw : NonnegWeights g) {u : Nat}
    {e : Edge Dbl} (he : e ∈ g.out_edges u) : e.data.nonneg = true := by
  obtain ⟨n, _, _, ho, hm⟩ := g.node_at_of_mem (Graph.mem_ids_of_mem_out_edges he)
  rw [ho] at he
  exact hw _ hm e he

theorem nonneg_of_weight {g : Graph Dbl Dbl} (hw : NonnegWeights g) {u v : Nat} {c : Dbl}
    (h : g.weight u v = some c) : c.nonneg = true := by
  obtain ⟨e, he, _, hc⟩ := Graph.mem_of_weight h
  exact hc ▸ nonneg_of_mem_out_edges hw he

theorem mem_ids_of_weight {g : Graph Dbl Dbl} (hg : g.WF) {u v : Nat} {c : Dbl}
    (h : g.weight u v = some c) : u ∈ g.ids ∧ v ∈ g.ids := by
  obtain ⟨e, he, hv, _⟩ := Graph.mem_of_weight h
  exact ⟨Graph.mem_ids_of_mem_out_edges he, hv ▸ Graph.to_mem_ids hg he⟩

theorem Chain.congr {prev prev' : UMap Int} {v : Nat} {path : List Nat}
    (h : Chain prev v path) (heq : ∀ x ∈ path, prev' x = prev x) : Chain prev' v path := by
  induction h with
  | stop hp hneg => exact Chain.stop ((heq _ (List.mem_singleton_self _)).trans hp) hneg
  | step hp hpos _ ih =>
    exact Chain.step ((heq _ (List.mem_cons_self _ _)).trans hp) hpos
      (ih (fun x hx => heq x (List.mem_cons_of_mem _ hx)))

theorem Chain.head_mem {prev : UMap Int} {v : Nat} {path : List Nat}
    (h : Chain prev v path) : v ∈ path := by
  cases h with
  | stop _ _ => exact List.mem_singleton_self _
  | step _ _ _ => exact List.mem_cons_self _ _

theorem mem_erased_list {node : Nat} {st : LoopState} {v : Nat} :
    v ∈ (erased_state node st).list ↔ v ∈ st.list ∧ v ≠ node := by
  simp [erased_state, List.mem_filter]

/-- Line 49: the node with the smallest distance becomes a finalised node. -/
theorem InvN.finalize {g : Graph Dbl Dbl} (hg : g.WF) {source target : Nat} {st : LoopState}
    (h : InvN g source target st) {x : Nat} (hx : x ∈ st.list)
    (hmin : ∀ id ∈ st.list, (st.dv id).lt (st.dv x) = false) (hxt : x ≠ target) :
    InvR g source target x [] (erased_state x st) := by
  have hc := h.core
  have hxi : x ∈ g.ids := hc.invA.dom.list_sub x hx
  have hle : ∀ v ∈ st.list, (st.dv x).le (st.dv v) = true := fun v hv =>
    Dbl.le_of_not_lt (hc.nonneg v (hc.invA.dom.list_sub v hv)) (hc.nonneg x hxi) (hmin v hv)
  have hnot : ∀ {v}, v ∉ (erased_state x st).list → v ≠ x → v ∉ st.list := fun hv hne hc' =>
    hv (mem_erased_list.mpr ⟨hc', hne⟩)
  refine ⟨⟨hc.invA.after_erase x, ?_, hc.nonneg, hc.src, ?_, ?_, ?_, ?_⟩, hxi, ?_, ?_, ?_, ?_, ?_⟩
  · exact mem_erased_list.mpr ⟨hc.target_in, fun hc' => hxt hc'.symm⟩
  · intro u hu hul v hv
    have hv' := (mem_erased_list.mp hv).1
    by_cases hux : u = x
    · subst hux; exact hle v hv'
    · exact hc.final_le u hu (hnot hul hux) v hv'
  · intro v hv
    obtain ⟨u, c, h1, h2, h3⟩ := hc.link v hv
    exact ⟨u, c, h1, fun hc' => h2 (mem_erased_list.mp hc').1, h3⟩
  · intro v hv hvl
    by_cases hvx : v = x
    · subst hvx
      by_cases hr : v ∈ st.relaxed
      · obtain ⟨u, c, hu, hul, hp, _⟩ := hc.link v hr
        by_cases hneg : toInt32 u < 0
        · exact ⟨[v], Chain.stop hp hneg, by simpa using ⟨hxi, hvl⟩, List.nodup_singleton _⟩
        · obtain ⟨path, hch, hsub, hnd⟩ := hc.chain u hu hul
          have hu32 : toUInt32 (toInt32 u) = u := toUInt32_toInt32 (hg.2.1 u hu)
          refine ⟨v :: path, Chain.step hp (not_lt.mp hneg) (hu32.symm ▸ hch), ?_, ?_⟩
          · intro y hy
            rcases List.mem_cons.mp hy with hy | hy
            · subst hy; exact ⟨hxi, hvl⟩
            · exact ⟨(hsub y hy).1, fun hc' => (hsub y hy).2 (mem_erased_list.mp hc').1⟩
          · exact List.nodup_cons.mpr ⟨fun hc' => (hsub v hc').2 hx, hnd⟩
      · exact ⟨[v], Chain.stop (hc.invA.untouched v hxi hr).1 (by decide),
          by simpa using ⟨hxi, hvl⟩, List.nodup_singleton _⟩
    · obtain ⟨path, hch, hsub, hnd⟩ := hc.chain v hv (hnot hvl hvx)
      exact ⟨path, hch, fun y hy => ⟨(hsub y hy).1,
        fun hc' => (hsub y hy).2 (mem_erased_list.mp hc').1⟩, hnd⟩
  · intro v hv hvne
    obtain ⟨p, hp, hnd, hsub⟩ := hc.spath v hv hvne
    exact ⟨p, hp, hnd, fun y hy hyv hc' => hsub y hy hyv (mem_erased_list.mp hc').1⟩
  · intro hc'
    exact (mem_erased_list.mp hc').2 rfl
  · intro u hu hul
    by_cases hux : u = x
    · subst hux; exact Dbl.le_refl_of_nonneg (hc.nonneg u hu)
    · exact hc.final_le u hu (hnot hul hux) x hx
  · intro u hu hul hux v c hw
    exact h.edges_done u hu (hnot hul hux) v c hw
  · intro e he
    simp at he
  · intro e he
    simp at he

theorem le_dv_relaxed {node : Nat} {st : LoopState} {e : Edge Dbl} (v : Nat)
    (hv : (st.dv v).nonneg = true) : ((relaxed_state node st e).dv v).le (st.dv v) = true := by
  by_cases hve : v = e.to_
  · cases hlt : ((st.dv node).add e.data).lt (st.dv e.to_) with
    | false => rw [relaxed_state_of_not_lt hlt]; exact Dbl.le_refl_of_nonneg hv
    | true =>
      subst hve
      rw [dv_relaxed_same hlt]
      exact Dbl.le_of_lt hlt
  · rw [dv_relaxed_other hve]; exact Dbl.le_refl_of_nonneg hv

/-- Lines 58-65 keep what holds inside the relaxation of the edges of `x`. -/
theorem InvR.relax_step {g : Graph Dbl Dbl} (hg : g.WF) (hw : NonnegWeights g)
    {source target x : Nat} {done : List (Edge Dbl)} {st : LoopState}
    (h : InvR g source target x done st) {e : Edge Dbl} (he : e ∈ g.out_edges x) :
    InvR g source target x (done ++ [e]) (relaxed_state x st e) := by
  have hc := h.core
  have hto := Graph.to_mem_ids hg he
  have hwe := Graph.weight_of_mem hg he
  have hen := nonneg_of_mem_out_edges hw he
  have hxn := hc.nonneg x h.x_in
  have hnew : ((st.dv x).add e.data).nonneg = true := Dbl.nonneg_add hxn hen
  have hsub' : ∀ e' ∈ done ++ [e], e' ∈ g.out_edges x := by
    intro e' he'
    rcases List.mem_append.mp he' with h1 | h1
    · exact h.done_sub e' h1
    · simp at h1; exact h1 ▸ he
  cases hlt : ((st.dv x).add e.data).lt (st.dv e.to_) with
  | false =>
    rw [relaxed_state_of_not_lt hlt]
    refine ⟨hc, h.x_in, h.x_out, h.x_max, h.edges_done, hsub', ?_⟩
    intro e' he'
    rcases List.mem_append.mp he' with h1 | h1
    · exact h.edges_x e' h1
    · simp at h1
      subst h1
      exact Dbl.le_of_not_lt hnew (hc.nonneg _ hto) hlt
  | true =>
    -- the neighbour is not finalised
    have hin : e.to_ ∈ st.list := by
      by_contra hout
      have h1 := h.x_max e.to_ hto hout
      have h2 := Dbl.le_trans h1 (Dbl.le_add_right hxn hen (hc.invA.dv_is_double h.x_in))
      rw [Dbl.not_lt_of_le h2] at hlt
      exact Bool.noConfusion hlt
    have hxne : x ≠ e.to_ := fun hc' => h.x_out (hc' ▸ hin)
    have hfix : ∀ u, u ∉ st.list → (relaxed_state x st e).dv u = st.dv u := fun u hu =>
      dv_relaxed_other (fun hc' => hu (hc' ▸ hin))
    have hpfix : ∀ u, u ∉ st.list → (relaxed_state x st e).prev u = st.prev u := fun u hu =>
      prev_relaxed_other (fun hc' => hu (hc' ▸ hin))
    have hlist : (relaxed_state x st e).list = st.list := relaxed_state_list x st e
    have hxpinf : st.dv x ≠ Dbl.pinf := by
      intro hc'
      rw [hc', Dbl.pinf_add_not_lt] at hlt
      exact Bool.noConfusion hlt
    refine ⟨⟨hc.invA.after_relax_edge hg he, ?_, ?_, ?_, ?_, ?_, ?_, ?_⟩, h.x_in, ?_, ?_, ?_, hsub', ?_⟩
    · rw [hlist]; exact hc.target_in
    · intro v hv
      by_cases hve : v = e.to_
      · subst hve; rw [dv_relaxed_same hlt]; exact hnew
      · rw [dv_relaxed_other hve]; exact hc.nonneg v hv
    · by_cases hse : source = e.to_
      · exfalso
        rw [← hse, hc.src] at hlt
        have := Dbl.not_lt_of_le (Dbl.zero_le hnew)
        rw [this] at hlt
        exact Bool.noConfusion hlt
      · rw [dv_relaxed_other hse]; exact hc.src
    · intro u hu hul v hv
      rw [hlist] at hul hv
      rw [hfix u hul]
      by_cases hve : v = e.to_
      · subst hve
        rw [dv_relaxed_same hlt]
        exact Dbl.le_trans (h.x_max u hu hul) (Dbl.le_add_right hxn hen (hc.invA.dv_is_double h.x_in))
      · rw [dv_relaxed_other hve]; exact hc.final_le u hu hul v hv
    · intro v hv
      rw [relaxed_relaxed hlt] at hv
      rw [hlist]
      by_cases hve : v = e.to_
      · subst hve
        exact ⟨x, e.data, h.x_in, h.x_out, prev_relaxed_same hlt, hwe,
          by rw [dv_relaxed_same hlt, hfix x h.x_out], by rw [hfix x h.x_out]; exact hxpinf⟩
      · have hv' : v ∈ st.relaxed := by
          rcases List.mem_append.mp hv with h1 | h1
          · exact h1
          · simp at h1; exact absurd h1 hve
        obtain ⟨u, c, h1, h2, h3, h4, h5, h6⟩ := hc.link v hv'
        exact ⟨u, c, h1, h2, by rw [prev_relaxed_other hve]; exact h3, h4,
          by rw [dv_relaxed_other hve, hfix u h2]; exact h5, by rw [hfix u h2]; exact h6⟩
    · intro v hv hvl
      rw [hlist] at hvl
      obtain ⟨path, hch, hsub, hnd⟩ := hc.chain v hv hvl
      refine ⟨path, hch.congr (fun y hy => hpfix y (hsub y hy).2), ?_, hnd⟩
      intro y hy
      rw [hlist]
      exact hsub y hy
    · intro v hv hvne
      rw [hlist]
      by_cases hve : v = e.to_
      · subst hve
        rw [dv_relaxed_same hlt]
        obtain ⟨p, hp, hnd, hsub⟩ := hc.spath x h.x_in hxpinf
        have hpl : ∀ y ∈ p, y ∉ st.list := fun y hy => by
          by_cases hyx : y = x
          · exact hyx ▸ h.x_out
          · exact hsub y hy hyx
        refine ⟨p ++ [e.to_], hp.snoc hwe, ?_, ?_⟩
        · exact List.Nodup.append hnd (List.nodup_singleton _)
            (by
              intro y hy hy'
              simp at hy'
              exact hpl y hy (hy' ▸ hin))
        · intro y hy hyv
          rcases List.mem_append.mp hy with h1 | h1
          · exact hpl y h1
          · simp at h1; exact absurd h1 hyv
      · rw [dv_relaxed_other hve] at hvne ⊢
        exact hc.spath v hv hvne
    · rw [hlist]; exact h.x_out
    · intro u hu hul
      rw [hlist] at hul
      rw [hfix u hul, hfix x h.x_out]
      exact h.x_max u hu hul
    · intro u hu hul hux v c hwt
      rw [hlist] at hul
      rw [hfix u hul]
      have hv := (mem_ids_of_weight hg hwt).2
      exact Dbl.le_trans (le_dv_relaxed v (hc.nonneg v hv)) (h.edges_done u hu hul hux v c hwt)
    · intro e' he'
      rw [hfix x h.x_out]
      rcases List.mem_append.mp he' with h1 | h1
      · have hv := hc.nonneg e'.to_ (Graph.to_mem_ids hg (h.done_sub e' h1))
        exact Dbl.le_trans (le_dv_relaxed e'.to_ hv) (h.edges_x e' h1)
      · simp at h1
        subst h1
        rw [dv_relaxed_same hlt]
        exact Dbl.le_refl_of_nonneg hnew

/-- After the last of its outbound edges, the edges of `x` are relaxed. -/
theorem InvR.finish {g : Graph Dbl Dbl} {source target x : Nat} {st : LoopState}
    (h : InvR g source target x (g.out_edges x) st) : InvN g source target st := by
  refine ⟨h.core, ?_⟩
  intro u hu hul v c hwt
  by_cases hux : u = x
  · subst hux
    obtain ⟨e, he, hv, hc⟩ := Graph.mem_of_weight hwt
    subst hv; subst hc
    exact h.edges_x e he
  · exact h.edges_done u hu hul hux v c hwt

/-- Line 52: the edges of a node at distance `INF` need no relaxation. -/
theorem InvR.of_inf {g : Graph Dbl Dbl} (hg : g.WF) (hw : NonnegWeights g)
    {source target x : Nat} {done : List (Edge Dbl)} {st : LoopState}
    (h : InvR g source target x done st) (hx : st.dv x = Dbl.pinf) :
    InvN g source target st := by
  refine ⟨h.core, ?_⟩
  intro u hu hul v c hwt
  by_cases hux : u = x
  · subst hux
    have hc := nonneg_of_weight hw hwt
    have hv := h.core.nonneg v (mem_ids_of_weight hg hwt).2
    rw [hx]
    have : Dbl.pinf.add c = Dbl.pinf := by
      cases c <;> simp [Dbl.nonneg, Dbl.ge, Dbl.add] at *
    rw [this]
    exact Dbl.le_pinf hv
  · exact h.edges_done u hu hul hux v c hwt

theorem Walk.nonneg {g : Graph Dbl Dbl} (hw : NonnegWeights g) {s v : Nat} {w : Dbl}
    (h : Walk g s v w) : w.nonneg = true := by
  induction h with
  | nil _ => rfl
  | snoc _ hc ih => exact Dbl.nonneg_add ih (nonneg_of_weight hw hc)

theorem Walk.mem_ids {g : Graph Dbl Dbl} (hg : g.WF) {s v : Nat} {w : Dbl}
    (h : Walk g s v w) : v ∈ g.ids := by
  cases h with
  | nil hs => exact (g.has_node_iff s).mp hs
  | snoc _ hc => exact (mem_ids_of_weight hg hc).2

/-- The distance of a finalised node is below the weight of every walk that
leads to it, and every walk that leads to a node of `list` weighs at least
the distance of some node of `list`. -/
theorem InvN.lower_bound {g : Graph Dbl Dbl} (hg : g.WF) (hw : NonnegWeights g)
    {source target : Nat} {st : LoopState} (h : InvN g source target st) {v : Nat} {w : Dbl}
    (hwalk : Walk g source v w) :
    (v ∉ st.list → (st.dv v).le w = true) ∧
    (v ∈ st.list → ∃ y ∈ st.list, (st.dv y).le w = true) := by
  have hc := h.core
  induction hwalk with
  | nil hs =>
    have h0 : (st.dv source).le (Dbl.fin 0) = true := by rw [hc.src]; rfl
    exact ⟨fun _ => h0, fun hin => ⟨source, hin, h0⟩⟩
  | @snoc u v w c hu hcw ih =>
    have hui := hu.mem_ids hg
    have hvi := (mem_ids_of_weight hg hcw).2
    have hcn := nonneg_of_weight hw hcw
    have hwn := hu.nonneg hw
    have key : (v ∈ st.list → ∃ y ∈ st.list, (st.dv y).le (w.add c) = true) →
        (v ∉ st.list → (st.dv v).le (w.add c) = true) →
        (v ∉ st.list → (st.dv v).le (w.add c) = true) ∧
        (v ∈ st.list → ∃ y ∈ st.list, (st.dv y).le (w.add c) = true) := fun a b => ⟨b, a⟩
    by_cases hul : u ∈ st.list
    · obtain ⟨y, hy, hyw⟩ := ih.2 hul
      have hyw' : (st.dv y).le (w.add c) = true := Dbl.le_trans hyw (Dbl.le_add_right hwn hcn hu.is_double)
      exact key (fun _ => ⟨y, hy, hyw'⟩)
        (fun hvl => Dbl.le_trans (hc.final_le v hvi hvl y hy) hyw')
    · have h1 := ih.1 hul
      have h2 := h.edges_done u hui hul v c hcw
      have h3 : (st.dv v).le (w.add c) = true :=
        Dbl.le_trans h2 (Dbl.add_le_add_right (hc.nonneg u hui) hcn h1)
      exact key (fun hvl => ⟨v, hvl, h3⟩) (fun _ => h3)

theorem start_state_invN (g : Graph Dbl Dbl) {source target : Nat} (hs : source ∈ g.ids)
    (ht : target ∈ g.ids) : InvN g source target (start_state g source) := by
  have hl : (start_state g source).list = g.ids := by simp [start_state, init_list]
  have hr : (start_state g source).relaxed = [] := by simp [start_state, init_relaxed]
  refine ⟨⟨start_state_invA g hs, ?_, ?_, ?_, ?_, ?_, ?_, ?_⟩, ?_⟩
  · rw [hl]; exact ht
  · intro v hv
    rw [start_state_dv g hs v hv]
    split <;> rfl
  · rw [start_state_dv g hs source hs]; simp
  · intro u hu hul; rw [hl] at hul; exact absurd hu hul
  · intro v hv; rw [hr] at hv; simp at hv
  · intro v hv hvl; rw [hl] at hvl; exact absurd hv hvl
  · intro v hv hvne
    rw [start_state_dv g hs v hv] at hvne ⊢
    by_cases hvs : v = source
    · subst hvs
      simp only [if_true]
      exact ⟨[v], IsPath.single ((g.has_node_iff v).mpr hv), List.nodup_singleton _,
        fun y hy hyv => absurd (List.mem_singleton.mp hy) hyv⟩
    · simp [hvs] at hvne
  · intro u hu hul; rw [hl] at hul; exact absurd hu hul

/-- On a well-formed graph with non-negative weights that has `source` and
`target`, `dijkstra` returns its maps; they satisfy `InvN`, and `target` has
the smallest distance among the nodes that are not finalised. -/
theorem dijkstra_invN {g : Graph Dbl Dbl} (hg : g.WF) (hw : NonnegWeights g)
    {source target : Nat} (hs : g.has_node source = true) (ht : g.has_node target = true)
    (rd : UMap Dbl) (rp : UMap Int) :
    ∃ st, dijkstra g source target rd rp = .ok ⟨false, st.dist, st.prev, st.relaxed⟩ ∧
      InvN g source target st ∧ ∀ v ∈ st.list, (st.dv target).le (st.dv v) = true := by
  have hs' := (g.has_node_iff source).mp hs
  have ht' := (g.has_node_iff target).mp ht
  obtain ⟨st, h1, h2⟩ := loop_spec hg.closed target (InvN g source target)
    (fun st => InvN g source target st ∧ ∀ v ∈ st.list, (st.dv target).le (st.dv v) = true)
    (fun _ h => h.core.invA.dom)
    (fun st h hl => by
      have := h.core.target_in
      rw [hl] at this
      simp at this)
    (fun st h hmem hmin => ⟨h, fun v hv =>
      Dbl.le_of_not_lt (h.core.nonneg v (h.core.invA.dom.list_sub v hv))
        (h.core.nonneg target ht') (hmin v hv)⟩)
    (fun st node h hmem hmin hne hinf => by
      have hR := h.finalize hg hmem hmin hne
      refine ⟨hR.of_inf hg hw hinf, ?_⟩
      intro v hv
      have hvi := hR.core.invA.dom.list_sub v hv
      have e1 := Dbl.pinf_le (hinf ▸ hR.core.final_le node hR.x_in hR.x_out v hv)
      have e2 := Dbl.pinf_le (hinf ▸ hR.core.final_le node hR.x_in hR.x_out target
        hR.core.target_in)
      show ((erased_state node st).dv target).le ((erased_state node st).dv v) = true
      rw [e1, e2]; rfl)
    (fun st node st2 h hmem hmin hne _ hr _ => by
      have hR := h.finalize hg hmem hmin hne
      obtain ⟨st2', hr', _, _, hP⟩ := relax_spec hg.closed hR.x_in
        (fun done s => InvR g source target node done s)
        (fun _ e s he _ hs => hs.relax_step hg hw he) hR.core.invA.dom hR
      rw [hr] at hr'
      injection hr' with hr'
      exact (hr' ▸ hP).finish)
    g.ids.length (start_state g source) (start_state_invN g hs' ht')
    (by simp [start_state, init_list])
  exact ⟨st, by rw [dijkstra_present g source target rd rp hs ht, h1], h2⟩

/-! ## Simple paths -/

theorem path_weight_from_prefix (g : Graph Dbl Dbl) (l1 l2 : List Nat) :
    ∀ (acc : Dbl) (u : Nat) (w : Dbl), path_weight_from g acc u (l1 ++ l2) = some w →
      ∃ w1, path_weight_from g acc u l1 = some w1 := by
  induction l1 with
  | nil => intro acc u w _; exact ⟨acc, rfl⟩
  | cons y l1 ih =>
    intro acc u w h
    simp only [List.cons_append, path_weight_from] at h ⊢
    cases hc : g.weight u y with
    | none => simp [hc] at h
    | some c =>
      simp only [hc] at h ⊢
      exact ih _ _ _ h

theorem IsPath.prefix_to {g : Graph Dbl Dbl} {s t : Nat} {p : List Nat} {w : Dbl}
    (h : IsPath g s t p w) {l1 l2 : List Nat} {v : Nat} (hp : p = l1 ++ v :: l2) :
    ∃ w', IsPath g s v (l1 ++ [v]) w' := by
  obtain ⟨h1, _, h3⟩ := h
  subst hp
  cases l1 with
  | nil =>
    simp at h1
    subst h1
    simp only [List.nil_append, path_weight] at h3
    by_cases hv : g.has_node v = true
    · exact ⟨_, IsPath.single hv⟩
    · simp [hv] at h3
  | cons a l1 =>
    simp at h1
    subst h1
    simp only [List.cons_append, path_weight] at h3
    by_cases ha : g.has_node a = true
    · simp only [ha, if_true] at h3
      have h3' : path_weight_from g (Dbl.fin 0) a ((l1 ++ [v]) ++ l2) = some w := by
        simpa using h3
      obtain ⟨w1, hw1⟩ := path_weight_from_prefix g _ _ _ _ _ h3'
      refine ⟨w1, by simp, ?_, ?_⟩
      · exact List.getLast?_concat _
      · simp only [List.cons_append, path_weight, ha, if_true]
        exact hw1
    · simp [ha] at h3

/-- Where a walk leads, a path without repeated nodes leads as well. -/
theorem Walk.exists_simple_path {g : Graph Dbl Dbl} {s v : Nat} {w : Dbl} (h : Walk g s v w) :
    ∃ p w', IsPath g s v p w' ∧ p.Nodup := by
  induction h with
  | nil hs => exact ⟨[s], _, IsPath.single hs, List.nodup_singleton _⟩
  | @snoc u v w c _ hc ih =>
    obtain ⟨p, w', hp, hnd⟩ := ih
    by_cases hv : v ∈ p
    · obtain ⟨l1, l2, hl⟩ := List.append_of_mem hv
      obtain ⟨w1, hw1⟩ := hp.prefix_to hl
      refine ⟨l1 ++ [v], w1, hw1, ?_⟩
      have hsub : (l1 ++ [v]).Sublist p := by
        rw [hl]
        exact List.Sublist.append (List.Sublist.refl l1)
          (List.Sublist.cons₂ v (List.nil_sublist l2))
      exact hnd.sublist hsub
    · refine ⟨p ++ [v], _, hp.snoc hc, ?_⟩
      exact List.Nodup.append hnd (List.nodup_singleton _)
        (by
          intro y hy hy'
          simp at hy'
          exact hv (hy' ▸ hy))

/-! ## Sums that do not round -/

namespace Dbl

theorem nonneg_sum {a b : Dbl} (ha : a.nonneg = true) (hb : b.nonneg = true) :
    (a.sum b).nonneg = true := by
  cases a <;> cases b <;> simp [nonneg, ge, sum] at * <;> omega

theorem le_sum_right {a b : Dbl} (ha : a.nonneg = true) (hb : b.nonneg = true) :
    a.le (a.sum b) = true := by
  cases a <;> cases b <;> simp [nonneg, le, ge, sum] at * <;> omega

theorem sum_le_sum_right {a b c : Dbl} (ha : a.nonneg = true) (hc : c.nonneg = true)
    (h : a.le b = true) : (a.sum c).le (b.sum c) = true := by
  cases a <;> cases b <;> cases c <;> simp [nonneg, le, ge, sum] at * <;> omega

/-- A multiple of `2^j` below `2^(j+53)` is a finite double, for `j` up to
`2045`. -/
theorem round_of_multiple {j a : Nat} (hj : j ≤ 2045) (ha : a < 2 ^ 53) :
    round ((a * 2 ^ j : Nat) : Int) = fin ((a * 2 ^ j : Nat) : Int) := by
  have hlt : a * 2 ^ j < 2 ^ (j + 53) := by
    rw [Nat.pow_add, Nat.mul_comm (2 ^ j)]
    exact Nat.mul_lt_mul_of_pos_right ha (Nat.two_pow_pos j)
  have hr : round_nat (a * 2 ^ j) = a * 2 ^ j :=
    round_nat_of_dvd (Nat.dvd_mul_left _ _) hlt
  have htop : a * 2 ^ j < 2 ^ 2098 :=
    Nat.lt_of_lt_of_le hlt (Nat.pow_le_pow_right (by decide) (by omega))
  rw [round_ofNat, hr, if_pos htop]

/-- The `+` of the program does not round the sum of two multiples of `2^j`
that is below `2^(j+53)`. -/
theorem add_multiple {j a k : Nat} (hj : j ≤ 2045) (h : a + k < 2 ^ 53) :
    (fin ((a * 2 ^ j : Nat) : Int)).add (fin ((k * 2 ^ j : Nat) : Int)) =
      fin (((a + k) * 2 ^ j : Nat) : Int) ∧
    (fin ((a * 2 ^ j : Nat) : Int)).sum (fin ((k * 2 ^ j : Nat) : Int)) =
      fin (((a + k) * 2 ^ j : Nat) : Int) := by
  have e : ((a * 2 ^ j : Nat) : Int) + ((k * 2 ^ j : Nat) : Int) =
      (((a + k) * 2 ^ j : Nat) : Int) := by
    rw [← Int.ofNat_add, Nat.add_mul]
  constructor
  · show round (((a * 2 ^ j : Nat) : Int) + ((k * 2 ^ j : Nat) : Int)) = _
    rw [e]
    exact round_of_multiple hj h
  · show fin (((a * 2 ^ j : Nat) : Int) + ((k * 2 ^ j : Nat) : Int)) = _
    rw [e]

theorem is_multiple_nonneg {j K : Nat} {c : Dbl} (h : c.is_multiple j K) :
    c.nonneg = true := by
  obtain ⟨k, _, rfl⟩ := h
  simp only [nonneg, ge, decide_eq_true_eq]
  exact Int.ofNat_nonneg _

end Dbl

theorem ExactWeights.of_weight {g : Graph Dbl Dbl} {j K : Nat} (hx : ExactWeights g j K)
    {u v : Nat} {c : Dbl} (h : g.weight u v = some c) : c.is_multiple j K := by
  obtain ⟨e, he, _, hce⟩ := Graph.mem_of_weight h
  obtain ⟨n, _, _, ho, hm⟩ := g.node_at_of_mem (Graph.mem_ids_of_mem_out_edges he)
  rw [ho] at he
  exact hce ▸ hx.2.2 _ hm e he

theorem ExactWeights.nonneg_weights {g : Graph Dbl Dbl} {j K : Nat} (hx : ExactWeights g j K) :
    NonnegWeights g :=
  fun p hp e he => Dbl.is_multiple_nonneg (hx.2.2 p hp e he)

/-- Along a walk of fewer edges than the graph has nodes the program adds the
weights without rounding: the sum of line 59 is the total weight, a multiple of
`2^j`. -/
theorem path_weight_from_exact {g : Graph Dbl Dbl} {j K : Nat} (hx : ExactWeights g j K)
    (rest : List Nat) :
    ∀ (u a : Nat), a + rest.length * K < 2 ^ 53 →
      path_weight_from g (Dbl.fin ((a * 2 ^ j : Nat) : Int)) u rest =
        total_weight_from g (Dbl.fin ((a * 2 ^ j : Nat) : Int)) u rest ∧
      ∀ w, path_weight_from g (Dbl.fin ((a * 2 ^ j : Nat) : Int)) u rest = some w →
        ∃ b, b ≤ a + rest.length * K ∧ w = Dbl.fin ((b * 2 ^ j : Nat) : Int) := by
  induction rest with
  | nil =>
    intro u a _
    simp only [path_weight_from, total_weight_from, true_and]
    intro w hw
    injection hw with hw
    exact ⟨a, by simp, hw.symm⟩
  | cons v rest ih =>
    intro u a ha
    simp only [List.length_cons, Nat.succ_mul] at ha
    simp only [path_weight_from, total_weight_from]
    cases hc : g.weight u v with
    | none => simp
    | some c =>
      obtain ⟨k, hk, rfl⟩ := hx.of_weight hc
      simp only
      obtain ⟨e1, e2⟩ := @Dbl.add_multiple j a k hx.1 (by omega)
      rw [e1, e2]
      obtain ⟨i1, i2⟩ := ih v (a + k) (by omega)
      refine ⟨i1, ?_⟩
      intro w hw
      obtain ⟨b, hb, hwb⟩ := i2 w hw
      refine ⟨b, ?_, hwb⟩
      simp only [List.length_cons, Nat.succ_mul]
      omega

/-- On a path of at most as many nodes as the graph has, the sum that the
program computes is the total weight, and it is finite. -/
theorem path_weight_exact {g : Graph Dbl Dbl} {j K : Nat} (hx : ExactWeights g j K)
    {p : List Nat} (hlen : p.length ≤ g.nodes.length) :
    path_weight g p = total_weight g p ∧
    ∀ w, path_weight g p = some w →
      ∃ b, b ≤ (g.nodes.length - 1) * K ∧ w = Dbl.fin ((b * 2 ^ j : Nat) : Int) := by
  cases p with
  | nil => exact ⟨rfl, fun w hw => Option.noConfusion hw⟩
  | cons s rest =>
    simp only [List.length_cons] at hlen
    have hb : rest.length * K ≤ (g.nodes.length - 1) * K :=
      Nat.mul_le_mul_right K (by omega)
    have hK : (g.nodes.length - 1) * K < 2 ^ 53 := by
      have h1 : (g.nodes.length - 1) * K ≤ g.nodes.length * K :=
        Nat.mul_le_mul_right K (by omega)
      have h2 := hx.2.1
      rw [Nat.mul_comm] at h2
      omega
    have h0 : Dbl.fin 0 = Dbl.fin ((0 * 2 ^ j : Nat) : Int) := by simp
    obtain ⟨i1, i2⟩ := path_weight_from_exact hx rest s 0 (by omega)
    unfold path_weight total_weight
    by_cases hs : g.has_node s = true
    · simp only [hs, if_true]
      rw [h0]
      refine ⟨i1, ?_⟩
      intro w hw
      obtain ⟨b, hb', hwb⟩ := i2 w hw
      exact ⟨b, by omega, hwb⟩
    · simp [hs]

theorem path_weight_from_mem_ids {g : Graph Dbl Dbl} (hg : g.WF) (rest : List Nat) :
    ∀ (acc : Dbl) (u : Nat) (w : Dbl), path_weight_from g acc u rest = some w →
      ∀ y ∈ rest, y ∈ g.ids := by
  induction rest with
  | nil => intro _ _ _ _ y hy; exact absurd hy (List.not_mem_nil y)
  | cons v rest ih =>
    intro acc u w h y hy
    simp only [path_weight_from] at h
    cases hc : g.weight u v with
    | none => simp [hc] at h
    | some c =>
      simp only [hc] at h
      rcases List.mem_cons.mp hy with e | e
      · rw [e]; exact (mem_ids_of_weight hg hc).2
      · exact ih _ _ _ h y e

/-- The nodes of a directed path are nodes of the graph. -/
theorem IsPath.subset_ids {g : Graph Dbl Dbl} (hg : g.WF) {s t : Nat} {p : List Nat} {w : Dbl}
    (h : IsPath g s t p w) : ∀ y ∈ p, y ∈ g.ids := by
  obtain ⟨_, _, h3⟩ := h
  cases p with
  | nil => exact Option.noConfusion h3
  | cons a rest =>
    unfold path_weight at h3
    by_cases ha : g.has_node a = true
    · simp only [ha, if_true] at h3
      intro y hy
      rcases List.mem_cons.mp hy with e | e
      · rw [e]; exact (g.has_node_iff a).mp ha
      · exact path_weight_from_mem_ids hg rest _ _ _ h3 y e
    · simp [ha] at h3

/-- A directed path without repeated nodes has at most as many nodes as the
graph. -/
theorem IsPath.length_le {g : Graph Dbl Dbl} (hg : g.WF) {s t : Nat} {p : List Nat} {w : Dbl}
    (h : IsPath g s t p w) (hnd : p.Nodup) : p.length ≤ g.nodes.length := by
  have := (List.subperm_of_subset hnd (h.subset_ids hg)).length_le
  simpa [Graph.ids] using this

/-- When no sum rounds, a path without repeated nodes has the sum that the
program computes along it as its total weight. -/
theorem IsPath.total {g : Graph Dbl Dbl} (hg : g.WF) {j K : Nat} (hx : ExactWeights g j K)
    {s t : Nat} {p : List Nat} {w : Dbl} (h : IsPath g s t p w) (hnd : p.Nodup) :
    IsPathTotal g s t p w ∧
    ∃ b, b ≤ (g.nodes.length - 1) * K ∧ w = Dbl.fin ((b * 2 ^ j : Nat) : Int) := by
  obtain ⟨e1, e2⟩ := path_weight_exact hx (h.length_le hg hnd)
  exact ⟨⟨h.1, h.2.1, e1 ▸ h.2.2⟩, e2 w h.2.2⟩

/-- When no sum rounds, every distance other than `INF` is a multiple of
`2^j` that leaves room for one more weight. -/
theorem Core.dv_multiple {g : Graph Dbl Dbl} (hg : g.WF) {j K : Nat} (hx : ExactWeights g j K)
    {source target : Nat} {st : LoopState} (hc : Core g source target st) {v : Nat}
    (hv : v ∈ g.ids) (hne : st.dv v ≠ Dbl.pinf) :
    ∃ b, b + K < 2 ^ 53 ∧ st.dv v = Dbl.fin ((b * 2 ^ j : Nat) : Int) := by
  obtain ⟨p, hp, hnd, _⟩ := hc.spath v hv hne
  obtain ⟨_, b, hb, hw⟩ := hp.total hg hx hnd
  refine ⟨b, ?_, hw⟩
  have h2 := hx.2.1
  have hpos : 0 < g.nodes.length := by
    have := List.length_pos_of_mem hv
    simpa [Graph.ids] using this
  have h3 : (g.nodes.length - 1) * K + K = K * g.nodes.length := by
    rw [Nat.mul_comm K, ← Nat.succ_mul]
    congr 1
    omega
  omega

theorem WalkTotal.total_nonneg {g : Graph Dbl Dbl} (hw : NonnegWeights g) {s v : Nat} {w : Dbl}
    (h : WalkTotal g s v w) : w.nonneg = true := by
  induction h with
  | nil _ => rfl
  | snoc _ hc ih => exact Dbl.nonneg_sum ih (nonneg_of_weight hw hc)

theorem WalkTotal.end_mem_ids {g : Graph Dbl Dbl} (hg : g.WF) {s v : Nat} {w : Dbl}
    (h : WalkTotal g s v w) : v ∈ g.ids := by
  cases h with
  | nil hs => exact (g.has_node_iff s).mp hs
  | snoc _ hc => exact (mem_ids_of_weight hg hc).2

theorem walk_total_of_path_from (g : Graph Dbl Dbl) (s : Nat) (rest : List Nat) :
    ∀ (acc : Dbl) (u t : Nat) (w : Dbl), WalkTotal g s u acc →
      total_weight_from g acc u rest = some w → (u :: rest).getLast? = some t →
      WalkTotal g s t w := by
  induction rest with
  | nil =>
    intro acc u t w hw h ht
    simp [total_weight_from] at h
    simp at ht
    subst h; subst ht
    exact hw
  | cons y rest ih =>
    intro acc u t w hw h ht
    rw [List.getLast?_cons_cons] at ht
    simp only [total_weight_from] at h
    cases hc : g.weight u y with
    | none => simp [hc] at h
    | some c =>
      simp only [hc] at h
      exact ih _ _ _ _ (WalkTotal.snoc hw hc) h ht

theorem IsPathTotal.walk_total {g : Graph Dbl Dbl} {s t : Nat} {p : List Nat} {w : Dbl}
    (h : IsPathTotal g s t p w) : WalkTotal g s t w := by
  obtain ⟨h1, h2, h3⟩ := h
  cases p with
  | nil => simp at h1
  | cons a rest =>
    simp at h1
    subst h1
    unfold total_weight at h3
    by_cases ha : g.has_node a = true
    · simp only [ha, if_true] at h3
      exact walk_total_of_path_from g a rest _ _ _ _ (WalkTotal.nil ha) h3 h2
    · simp [ha] at h3

/-- When no sum rounds, the distance of a finalised node is below the total
weight of every walk that leads to it, and every walk that leads to a node of
`list` has at least the distance of some node of `list` as its total
weight. -/
theorem InvN.lower_bound_total {g : Graph Dbl Dbl} (hg : g.WF) {j K : Nat}
    (hx : ExactWeights g j K) {source target : Nat} {st : LoopState}
    (h : InvN g source target st) {v : Nat} {w : Dbl} (hwalk : WalkTotal g source v w) :
    (v ∉ st.list → (st.dv v).le w = true) ∧
    (v ∈ st.list → ∃ y ∈ st.list, (st.dv y).le w = true) := by
  have hw := hx.nonneg_weights
  have hc := h.core
  induction hwalk with
  | nil hs =>
    have h0 : (st.dv source).le (Dbl.fin 0) = true := by rw [hc.src]; rfl
    exact ⟨fun _ => h0, fun hin => ⟨source, hin, h0⟩⟩
  | @snoc u v w c hu hcw ih =>
    have hui := hu.end_mem_ids hg
    have hvi := (mem_ids_of_weight hg hcw).2
    have hcn := nonneg_of_weight hw hcw
    have hwn := hu.total_nonneg hw
    have key : (v ∈ st.list → ∃ y ∈ st.list, (st.dv y).le (w.sum c) = true) →
        (v ∉ st.list → (st.dv v).le (w.sum c) = true) →
        (v ∉ st.list → (st.dv v).le (w.sum c) = true) ∧
        (v ∈ st.list → ∃ y ∈ st.list, (st.dv y).le (w.sum c) = true) := fun a b => ⟨b, a⟩
    by_cases hul : u ∈ st.list
    · obtain ⟨y, hy, hyw⟩ := ih.2 hul
      have hyw' : (st.dv y).le (w.sum c) = true := Dbl.le_trans hyw (Dbl.le_sum_right hwn hcn)
      exact key (fun _ => ⟨y, hy, hyw'⟩)
        (fun hvl => Dbl.le_trans (hc.final_le v hvi hvl y hy) hyw')
    · have h1 := ih.1 hul
      have h2 := h.edges_done u hui hul v c hcw
      have h4 : ((st.dv u).add c).le (w.sum c) = true := by
        by_cases hinf : st.dv u = Dbl.pinf
        · rw [hinf] at h1 ⊢
          rw [Dbl.pinf_le h1]
          cases c <;> simp [Dbl.nonneg, Dbl.ge, Dbl.add, Dbl.sum, Dbl.le] at *
        · obtain ⟨b, hb, hdb⟩ := hc.dv_multiple hg hx hui hinf
          obtain ⟨k, hk, hck⟩ := hx.of_weight hcw
          have e := @Dbl.add_multiple j b k hx.1 (by omega)
          have e3 : (st.dv u).add c = (st.dv u).sum c := by
            rw [hdb, hck, e.1, e.2]
          rw [e3]
          exact Dbl.sum_le_sum_right (hc.nonneg u hui) hcn h1
      have h3 : (st.dv v).le (w.sum c) = true := Dbl.le_trans h2 h4
      exact key (fun hvl => ⟨v, hvl, h3⟩) (fun _ => h3)

/-- When no sum rounds, a node that is reachable is reached by a path whose
weights add up to a finite double. -/
theorem ExactWeights.finite_path {g : Graph Dbl Dbl} (hg : g.WF) {j K : Nat}
    (hx : ExactWeights g j K) {s t : Nat} (hr : Reachable g s t) :
    ∃ p w, IsPath g s t p w ∧ w ≠ INF := by
  obtain ⟨w, hwalk⟩ := (reachable_iff_walk g s t).mp hr
  obtain ⟨p, w', hp, hnd⟩ := hwalk.exists_simple_path
  obtain ⟨_, b, _, hb⟩ := hp.total hg hx hnd
  refine ⟨p, w', hp, ?_⟩
  rw [hb]
  exact fun hc => Dbl.noConfusion hc

/-! ## Total weights in the graphs `round_chain` and `round_fork` -/

theorem round_chain_weight_0 (v : Nat) :
    round_chain.weight 0 v = if v = 1 then some (Dbl.ofInt 9007199254740992) else none := by
  have h : round_chain.out_edges 0 = [⟨0, 1, Dbl.ofInt 9007199254740992⟩] := rfl
  unfold Graph.weight
  rw [h]
  by_cases hv : v = 1
  · subst hv; rfl
  · rw [if_neg hv]
    have : ((1 : Nat) == v) = false := by simpa using fun h => hv h.symm
    simp [List.find?, this]

theorem round_chain_weight_1 (v : Nat) :
    round_chain.weight 1 v = if v = 2 then some (Dbl.ofInt 1) else none := by
  have h : round_chain.out_edges 1 = [⟨1, 2, Dbl.ofInt 1⟩] := rfl
  unfold Graph.weight
  rw [h]
  by_cases hv : v = 2
  · subst hv; rfl
  · rw [if_neg hv]
    have : ((2 : Nat) == v) = false := by simpa using fun h => hv h.symm
    simp [List.find?, this]

theorem round_chain_weight_2 (v : Nat) : round_chain.weight 2 v = none := by
  have h : round_chain.out_edges 2 = [] := rfl
  unfold Graph.weight
  rw [h]
  rfl

/-- Every directed path from node `0` to node `2` in `round_chain` has the
total weight `2^53 + 1`. -/
theorem round_chain_total (p : List Nat) (w : Dbl) (h : IsPathTotal round_chain 0 2 p w) :
    w = Dbl.ofInt 9007199254740993 := by
  obtain ⟨h1, h2, h3⟩ := h
  match p, h1, h2, h3 with
  | [], h1, _, _ => exact Option.noConfusion h1
  | [a], h1, h2, _ =>
    simp at h1 h2
    omega
  | [a, b], h1, h2, h3 =>
    simp at h1 h2
    subst h1 h2
    simp [total_weight, total_weight_from, round_chain_weight_0] at h3
  | [a, b, c], h1, h2, h3 =>
    simp at h1 h2
    subst h1 h2
    have h0 : round_chain.has_node 0 = true := by decide
    simp only [total_weight, h0, if_true, total_weight_from, round_chain_weight_0] at h3
    by_cases hb : b = 1
    · subst hb
      simp only [if_true, round_chain_weight_1] at h3
      injection h3 with h3
      rw [← h3]
      decide
    · simp [hb] at h3
  | a :: b :: c :: d :: rest, h1, _, h3 =>
    simp at h1
    subst h1
    have h0 : round_chain.has_node 0 = true := by decide
    simp only [total_weight, h0, if_true, total_weight_from, round_chain_weight_0] at h3
    by_cases hb : b = 1
    · subst hb
      simp only [if_true, round_chain_weight_1] at h3
      by_cases hc : c = 2
      · subst hc
        simp only [if_true, round_chain_weight_2] at h3
        exact Option.noConfusion h3
      · simp [hc] at h3
    · simp [hb] at h3

theorem round_fork_weight_0 (v : Nat) :
    round_fork.weight 0 v = if v = 1 then some (Dbl.ofInt 10000000000000000)
      else if v = 3 then some (Dbl.ofInt 10000000000000002) else none := by
  have h : round_fork.out_edges 0 =
      [⟨0, 1, Dbl.ofInt 10000000000000000⟩, ⟨0, 3, Dbl.ofInt 10000000000000002⟩] := rfl
  unfold Graph.weight
  rw [h]
  by_cases hv : v = 1
  · subst hv; rfl
  · rw [if_neg hv]
    have a : ((1 : Nat) == v) = false := by simpa using fun h => hv h.symm
    by_cases hv3 : v = 3
    · subst hv3; rfl
    · rw [if_neg hv3]
      have b : ((3 : Nat) == v) = false := by simpa using fun h => hv3 h.symm
      simp [List.find?, a, b]

theorem round_fork_weight_1 (v : Nat) :
    round_fork.weight 1 v = if v = 2 then some (Dbl.ofInt 1) else none := by
  have h : round_fork.out_edges 1 = [⟨1, 2, Dbl.ofInt 1⟩] := rfl
  unfold Graph.weight
  rw [h]
  by_cases hv : v = 2
  · subst hv; rfl
  · rw [if_neg hv]
    have : ((2 : Nat) == v) = false := by simpa using fun h => hv h.symm
    simp [List.find?, this]

theorem round_fork_weight_2 (v : Nat) :
    round_fork.weight 2 v = if v = 3 then some (Dbl.ofInt 1) else none := by
  have h : round_fork.out_edges 2 = [⟨2, 3, Dbl.ofInt 1⟩] := rfl
  unfold Graph.weight
  rw [h]
  by_cases hv : v = 3
  · subst hv; rfl
  · rw [if_neg hv]
    have : ((3 : Nat) == v) = false := by simpa using fun h => hv h.symm
    simp [List.find?, this]

theorem round_fork_weight_3 (v : Nat) : round_fork.weight 3 v = none := by
  have h : round_fork.out_edges 3 = [] := rfl
  unfold Graph.weight
  rw [h]
  rfl

/-- The total weight of a walk in `round_fork` that has arrived at node `u`
with the total that belongs to `u` is the total that belongs to its last
node: `0` at node `0`, `10^16` at node `1`, `10^16 + 1` at node `2` and
`10^16 + 2` at node `3`. -/
theorem round_fork_total_from (rest : List Nat) :
    ∀ (u : Nat) (acc w : Dbl),
      (u = 0 ∧ acc = Dbl.fin 0) ∨ (u = 1 ∧ acc = Dbl.ofInt 10000000000000000) ∨
        (u = 2 ∧ acc = Dbl.ofInt 10000000000000001) ∨
        (u = 3 ∧ acc = Dbl.ofInt 10000000000000002) →
      total_weight_from round_fork acc u rest = some w →
      ((u :: rest).getLast? = some 2 → w = Dbl.ofInt 10000000000000001) ∧
      ((u :: rest).getLast? = some 3 → w = Dbl.ofInt 10000000000000002) := by
  induction rest with
  | nil =>
    intro u acc w hu h
    simp only [total_weight_from] at h
    injection h with h
    subst h
    simp only [List.getLast?_singleton, Option.some.injEq]
    rcases hu with ⟨a, b⟩ | ⟨a, b⟩ | ⟨a, b⟩ | ⟨a, b⟩ <;> subst a <;> subst b <;>
      constructor <;> intro hc <;> first | rfl | exact absurd hc (by decide)
  | cons v rest ih =>
    intro u acc w hu h
    have hl : (u :: v :: rest).getLast? = (v :: rest).getLast? := by simp [List.getLast?]
    rw [hl]
    simp only [total_weight_from] at h
    rcases hu with ⟨a, b⟩ | ⟨a, b⟩ | ⟨a, b⟩ | ⟨a, b⟩ <;> subst a <;> subst b
    · rw [round_fork_weight_0] at h
      by_cases h1 : v = 1
      · subst h1
        exact ih 1 _ w (Or.inr (Or.inl ⟨rfl, by decide⟩)) h
      · rw [if_neg h1] at h
        by_cases h3 : v = 3
        · subst h3
          exact ih 3 _ w (Or.inr (Or.inr (Or.inr ⟨rfl, by decide⟩))) h
        · rw [if_neg h3] at h
          exact Option.noConfusion h
    · rw [round_fork_weight_1] at h
      by_cases h2 : v = 2
      · subst h2
        exact ih 2 _ w (Or.inr (Or.inr (Or.inl ⟨rfl, by decide⟩))) h
      · rw [if_neg h2] at h
        exact Option.noConfusion h
    · rw [round_fork_weight_2] at h
      by_cases h3 : v = 3
      · subst h3
        exact ih 3 _ w (Or.inr (Or.inr (Or.inr ⟨rfl, by decide⟩))) h
      · rw [if_neg h3] at h
        exact Option.noConfusion h
    · rw [round_fork_weight_3] at h
      exact Option.noConfusion h

/-- Every directed path from node `0` to node `2` in `round_fork` has the
total weight `10^16 + 1`, and every directed path from node `0` to node `3`
the total weight `10^16 + 2`. -/
theorem round_fork_total (p : List Nat) (w : Dbl) :
    (IsPathTotal round_fork 0 2 p w → w = Dbl.ofInt 10000000000000001) ∧
    (IsPathTotal round_fork 0 3 p w → w = Dbl.ofInt 10000000000000002) := by
  have key : ∀ t, IsPathTotal round_fork 0 t p w →
      (p.getLast? = some t) ∧ ∃ rest, p = 0 :: rest ∧
        total_weight_from round_fork (Dbl.fin 0) 0 rest = some w := by
    intro t ⟨h1, h2, h3⟩
    refine ⟨h2, ?_⟩
    cases p with
    | nil => exact Option.noConfusion h1
    | cons a rest =>
      simp at h1
      subst h1
      refine ⟨rest, rfl, ?_⟩
      have h0 : round_fork.has_node 0 = true := by decide
      simpa only [total_weight, h0, if_true] using h3
  constructor
  · intro h
    obtain ⟨hl, rest, hp, ht⟩ := key 2 h
    subst hp
    exact (round_fork_total_from rest 0 _ w (Or.inl ⟨rfl, rfl⟩) ht).1 hl
  · intro h
    obtain ⟨hl, rest, hp, ht⟩ := key 3 h
    subst hp
    exact (round_fork_total_from rest 0 _ w (Or.inl ⟨rfl, rfl⟩) ht).2 hl

/-! ## Claims about the distances -/

/-- C4: on a well-formed graph with non-negative edge weights that has
`source` and `target`, the distance map that `dijkstra` returns has
`distance[source] = 0`. -/
theorem source_distance_is_zero (g : Graph Dbl Dbl) (source target : Nat)
    (rd : UMap Dbl) (rp : UMap Int) (hg : g.WF) (hw : NonnegWeights g)
    (hs : g.has_node source = true) (ht : g.has_node target = true) :
    ∃ o, dijkstra g source target rd rp = .ok o ∧ o.not_in_graph = false ∧
      o.return_dist source = some (Dbl.fin 0) := by
  obtain ⟨st, h1, h2, _⟩ := dijkstra_invN hg hw hs ht rd rp
  refine ⟨_, h1, rfl, ?_⟩
  show st.dist source = _
  rw [h2.core.invA.dom.dist_eq ((g.has_node_iff source).mp hs), h2.core.src]

/-- The run of `main` on `my_graph`. -/
theorem source_distance_is_zero_witness :
    ∃ o, dijkstra my_graph 0 5 UMap.empty UMap.empty = .ok o ∧ o.not_in_graph = false ∧
      o.return_dist 0 = some (Dbl.fin 0) :=
  source_distance_is_zero my_graph 0 5 UMap.empty UMap.empty (by decide) (by decide)
    (by decide) (by decide)

/-- C1, as the code has it: on a well-formed graph with non-negative edge
weights that has `source` and `target`, the distance `d` that `dijkstra`
returns for `target` is at most the weight of every directed path from
`source` to `target` (repeated nodes allowed), the weights of a path being
added up in double arithmetic from `source` on, and it is the weight, added
up in this way, of a directed path without repeated nodes from `source` to
`target`, unless there is no directed path at all, in which case `d` is
`+infinity`.  When no sum along a path can round (`ExactWeights`), the same
holds of the total weights: `d` is the least total weight of a directed path
from `source` to `target`, and `+infinity` when there is none. -/
theorem dijkstra_distance_is_least_path_weight (g : Graph Dbl Dbl) (source target : Nat)
    (rd : UMap Dbl) (rp : UMap Int) (hg : g.WF) (hw : NonnegWeights g)
    (hs : g.has_node source = true) (ht : g.has_node target = true) :
    ∃ o d, dijkstra g source target rd rp = .ok o ∧ o.not_in_graph = false ∧
      o.return_dist target = some d ∧
      (∀ p w, IsPath g source target p w → d.le w = true) ∧
      ((∃ p, p.Nodup ∧ IsPath g source target p d) ∨
        (d = INF ∧ ¬ Reachable g source target)) ∧
      (∀ j K, ExactWeights g j K →
        (∀ p w, IsPathTotal g source target p w → d.le w = true) ∧
        ((∃ p, p.Nodup ∧ IsPathTotal g source target p d) ∨
          (d = INF ∧ ¬ Reachable g source target))) := by
  obtain ⟨st, h1, h2, h3⟩ := dijkstra_invN hg hw hs ht rd rp
  have ht' := (g.has_node_iff target).mp ht
  have hlow : ∀ p w, IsPath g source target p w → (st.dv target).le w = true := by
    intro p w hp
    obtain ⟨y, hy, hyw⟩ := (h2.lower_bound hg hw hp.walk).2 h2.core.target_in
    exact Dbl.le_trans (h3 y hy) hyw
  refine ⟨_, st.dv target, h1, rfl, h2.core.invA.dom.dist_eq ht', hlow, ?_, ?_⟩
  · by_cases hinf : st.dv target = Dbl.pinf
    · by_cases hr : Reachable g source target
      · left
        obtain ⟨w, hwalk⟩ := (reachable_iff_walk g source target).mp hr
        obtain ⟨p, w', hp, hnd⟩ := hwalk.exists_simple_path
        have := hlow p w' hp
        rw [hinf] at this ⊢
        rw [Dbl.pinf_le this] at hp
        exact ⟨p, hnd, hp⟩
      · exact Or.inr ⟨hinf, hr⟩
    · obtain ⟨p, hp, hnd, _⟩ := h2.core.spath target ht' hinf
      exact Or.inl ⟨p, hnd, hp⟩
  · intro j K hx
    constructor
    · intro p w hp
      obtain ⟨y, hy, hyw⟩ := (h2.lower_bound_total hg hx hp.walk_total).2 h2.core.target_in
      exact Dbl.le_trans (h3 y hy) hyw
    · by_cases hinf : st.dv target = Dbl.pinf
      · refine Or.inr ⟨hinf, fun hr => ?_⟩
        obtain ⟨p, w, hp, hne⟩ := hx.finite_path hg hr
        have := hlow p w hp
        rw [hinf] at this
        exact hne (Dbl.pinf_le this)
      · obtain ⟨p, hp, hnd, _⟩ := h2.core.spath target ht' hinf
        exact Or.inl ⟨p, hnd, (hp.total hg hx hnd).1⟩

/-- The run of `main` on `my_graph`, where no sum rounds: the weights are
integers up to `11`. -/
theorem dijkstra_distance_is_least_path_weight_witness :
    ExactWeights my_graph 1074 11 ∧
    ∃ o d, dijkstra my_graph 0 5 UMap.empty UMap.empty = .ok o ∧ o.not_in_graph = false ∧
      o.return_dist 5 = some d ∧
      (∀ p w, IsPath my_graph 0 5 p w → d.le w = true) ∧
      ((∃ p, p.Nodup ∧ IsPath my_graph 0 5 p d) ∨ (d = INF ∧ ¬ Reachable my_graph 0 5)) ∧
      (∀ j K, ExactWeights my_graph j K →
        (∀ p w, IsPathTotal my_graph 0 5 p w → d.le w = true) ∧
        ((∃ p, p.Nodup ∧ IsPathTotal my_graph 0 5 p d) ∨
          (d = INF ∧ ¬ Reachable my_graph 0 5))) :=
  ⟨by decide, dijkstra_distance_is_least_path_weight my_graph 0 5 UMap.empty UMap.empty
    (by decide) (by decide) (by decide) (by decide)⟩

/-- C1 as stated fails: in `round_fork` with source `0` and target `3` every
directed path from `0` to `3` has the total weight `10^16 + 2` (`0, 3` is one
of them), but the returned distance of node `3` is `10^16`, which is less:
line 59 rounds `10^16 + 1` to `10^16` at node `2`, and again at node `3`, where
the predecessor becomes node `2`. -/
theorem distance_is_not_least_total_weight :
    round_fork.WF ∧ NonnegWeights round_fork ∧ DoubleWeights round_fork ∧
    ∃ o, dijkstra round_fork 0 3 UMap.empty UMap.empty = .ok o ∧
      o.return_dist 3 = some (Dbl.ofInt 10000000000000000) ∧
      o.return_prev 3 = some 2 ∧
      IsPathTotal round_fork 0 3 [0, 3] (Dbl.ofInt 10000000000000002) ∧
      (∀ p w, IsPathTotal round_fork 0 3 p w → w = Dbl.ofInt 10000000000000002) ∧
      (Dbl.ofInt 10000000000000000).lt (Dbl.ofInt 10000000000000002) = true := by
  refine ⟨by decide, by decide, by decide, _, rfl, by decide, by decide, by decide,
    fun p w h => (round_fork_total p w).2 h, by decide⟩

/-! ## The predecessor map -/

/-- From every node the predecessors lead to a node without predecessor, and
no node is met twice on the way. -/
theorem Core.chain_all {g : Graph Dbl Dbl} (hg : g.WF) {source target : Nat} {st : LoopState}
    (hc : Core g source target st) {v : Nat} (hv : v ∈ g.ids) :
    ∃ path, Chain st.prev v path ∧ (∀ x ∈ path, x ∈ g.ids) ∧ path.Nodup := by
  by_cases hvl : v ∈ st.list
  · by_cases hr : v ∈ st.relaxed
    · obtain ⟨u, c, hu, hul, hp, _⟩ := hc.link v hr
      by_cases hneg : toInt32 u < 0
      · exact ⟨[v], Chain.stop hp hneg, by simpa using hv, List.nodup_singleton _⟩
      · obtain ⟨path, hch, hsub, hnd⟩ := hc.chain u hu hul
        have hu32 : toUInt32 (toInt32 u) = u := toUInt32_toInt32 (hg.2.1 u hu)
        refine ⟨v :: path, Chain.step hp (not_lt.mp hneg) (hu32.symm ▸ hch), ?_, ?_⟩
        · intro y hy
          rcases List.mem_cons.mp hy with hy | hy
          · subst hy; exact hv
          · exact (hsub y hy).1
        · exact List.nodup_cons.mpr ⟨fun hc' => (hsub v hc').2 hvl, hnd⟩
    · exact ⟨[v], Chain.stop (hc.invA.untouched v hv hr).1 (by decide), by simpa using hv,
        List.nodup_singleton _⟩
  · obtain ⟨path, hch, hsub, hnd⟩ := hc.chain v hv hvl
    exact ⟨path, hch, fun y hy => (hsub y hy).1, hnd⟩

/-- The loop of lines 120-126 visits the nodes of the chain and stops, when
its fuel is the length of the chain or more. -/
theorem Chain.construct {prev : UMap Int} {v : Nat} {path : List Nat}
    (h : Chain prev v path) :
    ∀ fuel acc, path.length ≤ fuel + 1 →
      construct_path_loop prev fuel v acc = .ok (acc ++ path) := by
  induction h with
  | @stop v p hp hneg =>
    intro fuel acc _
    have hn : ¬ p ≥ 0 := not_le.mpr hneg
    cases fuel <;>
      simp [construct_path_loop, UMap.at_ok hp, bind, Except.bind, pure, Except.pure, hn]
  | @step v p path hp hpos hch ih =>
    intro fuel acc hlen
    have hne : 1 ≤ path.length := List.length_pos_of_mem hch.head_mem
    cases fuel with
    | zero => rw [List.length_cons] at hlen; omega
    | succ f =>
      have := ih f (acc ++ [v]) (by rw [List.length_cons] at hlen; omega)
      simp only [construct_path_loop, UMap.at_ok hp, bind, Except.bind, ge_iff_le, hpos,
        if_true, this]
      simp

theorem chain_of_path_weight_from (g : Graph Dbl Dbl) (rest : List Nat) :
    ∀ (acc : Dbl) (u : Nat) (w : Dbl), path_weight_from g acc u rest = some w →
      List.Chain (fun a b => (g.weight a b).isSome = true) u rest := by
  induction rest with
  | nil => intro _ _ _ _; exact List.Chain.nil
  | cons y rest ih =>
    intro acc u w h
    simp only [path_weight_from] at h
    cases hc : g.weight u y with
    | none => simp [hc] at h
    | some c =>
      simp only [hc] at h
      exact List.Chain.cons (by simp [hc]) (ih _ _ _ h)

/-- In a directed path every two consecutive nodes are joined by an edge. -/
theorem IsPath.edges {g : Graph Dbl Dbl} {s t : Nat} {p : List Nat} {w : Dbl}
    (h : IsPath g s t p w) : List.Chain' (fun a b => (g.weight a b).isSome = true) p := by
  obtain ⟨_, _, h3⟩ := h
  cases p with
  | nil => exact List.chain'_nil
  | cons a rest =>
    unfold path_weight at h3
    by_cases ha : g.has_node a = true
    · simp only [ha, if_true] at h3
      exact chain_of_path_weight_from g rest _ _ _ h3
    · simp [ha] at h3

/-- Read backwards, the chain of predecessors of a node at a distance other
than `INF` is a directed path from `source` whose weight is that distance,
when the node ids are below `2^31`. -/
theorem Core.chain_is_path {g : Graph Dbl Dbl} {source target : Nat} {st : LoopState}
    (hc : Core g source target st) (h31 : ∀ k ∈ g.ids, k < 2 ^ 31) {v : Nat}
    {path : List Nat} (h : Chain st.prev v path) :
    v ∈ g.ids → st.dv v ≠ Dbl.pinf → IsPath g source v path.reverse (st.dv v) := by
  induction h with
  | @stop v p hp hneg =>
    intro hv hne
    have hr : v ∉ st.relaxed := by
      intro hr
      obtain ⟨u, c, hu, _, hp', _⟩ := hc.link v hr
      rw [hp] at hp'
      injection hp' with hp'
      rw [hp', toInt32_of_lt (h31 u hu)] at hneg
      omega
    have hd := (hc.invA.untouched v hv hr).2
    by_cases hvs : v = source
    · subst hvs
      rw [hc.src]
      exact IsPath.single ((g.has_node_iff v).mpr hv)
    · rw [if_neg hvs] at hd
      exact absurd hd hne
  | @step v p path hp hpos hch ih =>
    intro hv hne
    have hr : v ∈ st.relaxed := by
      by_contra hr
      have := (hc.invA.untouched v hv hr).1
      rw [hp] at this
      injection this with this
      omega
    obtain ⟨u, c, hu, _, hp', hwt, hd, hune⟩ := hc.link v hr
    rw [hp] at hp'
    injection hp' with hp'
    have hu32 : toUInt32 p = u := by
      rw [hp', toInt32_of_lt (h31 u hu)]
      unfold toUInt32
      have := h31 u hu
      omega
    rw [hu32] at ih
    rw [List.reverse_cons, hd]
    exact (ih hu hune).snoc hwt

/-! ## Claims about the predecessors -/

/-- C5, as the code has it: on a well-formed graph with non-negative edge
weights that has `source` and `target`, every node `n` other than `source`
whose returned distance is not `+infinity` has the id `u` of a node in the
predecessor map (converted to `int`), there is an edge `u -> n`, and
`distance[n]` is `distance[u] + weight(u, n)` as line 59 computes it, in double
arithmetic, which is the exact sum whenever the exact sum is a double.  The
nodes with such a distance include `target`, when a path from `source` leads
to it whose weights add up to a finite double, and every node to which a path
leads whose weights add up to less than `distance[target]`. -/
theorem predecessor_distance_consistent (g : Graph Dbl Dbl) (source target : Nat)
    (rd : UMap Dbl) (rp : UMap Int) (hg : g.WF) (hw : NonnegWeights g)
    (hs : g.has_node source = true) (ht : g.has_node target = true) :
    ∃ o dt, dijkstra g source target rd rp = .ok o ∧ o.not_in_graph = false ∧
      o.return_dist target = some dt ∧
      (∀ n d, n ≠ source → o.return_dist n = some d → d ≠ INF →
        ∃ u du c, g.has_node u = true ∧ o.return_prev n = some (toInt32 u) ∧
          o.return_dist u = some du ∧ g.weight u n = some c ∧ d = du.add c ∧
          ((du.sum c).is_double = true → d = du.sum c)) ∧
      (∀ n p w, IsPath g source n p w → (n = target ∧ w ≠ INF) ∨ w.lt dt = true →
        ∃ d, o.return_dist n = some d ∧ d ≠ INF) := by
  obtain ⟨st, h1, h2, h3⟩ := dijkstra_invN hg hw hs ht rd rp
  have hc := h2.core
  have ht' := (g.has_node_iff target).mp ht
  refine ⟨_, st.dv target, h1, rfl, hc.invA.dom.dist_eq ht', ?_, ?_⟩
  · intro n d hns hd hne
    have hn : n ∈ g.ids := by
      by_contra hn
      have := hc.invA.dom.dist_out n hn
      rw [show st.dist n = some d from hd] at this
      exact Option.noConfusion this
    have e : d = st.dv n := by
      have := hc.invA.dom.dist_eq hn
      rw [show st.dist n = some d from hd] at this
      injection this
    subst e
    have hr : n ∈ st.relaxed := by
      by_contra hr
      have := (hc.invA.untouched n hn hr).2
      rw [if_neg hns] at this
      exact hne this
    obtain ⟨u, c, hu, _, hp, hwt, hdv, _⟩ := hc.link n hr
    exact ⟨u, st.dv u, c, (g.has_node_iff u).mpr hu, hp, hc.invA.dom.dist_eq hu, hwt, hdv,
      fun hx => by rw [hdv]; exact Dbl.add_eq_sum hx⟩
  · intro n p w hp hcase
    have hwalk := hp.walk
    have hn : n ∈ g.ids := hwalk.mem_ids hg
    have hlb := h2.lower_bound hg hw hwalk
    refine ⟨st.dv n, hc.invA.dom.dist_eq hn, ?_⟩
    rcases hcase with ⟨hnt, hwne⟩ | hlt
    · subst hnt
      obtain ⟨y, hy, hyw⟩ := hlb.2 hc.target_in
      have h4 := Dbl.le_trans (h3 y hy) hyw
      intro hinf
      rw [hinf] at h4
      exact hwne (Dbl.pinf_le h4)
    · have hnl : n ∉ st.list := by
        intro hin
        obtain ⟨y, hy, hyw⟩ := hlb.2 hin
        have h4 := Dbl.not_lt_of_le (Dbl.le_trans (h3 y hy) hyw)
        rw [h4] at hlt
        exact Bool.noConfusion hlt
      intro hinf
      have h4 := hlb.1 hnl
      rw [hinf] at h4
      exact Dbl.ne_pinf_of_lt hlt (Dbl.pinf_le h4)

/-- The run of `main` on `my_graph`: node `5` is the target, and `0, 2, 4, 3,
5` leads to it. -/
theorem predecessor_distance_consistent_witness :
    ∃ o dt, dijkstra my_graph 0 5 UMap.empty UMap.empty = .ok o ∧ o.not_in_graph = false ∧
      o.return_dist 5 = some dt ∧
      (∀ n d, n ≠ 0 → o.return_dist n = some d → d ≠ INF →
        ∃ u du c, my_graph.has_node u = true ∧ o.return_prev n = some (toInt32 u) ∧
          o.return_dist u = some du ∧ my_graph.weight u n = some c ∧ d = du.add c ∧
          ((du.sum c).is_double = true → d = du.sum c)) ∧
      (∀ n p w, IsPath my_graph 0 n p w → (n = 5 ∧ w ≠ INF) ∨ w.lt dt = true →
        ∃ d, o.return_dist n = some d ∧ d ≠ INF) :=
  predecessor_distance_consistent my_graph 0 5 UMap.empty UMap.empty (by decide) (by decide)
    (by decide) (by decide)

/-- C5 as stated fails: in `my_graph` with source `0` and target `2`, the
nodes `0` and `4` are reachable from the source and their predecessor is
none, which is no key of the distance map; node `4` has distance
`+infinity` because the loop is left at the target before any relaxation
reaches it. -/
theorem reachable_node_without_predecessor :
    Reachable my_graph 0 0 ∧ Reachable my_graph 0 4 ∧
    ∃ o, dijkstra my_graph 0 2 UMap.empty UMap.empty = .ok o ∧
      o.return_prev 0 = some (-1) ∧ o.return_prev 4 = some (-1) ∧
      o.return_dist (toUInt32 (-1)) = none ∧ o.return_dist 4 = some INF := by
  refine ⟨⟨[0], Dbl.fin 0, by decide⟩, ⟨[0, 2, 4], Dbl.ofInt 5, by decide⟩, _, rfl, ?_⟩
  decide

/-- C3, as the code has it: on a well-formed graph with non-negative edge
weights and node ids below `2^31` that has `source` and `target`, with a
directed path from `source` to `target` whose weights, added up in double
arithmetic from `source` on, give a finite double, the path that `main`
prints (for every fuel from the number of nodes on) starts with `source`,
ends with `target`, has every two consecutive nodes joined by an edge, and the
weights of these edges, added up in double arithmetic from `source` on, give
the returned `distance[target]`, which is finite.  When no sum along a path
can round (`ExactWeights`), `distance[target]` is the total weight of the
printed path. -/
theorem reconstructed_path_is_shortest (g : Graph Dbl Dbl) (source target : Nat)
    (rd : UMap Dbl) (rp : UMap Int) (hg : g.WF) (hw : NonnegWeights g)
    (h31 : ∀ k ∈ g.ids, k < 2 ^ 31)
    (hs : g.has_node source = true) (ht : g.has_node target = true)
    (hr : ∃ p w, IsPath g source target p w ∧ w ≠ INF) :
    ∃ o d path, dijkstra g source target rd rp = .ok o ∧ o.not_in_graph = false ∧
      o.return_dist target = some d ∧ d.finite = true ∧
      (∀ fuel, g.ids.length ≤ fuel → printed_path o.return_prev fuel target = .ok path) ∧
      path.head? = some source ∧ path.getLast? = some target ∧
      List.Chain' (fun u v => (g.weight u v).isSome = true) path ∧
      path_weight g path = some d ∧
      (∀ j K, ExactWeights g j K → total_weight g path = some d) := by
  obtain ⟨st, h1, h2, h3⟩ := dijkstra_invN hg hw hs ht rd rp
  have hc := h2.core
  have ht' := (g.has_node_iff target).mp ht
  obtain ⟨p, w, hpw, hwne⟩ := hr
  have hne : st.dv target ≠ Dbl.pinf := by
    intro hinf
    obtain ⟨y, hy, hyw⟩ := (h2.lower_bound hg hw hpw.walk).2 hc.target_in
    have h4 := Dbl.le_trans (h3 y hy) hyw
    rw [hinf] at h4
    exact hwne (Dbl.pinf_le h4)
  obtain ⟨c, hch, hsub, hnd⟩ := hc.chain_all hg ht'
  have hp := hc.chain_is_path h31 hch ht' hne
  have hlen : c.length ≤ g.ids.length := (List.subperm_of_subset hnd hsub).length_le
  refine ⟨_, st.dv target, c.reverse, h1, rfl, hc.invA.dom.dist_eq ht',
    Dbl.finite_of_nonneg_ne_pinf (hc.nonneg _ ht') hne, ?_, hp.1, hp.2.1, hp.edges, hp.2.2,
    fun j K hx => (hp.total hg hx (List.nodup_reverse.mpr hnd)).1.2.2⟩
  intro fuel hfuel
  have := hch.construct fuel [] (by omega)
  show (construct_path st.prev fuel target).map List.reverse = _
  unfold construct_path
  rw [this]
  rfl

/-- The run of `main` on `my_graph`, where `0, 2, 4, 3, 5` leads from `0` to
`5` and its weights add up to `20`; no sum rounds there. -/
theorem reconstructed_path_is_shortest_witness :
    ExactWeights my_graph 1074 11 ∧
    ∃ o d path, dijkstra my_graph 0 5 UMap.empty UMap.empty = .ok o ∧
      o.not_in_graph = false ∧ o.return_dist 5 = some d ∧ d.finite = true ∧
      (∀ fuel, my_graph.ids.length ≤ fuel → printed_path o.return_prev fuel 5 = .ok path) ∧
      path.head? = some 0 ∧ path.getLast? = some 5 ∧
      List.Chain' (fun u v => (my_graph.weight u v).isSome = true) path ∧
      path_weight my_graph path = some d ∧
      (∀ j K, ExactWeights my_graph j K → total_weight my_graph path = some d) :=
  ⟨by decide, reconstructed_path_is_shortest my_graph 0 5 UMap.empty UMap.empty (by decide)
    (by decide) (by decide) (by decide) (by decide)
    ⟨[0, 2, 4, 3, 5], Dbl.ofInt 20, by decide, by decide⟩⟩

/-- C3 as stated fails: in the graph of the edges `0 -> 1` and `1 -> 2`, both
of the finite weight `2^1023`, node `2` is reachable from node `0`, but the sum
`2^1023 + 2^1023` overflows to `+infinity`, which line 60 does not find
smaller than the distance `+infinity` of node `2`: the returned distance of
node `2` is `+infinity`, and the path that `main` prints for source `0` and
target `2` is `2` alone, which does not start with the source. -/
theorem overflowing_path_is_not_printed :
    overflow_chain.WF ∧ NonnegWeights overflow_chain ∧ FiniteWeights overflow_chain ∧
    DoubleWeights overflow_chain ∧
    (∀ k ∈ overflow_chain.ids, k < 2 ^ 31) ∧
    overflow_chain.has_node 0 = true ∧ overflow_chain.has_node 2 = true ∧
    Reachable overflow_chain 0 2 ∧
    ∃ o, dijkstra overflow_chain 0 2 UMap.empty UMap.empty = .ok o ∧
      o.return_dist 1 = some two_pow_1023 ∧ o.return_dist 2 = some INF ∧
      (∀ fuel, printed_path o.return_prev fuel 2 = .ok [2]) ∧
      ∀ fuel path, printed_path o.return_prev fuel 2 = .ok path → path.head? ≠ some 0 := by
  have key : ∀ (prev : UMap Int), prev 2 = some (-1) →
      ∀ fuel, printed_path prev fuel 2 = .ok [2] := by
    intro prev hp fuel
    unfold printed_path
    rw [construct_path_of_none hp fuel]
    rfl
  refine ⟨by decide, by decide, by decide, by decide, by decide, by decide, by decide,
    ⟨[0, 1, 2], Dbl.pinf, by decide⟩, _, rfl, by decide, by decide, key _ (by decide), ?_⟩
  intro fuel path hp
  rw [key _ (by decide) fuel] at hp
  injection hp with hp
  rw [← hp]
  decide

/-- An edge of weight `+infinity` hides a path as well: in the graph of the
single edge `0 -> 1` of weight `+infinity`, which is non-negative, node `1` is
reachable from node `0`, and the path that `main` prints for source `0` and
target `1` is `1` alone. -/
theorem reconstructed_path_misses_source :
    inf_edge.WF ∧ NonnegWeights inf_edge ∧ (∀ k ∈ inf_edge.ids, k < 2 ^ 31) ∧
    inf_edge.has_node 0 = true ∧ inf_edge.has_node 1 = true ∧ Reachable inf_edge 0 1 ∧
    ∃ o, dijkstra inf_edge 0 1 UMap.empty UMap.empty = .ok o ∧
      o.return_dist 1 = some INF ∧
      (∀ fuel, printed_path o.return_prev fuel 1 = .ok [1]) ∧
      ∀ fuel path, printed_path o.return_prev fuel 1 = .ok path → path.head? ≠ some 0 := by
  have key : ∀ (prev : UMap Int), prev 1 = some (-1) →
      ∀ fuel, printed_path prev fuel 1 = .ok [1] := by
    intro prev hp fuel
    unfold printed_path
    rw [construct_path_of_none hp fuel]
    rfl
  refine ⟨by decide, by decide, by decide, by decide, by decide,
    ⟨[0, 1], Dbl.pinf, by decide⟩, _, rfl, by decide, key _ (by decide), ?_⟩
  intro fuel path hp
  rw [key _ (by decide) fuel] at hp
  injection hp with hp
  rw [← hp]
  decide

/-! ## The scenario of `main` -/

theorem relax_nodes {g1 g2 : Graph Dbl Dbl} (h : g1.nodes = g2.nodes) (node : Nat)
    (st : LoopState) : relax g1 node st = relax g2 node st := by
  unfold relax Graph.node_at
  rw [h]

theorem loop_nodes {g1 g2 : Graph Dbl Dbl} (h : g1.nodes = g2.nodes) (target : Nat) :
    ∀ fuel st, loop g1 target fuel st = loop g2 target fuel st := by
  intro fuel
  induction fuel with
  | zero => intro st; rfl
  | succ fuel ih =>
    intro st
    simp only [loop, relax_nodes h, ih]

/-- What `dijkstra` returns depends on the graph through its node map only,
and not on the output parameters when `source` and `target` are nodes. -/
theorem dijkstra_nodes {g1 g2 : Graph Dbl Dbl} (h : g1.nodes = g2.nodes) (source target : Nat)
    (rd rd' : UMap Dbl) (rp rp' : UMap Int) (hs : g1.has_node source = true)
    (ht : g1.has_node target = true) :
    dijkstra g1 source target rd rp = dijkstra g2 source target rd' rp' := by
  have hs2 : g2.has_node source = true := by unfold Graph.has_node at hs ⊢; rw [← h]; exact hs
  have ht2 : g2.has_node target = true := by unfold Graph.has_node at ht ⊢; rw [← h]; exact ht
  rw [dijkstra_present g1 source target rd rp hs ht,
    dijkstra_present g2 source target rd' rp' hs2 ht2, loop_nodes h]
  have e1 : start_state g1 source = start_state g2 source := by
    unfold start_state init; rw [h]
  have e2 : g1.ids = g2.ids := by unfold Graph.ids; rw [h]
  rw [e1, e2]

set_option maxRecDepth 1000000 in
set_option maxHeartbeats 4000000 in
/-- The check succeeds for each of the 720 orders in which the node map of
`my_graph` can be iterated. -/
theorem main_check_all_orders : my_nodes.permutations'.all main_check = true := by
  decide

/-- C2: on the graph of `main` (nodes `0..5`, edges `0->1` of weight 4,
`0->2` of 2, `1->2` of 5, `1->3` of 10, `2->4` of 3, `4->3` of 4, `3->5` of
11), in whatever order the node map is iterated, `dijkstra` with source `0`
and target `5` returns `distance[5] = 20`, and the path that `main` prints
from the predecessor map is `0, 2, 4, 3, 5`. -/
theorem main_scenario (g : Graph Dbl Dbl) (rd : UMap Dbl) (rp : UMap Int)
    (h : g.nodes.Perm my_nodes) :
    ∃ o, dijkstra g 0 5 rd rp = .ok o ∧ o.not_in_graph = false ∧
      o.return_dist 5 = some (Dbl.ofInt 20) ∧
      ∀ fuel, 4 ≤ fuel → printed_path o.return_prev fuel 5 = .ok [0, 2, 4, 3, 5] := by
  have hc := List.all_eq_true.mp main_check_all_orders g.nodes (List.mem_permutations'.mpr h)
  have hids : g.ids.Perm my_graph.ids := h.map Prod.fst
  have h0 : g.has_node 0 = true := (g.has_node_iff 0).mpr (hids.mem_iff.mpr (by decide))
  have h5 : g.has_node 5 = true := (g.has_node_iff 5).mpr (hids.mem_iff.mpr (by decide))
  have he : dijkstra g 0 5 rd rp = dijkstra ⟨g.nodes, []⟩ 0 5 UMap.empty UMap.empty :=
    @dijkstra_nodes g ⟨g.nodes, []⟩ rfl 0 5 rd UMap.empty rp UMap.empty h0 h5
  unfold main_check at hc
  cases hd : dijkstra ⟨g.nodes, []⟩ 0 5 UMap.empty UMap.empty with
  | error e => rw [hd] at hc; exact Bool.noConfusion hc
  | ok o =>
    rw [hd] at hc
    simp only [Bool.and_eq_true, Bool.not_eq_true', beq_iff_eq] at hc
    obtain ⟨⟨⟨⟨⟨⟨hn, hd5⟩, p5⟩, p3⟩, p4⟩, p2⟩, p0⟩ := hc
    refine ⟨o, he.trans hd, hn, hd5, ?_⟩
    intro fuel hfuel
    have hch : Chain o.return_prev 5 [5, 3, 4, 2, 0] :=
      Chain.step p5 (by decide) (Chain.step p3 (by decide) (Chain.step p4 (by decide)
        (Chain.step p2 (by decide) (Chain.stop p0 (by decide)))))
    have := hch.construct fuel [] (by simp; omega)
    unfold printed_path construct_path
    rw [this]
    rfl

/-- The node map of `my_graph` iterated in ascending order of id. -/
theorem main_scenario_witness :
    my_graph.nodes.Perm my_nodes ∧
    ∃ o, dijkstra my_graph 0 5 UMap.empty UMap.empty = .ok o ∧ o.not_in_graph = false ∧
      o.return_dist 5 = some (Dbl.ofInt 20) ∧
      ∀ fuel, 4 ≤ fuel → printed_path o.return_prev fuel 5 = .ok [0, 2, 4, 3, 5] :=
  ⟨List.Perm.refl _, main_scenario my_graph UMap.empty UMap.empty (List.Perm.refl _)⟩

/-! ## The fuel of the main loop is enough on every graph -/

theorem bind_ne_fuel {α β : Type} {x : Except Err α} {f : α → Except Err β}
    (hx : x ≠ .error Err.out_of_fuel)
    (hf : ∀ a, x = .ok a → f a ≠ .error Err.out_of_fuel) :
    (x >>= f) ≠ .error Err.out_of_fuel := by
  cases x with
  | error e =>
    intro hc
    simp only [bind, Except.bind] at hc
    injection hc with hc
    exact hx (by rw [hc])
  | ok a => simpa [bind, Except.bind] using hf a rfl

theorem pure_ne_fuel {α : Type} (a : α) :
    (pure a : Except Err α) ≠ .error Err.out_of_fuel := by
  simp [pure, Except.pure]

theorem UMap.at_ne_fuel {V : Type} (m : UMap V) (k : Nat) :
    m.at_ k ≠ .error Err.out_of_fuel := by
  unfold UMap.at_
  cases m k <;> simp

theorem UMap.assign_ne_fuel {V : Type} (m : UMap V) (k : Nat) (v : V) :
    m.assign k v ≠ .error Err.out_of_fuel := by
  unfold UMap.assign
  cases m k <;> simp

theorem Graph.node_at_ne_fuel {N E : Type} (g : Graph N E) (k : Nat) :
    g.node_at k ≠ .error Err.out_of_fuel := by
  unfold Graph.node_at
  cases g.nodes.lookup k <;> simp

theorem foldlM_ne_fuel {α β : Type} (f : β → α → Except Err β)
    (hf : ∀ a b, f b a ≠ .error Err.out_of_fuel) (l : List α) :
    ∀ b, l.foldlM f b ≠ .error Err.out_of_fuel := by
  induction l with
  | nil => intro b h; simp [List.foldlM, pure, Except.pure] at h
  | cons a l ih =>
    intro b
    rw [List.foldlM_cons]
    exact bind_ne_fuel (hf a b) (fun b1 _ => ih b1)

theorem select_step_cases {dist : UMap Dbl} {node id node' : Nat}
    (h : select_step dist node id = .ok node') : node' = id ∨ node' = node := by
  unfold select_step at h
  cases ha : dist.at_ id with
  | error e => simp [ha, bind, Except.bind] at h
  | ok a =>
    cases hb : dist.at_ node with
    | error e => simp [ha, hb, bind, Except.bind] at h
    | ok b =>
      simp only [ha, hb, bind, Except.bind, pure, Except.pure] at h
      injection h with h
      rw [← h]
      split
      · exact Or.inl rfl
      · exact Or.inr rfl

theorem select_step_ne_fuel (dist : UMap Dbl) (node id : Nat) :
    select_step dist node id ≠ .error Err.out_of_fuel := by
  unfold select_step
  exact bind_ne_fuel (UMap.at_ne_fuel _ _) (fun _ _ =>
    bind_ne_fuel (UMap.at_ne_fuel _ _) (fun _ _ => pure_ne_fuel _))

/-- The node that the scan returns is a node of `list`, on every graph. -/
theorem select_mem {dist : UMap Dbl} {list : List Nat} {node : Nat}
    (h : select dist list = .ok node) : node ∈ list := by
  unfold select at h
  cases list with
  | nil => simp at h
  | cons first rest =>
    simp only at h
    have := foldlM_inv (select_step dist) (fun done b => b = first ∨ b ∈ done)
      (first :: rest)
      (fun done a b b' _ hb hs => by
        rcases select_step_cases hs with h1 | h1
        · exact Or.inr (by simp [h1])
        · rcases hb with h2 | h2
          · exact Or.inl (h1.trans h2)
          · exact Or.inr (by simp [h1, h2]))
      [] first node (Or.inl rfl) h
    rcases this with h1 | h1
    · exact h1 ▸ List.mem_cons_self _ _
    · simpa using h1

theorem select_ne_fuel (dist : UMap Dbl) (list : List Nat) :
    select dist list ≠ .error Err.out_of_fuel := by
  unfold select
  cases list with
  | nil => simp
  | cons first rest => exact foldlM_ne_fuel _ (fun a b => select_step_ne_fuel dist b a) _ _

theorem relax_edge_list {node : Nat} {st st' : LoopState} {e : Edge Dbl}
    (h : relax_edge node st e = .ok st') : st'.list = st.list := by
  unfold relax_edge at h
  cases h1 : st.dist.at_ node with
  | error _ => simp [h1, bind, Except.bind] at h
  | ok d =>
    cases h2 : st.dist.at_ e.to_ with
    | error _ => simp [h1, h2, bind, Except.bind] at h
    | ok old =>
      simp only [h1, h2, bind, Except.bind] at h
      split at h
      · cases h3 : st.dist.assign e.to_ (d.add e.data) with
        | error _ => simp [h3] at h
        | ok dist =>
          cases h4 : st.prev.assign e.to_ (toInt32 node) with
          | error _ => simp [h3, h4] at h
          | ok prev =>
            simp only [h3, h4, pure, Except.pure] at h
            injection h with h
            rw [← h]
      · simp only [pure, Except.pure] at h
        injection h with h
        rw [← h]

theorem relax_edge_ne_fuel (node : Nat) (st : LoopState) (e : Edge Dbl) :
    relax_edge node st e ≠ .error Err.out_of_fuel := by
  unfold relax_edge
  refine bind_ne_fuel (UMap.at_ne_fuel _ _) (fun _ _ =>
    bind_ne_fuel (UMap.at_ne_fuel _ _) (fun _ _ => ?_))
  split
  · exact bind_ne_fuel (UMap.assign_ne_fuel _ _ _) (fun _ _ =>
      bind_ne_fuel (UMap.assign_ne_fuel _ _ _) (fun _ _ => pure_ne_fuel _))
  · exact pure_ne_fuel _

theorem relax_list {g : Graph Dbl Dbl} {node : Nat} {st st' : LoopState}
    (h : relax g node st = .ok st') : st'.list = st.list := by
  unfold relax at h
  cases hn : g.node_at node with
  | error _ => simp [hn, bind, Except.bind] at h
  | ok n =>
    simp only [hn, bind, Except.bind] at h
    have := foldlM_inv (relax_edge node) (fun _ s => s.list = st.list) n.edges_out
      (fun _ _ _ _ _ hb hs => (relax_edge_list hs).trans hb) [] st st' rfl h
    exact this

theorem relax_ne_fuel (g : Graph Dbl Dbl) (node : Nat) (st : LoopState) :
    relax g node st ≠ .error Err.out_of_fuel := by
  unfold relax
  exact bind_ne_fuel (g.node_at_ne_fuel _) (fun _ _ =>
    foldlM_ne_fuel _ (fun a b => relax_edge_ne_fuel node b a) _ _)

/-- The main loop never runs out of fuel when its fuel is the length of
`list` or more, on every graph. -/
theorem loop_ne_fuel (g : Graph Dbl Dbl) (target : Nat) :
    ∀ fuel st, st.list.length ≤ fuel → loop g target fuel st ≠ .error Err.out_of_fuel := by
  intro fuel
  induction fuel with
  | zero =>
    intro st hlen
    have : st.list = [] := List.length_eq_zero.mp (Nat.le_zero.mp hlen)
    simp [loop, this]
  | succ fuel ih =>
    intro st hlen
    unfold loop
    split
    · simp
    · refine bind_ne_fuel (select_ne_fuel _ _) (fun node hsel => ?_)
      split
      · exact pure_ne_fuel _
      · refine bind_ne_fuel (UMap.at_ne_fuel _ _) (fun d _ => ?_)
        split
        · exact pure_ne_fuel _
        · refine bind_ne_fuel (relax_ne_fuel _ _ _) (fun st2 hr => ih st2 ?_)
          have hmem := select_mem hsel
          rw [relax_list hr]
          have : (st.list.filter (fun id => id != node)).length < st.list.length := by
            apply List.length_filter_lt_length_iff_exists.mpr
            exact ⟨node, hmem, by simp⟩
          simp only
          omega

/-- On every graph, and for all arguments, `dijkstra` does not run out of
fuel: the bound on the rounds of its main loop never takes effect. -/
theorem dijkstra_ne_fuel (g : Graph Dbl Dbl) (source target : Nat) (rd : UMap Dbl)
    (rp : UMap Int) : dijkstra g source target rd rp ≠ .error Err.out_of_fuel := by
  unfold dijkstra
  split
  · simp
  · exact bind_ne_fuel (UMap.assign_ne_fuel _ _ _) (fun _ _ =>
      bind_ne_fuel (loop_ne_fuel g target _ _ (Nat.le_refl _)) (fun _ _ => pure_ne_fuel _))

/-! ## The scan picks the first node of smallest distance -/

namespace Dbl

theorem le_of_not_lt_of_ne_nan {a b : Dbl} (ha : a ≠ nan) (hb : b ≠ nan)
    (h : a.lt b = false) : b.le a = true := by
  cases a <;> cases b <;> simp [lt, le, ge] at * <;> omega

theorem lt_of_lt_of_le {a b c : Dbl} (h1 : a.lt b = true) (h2 : b.le c = true) :
    a.lt c = true := by
  cases a <;> cases b <;> cases c <;> simp [lt, le, ge] at * <;> omega

theorem le_refl_of_ne_nan {a : Dbl} (ha : a ≠ nan) : a.le a = true := by
  cases a <;> simp [le, ge] at *

theorem ne_nan_of_lt {a b : Dbl} (h : a.lt b = true) : a ≠ nan := by
  cases a <;> simp [lt] at *

end Dbl

theorem select_fold_first (dist : UMap Dbl) (l : List Nat) :
    ∀ node0, (∃ b, dist node0 = some b ∧ b ≠ Dbl.nan) →
    (∀ k ∈ l, ∃ a, dist k = some a ∧ a ≠ Dbl.nan) →
    ∃ node, l.foldlM (select_step dist) node0 = .ok node ∧
      ((node = node0 ∧
          ∀ x ∈ l, ((dist node0).getD Dbl.nan).le ((dist x).getD Dbl.nan) = true) ∨
        ∃ pre post, l = pre ++ node :: post ∧
          ((dist node).getD Dbl.nan).lt ((dist node0).getD Dbl.nan) = true ∧
          (∀ x ∈ pre, ((dist node).getD Dbl.nan).lt ((dist x).getD Dbl.nan) = true) ∧
          ∀ x ∈ post, ((dist node).getD Dbl.nan).le ((dist x).getD Dbl.nan) = true) := by
  induction l with
  | nil => intro node0 _ _; exact ⟨node0, rfl, Or.inl ⟨rfl, by simp⟩⟩
  | cons id l ih =>
    intro node0 h0 hl
    obtain ⟨b, hb, hbn⟩ := h0
    obtain ⟨a, ha, han⟩ := hl id (List.mem_cons_self _ _)
    have hl' : ∀ k ∈ l, ∃ a, dist k = some a ∧ a ≠ Dbl.nan :=
      fun k hk => hl k (List.mem_cons_of_mem _ hk)
    rw [List.foldlM_cons, select_step_ok ha hb]
    simp only [bind, Except.bind]
    by_cases hlt : a.lt b = true
    · simp only [hlt, if_true]
      obtain ⟨node, h1, h2⟩ := ih id ⟨a, ha, han⟩ hl'
      refine ⟨node, h1, Or.inr ?_⟩
      rcases h2 with ⟨hn, hall⟩ | ⟨pre, post, hsplit, hlt', hpre, hpost⟩
      · subst hn
        exact ⟨[], l, rfl, by simpa [ha, hb] using hlt, by simp, hall⟩
      · rw [ha] at hlt'
        simp only [Option.getD_some] at hlt'
        refine ⟨id :: pre, post, by rw [hsplit]; rfl, ?_, ?_, hpost⟩
        · simp only [hb, Option.getD_some]
          exact Dbl.lt_trans hlt' hlt
        · intro x hx
          rcases List.mem_cons.mp hx with h | h
          · subst h; simpa [ha] using hlt'
          · exact hpre x h
    · have hlt' : a.lt b = false := by simpa using hlt
      simp only [hlt', Bool.false_eq_true, if_false]
      have hle : b.le a = true := Dbl.le_of_not_lt_of_ne_nan han hbn hlt'
      obtain ⟨node, h1, h2⟩ := ih node0 ⟨b, hb, hbn⟩ hl'
      refine ⟨node, h1, ?_⟩
      rcases h2 with ⟨hn, hall⟩ | ⟨pre, post, hsplit, hlt2, hpre, hpost⟩
      · left
        refine ⟨hn, ?_⟩
        intro x hx
        rcases List.mem_cons.mp hx with h | h
        · subst h; simpa [ha, hb] using hle
        · exact hall x h
      · right
        refine ⟨id :: pre, post, by rw [hsplit]; rfl, hlt2, ?_, hpost⟩
        intro x hx
        rcases List.mem_cons.mp hx with h | h
        · subst h
          exact Dbl.lt_of_lt_of_le hlt2 (by simpa [ha, hb] using hle)
        · exact hpre x h

/-- With no NaN among the distances of `list`, the scan returns the first node
of `list` whose distance is the smallest. -/
theorem select_first (st : LoopState)
    (h : ∀ k ∈ st.list, ∃ a, st.dist k = some a ∧ a ≠ Dbl.nan) (hne : st.list ≠ []) :
    ∃ node pre post, select st.dist st.list = .ok node ∧ st.list = pre ++ node :: post ∧
      (∀ x ∈ pre, (st.dv node).lt (st.dv x) = true) ∧
      (∀ x ∈ post, (st.dv node).le (st.dv x) = true) := by
  unfold select
  cases hl : st.list with
  | nil => exact absurd hl hne
  | cons first rest =>
    rw [hl] at h
    obtain ⟨node, h1, h2⟩ := select_fold_first st.dist (first :: rest) first
      (h first (List.mem_cons_self _ _)) h
    rcases h2 with ⟨hn, hall⟩ | ⟨pre, post, hsplit, _, hpre, hpost⟩
    · subst hn
      exact ⟨node, [], rest, h1, rfl, by simp,
        fun x hx => hall x (List.mem_cons_of_mem _ hx)⟩
    · exact ⟨node, pre, post, h1, hsplit, hpre, hpost⟩

theorem UMap.assign_eq_ok {V : Type} {m m' : UMap V} {k : Nat} {v : V}
    (h : m.assign k v = .ok m') : m' = m.set k v := by
  unfold UMap.assign at h
  cases hk : m k with
  | none => simp [hk] at h
  | some old =>
    simp only [hk] at h
    injection h with h
    exact h.symm

theorem relax_edge_scannable {node : Nat} {st st' : LoopState} {e : Edge Dbl}
    (h : relax_edge node st e = .ok st') (hs : Scannable st) : Scannable st' := by
  unfold relax_edge at h
  cases h1 : st.dist.at_ node with
  | error _ => simp [h1, bind, Except.bind] at h
  | ok d =>
    cases h2 : st.dist.at_ e.to_ with
    | error _ => simp [h1, h2, bind, Except.bind] at h
    | ok old =>
      simp only [h1, h2, bind, Except.bind] at h
      split at h
      · rename_i hlt
        cases h3 : st.dist.assign e.to_ (d.add e.data) with
        | error _ => simp [h3] at h
        | ok dist =>
          cases h4 : st.prev.assign e.to_ (toInt32 node) with
          | error _ => simp [h3, h4] at h
          | ok prev =>
            simp only [h3, h4, pure, Except.pure] at h
            injection h with h
            rw [← h]
            intro k hk
            rw [UMap.assign_eq_ok h3]
            by_cases hke : k = e.to_
            · subst hke
              exact ⟨_, UMap.set_same _ _ _, Dbl.ne_nan_of_lt hlt⟩
            · obtain ⟨a, ha, han⟩ := hs k hk
              exact ⟨a, by simp only [UMap.set_other _ _ hke]; exact ha, han⟩
      · simp only [pure, Except.pure] at h
        injection h with h
        rw [← h]
        exact hs

theorem relax_scannable {g : Graph Dbl Dbl} {node : Nat} {st st' : LoopState}
    (h : relax g node st = .ok st') (hs : Scannable st) : Scannable st' := by
  unfold relax at h
  cases hn : g.node_at node with
  | error _ => simp [hn, bind, Except.bind] at h
  | ok n =>
    simp only [hn, bind, Except.bind] at h
    exact foldlM_inv (relax_edge node) (fun _ s => Scannable s) n.edges_out
      (fun _ _ _ _ _ hb hr => relax_edge_scannable hr hb) [] st st' hs h

theorem start_state_scannable (g : Graph Dbl Dbl) (source : Nat) :
    Scannable (start_state g source) := by
  intro k hk
  have hk' : k ∈ g.ids := by simpa [start_state, init_list] using hk
  by_cases hks : k = source
  · subst hks
    exact ⟨Dbl.fin 0, by simp [start_state, UMap.set], by simp⟩
  · exact ⟨INF, by simp [start_state, UMap.set, hks, init_dist, hk'], by simp [INF]⟩

/-- At the start of every round every node of `list` has a distance, and this
distance is not NaN, on every graph. -/
theorem LoopHead.scannable {g : Graph Dbl Dbl} {source target : Nat} {st : LoopState}
    (h : LoopHead g source target st) : Scannable st := by
  induction h with
  | start => exact start_state_scannable g source
  | @round st st2 node d _ _ _ _ _ _ hr ih =>
    refine relax_scannable hr ?_
    intro k hk
    exact ih k (List.mem_of_mem_filter hk)

/-- A round of `LoopHead` is a round of the main loop. -/
theorem loop_round (g : Graph Dbl Dbl) (target fuel : Nat) {st st2 : LoopState} {node : Nat}
    {d : Dbl} (hl : st.list.isEmpty = false) (hsel : select st.dist st.list = .ok node)
    (ht : node ≠ target) (hat : (erased_state node st).dist.at_ node = .ok d)
    (hge : d.ge INF = false) (hr : relax g node (erased_state node st) = .ok st2) :
    loop g target (fuel + 1) st = loop g target fuel st2 := by
  unfold erased_state at hat hr
  simp [loop, hl, hsel, bind, Except.bind, ht, hat, hge, hr]

/-- C13: in every round of the main loop of `dijkstra`, on every graph, the
scan of lines 39-42 returns a node of `list` whose distance is at most the
distance of every node of `list`, and strictly below the distance of every
node that stands before it in `list`: the first node of smallest distance. -/
theorem select_picks_first_minimum (g : Graph Dbl Dbl) (source target : Nat)
    (st : LoopState) (h : LoopHead g source target st) (hne : st.list.isEmpty = false) :
    ∃ node pre post, select st.dist st.list = .ok node ∧ st.list = pre ++ node :: post ∧
      node ∈ st.list ∧
      (∀ x ∈ st.list, (st.dv node).le (st.dv x) = true) ∧
      (∀ x ∈ pre, (st.dv node).lt (st.dv x) = true) := by
  have hval := h.scannable
  have hl : st.list ≠ [] := by
    intro hc; rw [hc] at hne; exact Bool.noConfusion hne
  obtain ⟨node, pre, post, h1, h2, h3, h4⟩ := select_first st hval hl
  have hmem : node ∈ st.list := by rw [h2]; simp
  refine ⟨node, pre, post, h1, h2, hmem, ?_, h3⟩
  intro x hx
  rw [h2] at hx
  rcases List.mem_append.mp hx with hx | hx
  · exact Dbl.le_of_lt (h3 x hx)
  · rcases List.mem_cons.mp hx with hx | hx
    · subst hx
      obtain ⟨a, ha, han⟩ := hval x hmem
      simp only [LoopState.dv, ha, Option.getD_some]
      exact Dbl.le_refl_of_ne_nan han
    · exact h4 x hx

/-- The state in which the main loop starts on `my_graph` with source `0`. -/
theorem select_picks_first_minimum_witness :
    ∃ node pre post,
      select (start_state my_graph 0).dist (start_state my_graph 0).list = .ok node ∧
      (start_state my_graph 0).list = pre ++ node :: post ∧
      node ∈ (start_state my_graph 0).list ∧
      (∀ x ∈ (start_state my_graph 0).list,
        ((start_state my_graph 0).dv node).le ((start_state my_graph 0).dv x) = true) ∧
      (∀ x ∈ pre, ((start_state my_graph 0).dv node).lt ((start_state my_graph 0).dv x) = true) :=
  select_picks_first_minimum my_graph 0 5 (start_state my_graph 0) LoopHead.start (by decide)

/-- C19: on a graph in which the destination of every outbound edge of every
node is a node of the graph, and with `source` and `target` nodes of the
graph, no lookup of `dijkstra` throws (`dist.at`, `prev.at`, `g.nodes.at`,
`list.at(0)`): the call returns its maps. -/
theorem dijkstra_lookups_never_fail (g : Graph Dbl Dbl) (source target : Nat)
    (rd : UMap Dbl) (rp : UMap Int) (hg : g.Closed) (hs : g.has_node source = true)
    (ht : g.has_node target = true) :
    (∃ o, dijkstra g source target rd rp = .ok o ∧ o.not_in_graph = false) ∧
    dijkstra g source target rd rp ≠ .error Err.out_of_range := by
  have hs' := (g.has_node_iff source).mp hs
  obtain ⟨st, h1, _⟩ := loop_spec hg target (Dom g) (Dom g) (fun _ h => h) (fun _ h _ => h)
    (fun _ h _ _ => h) (fun _ node h _ _ _ _ => erased_state_dom h node)
    (fun st node st2 h hmem _ _ _ hr _ => by
      obtain ⟨st2', hr', hd, _, _⟩ := relax_spec hg (h.list_sub node hmem)
        (fun _ _ => True) (fun _ _ _ _ _ _ => trivial) (erased_state_dom h node) trivial
      rw [hr] at hr'
      injection hr' with hr'
      exact hr' ▸ hd)
    g.ids.length (start_state g source) (start_state_dom g hs')
    (by simp [start_state, init_list])
  have he : dijkstra g source target rd rp = .ok ⟨false, st.dist, st.prev, st.relaxed⟩ := by
    rw [dijkstra_present g source target rd rp hs ht, h1]
  exact ⟨⟨_, he, rfl⟩, by rw [he]; exact fun hc => Except.noConfusion hc⟩

/-- The run of `main` on `my_graph`. -/
theorem dijkstra_lookups_never_fail_witness :
    (∃ o, dijkstra my_graph 0 5 UMap.empty UMap.empty = .ok o ∧ o.not_in_graph = false) ∧
    dijkstra my_graph 0 5 UMap.empty UMap.empty ≠ .error Err.out_of_range :=
  dijkstra_lookups_never_fail my_graph 0 5 UMap.empty UMap.empty (by decide) (by decide)
    (by decide)

/-! ## Node ids from `2^31` on -/

/-- The predecessor stored for a node id from `2^31` on is negative, so that
the test `prev.at(u) >= 0` of `main` takes it for "no predecessor". -/
theorem toInt32_neg_of_ge {u : Nat} (h1 : 2 ^ 31 ≤ u) (h2 : u < 2 ^ 32) : toInt32 u < 0 := by
  unfold toInt32
  have : u % 2 ^ 32 = u := Nat.mod_eq_of_lt h2
  rw [this]
  split <;> omega

/-- C14 fails on the code: with source `4294967295` and target `0` in
`big_id`, which is well-formed and has non-negative weights, the relaxation
through `4294967295` lowers the distance of node `0` to 1 and stores `-1`,
the marker of "no predecessor", as its predecessor, and the path
reconstruction of `main` stops at node `0` without stepping to
`4294967295`. -/
theorem predecessor_of_big_id_is_none :
    big_id.WF ∧ NonnegWeights big_id ∧
    ∃ o, dijkstra big_id 4294967295 0 UMap.empty UMap.empty = .ok o ∧
      o.relaxed = [0] ∧ o.return_dist 0 = some (Dbl.ofInt 1) ∧
      o.return_prev 0 = some (-1) ∧ toInt32 4294967295 = -1 ∧
      ∀ fuel, construct_path o.return_prev fuel 0 = .ok [0] := by
  refine ⟨by decide, by decide, _, rfl, by decide, by decide, by decide, by decide, ?_⟩
  intro fuel
  exact construct_path_of_none (by decide) fuel

/-! ## Claims about the nodes left of the early exit -/

/-- A node whose distance is below that of the node with the smallest distance
in `list` is finalised: its distance is the least weight of a path from
`source`. -/
theorem InvN.shortest_of_lt {g : Graph Dbl Dbl} (hg : g.WF) (hw : NonnegWeights g)
    {source target : Nat} {st : LoopState} (h : InvN g source target st)
    (hmin : ∀ v ∈ st.list, (st.dv target).le (st.dv v) = true) {n : Nat} (hn : n ∈ g.ids)
    (hlt : (st.dv n).lt (st.dv target) = true) :
    (∀ p w, IsPath g source n p w → (st.dv n).le w = true) ∧
    ∃ p, p.Nodup ∧ IsPath g source n p (st.dv n) := by
  have hnl : n ∉ st.list := by
    intro hc
    have := Dbl.not_lt_of_le (hmin n hc)
    rw [this] at hlt
    exact Bool.noConfusion hlt
  refine ⟨fun p w hp => (h.lower_bound hg hw hp.walk).1 hnl, ?_⟩
  obtain ⟨p, hp, hnd, _⟩ := h.core.spath n hn (Dbl.ne_pinf_of_lt hlt)
  exact ⟨p, hnd, hp⟩

/-- C15, as the code has it: on a well-formed graph with non-negative edge
weights that has `source` and `target`, the returned distance of every node
whose returned distance is strictly below that of `target` is the least
weight of a directed path from `source` to the node, the weights of a path
being added up in double arithmetic from `source` on; when `target` is not
reachable, this holds of every node with a finite returned distance.  When no
sum along a path can round (`ExactWeights`), the same holds of the total
weights: the returned distance of such a node is the least total weight of a
directed path from `source` to it. -/
theorem distances_below_target_are_shortest (g : Graph Dbl Dbl) (source target : Nat)
    (rd : UMap Dbl) (rp : UMap Int) (hg : g.WF) (hw : NonnegWeights g)
    (hs : g.has_node source = true) (ht : g.has_node target = true) :
    ∃ o dt, dijkstra g source target rd rp = .ok o ∧ o.not_in_graph = false ∧
      o.return_dist target = some dt ∧
      (∀ n dn, g.has_node n = true → o.return_dist n = some dn → dn.lt dt = true →
        (∀ p w, IsPath g source n p w → dn.le w = true) ∧
        ∃ p, p.Nodup ∧ IsPath g source n p dn) ∧
      (¬ Reachable g source target →
        ∀ n dn, g.has_node n = true → o.return_dist n = some dn → dn.finite = true →
          (∀ p w, IsPath g source n p w → dn.le w = true) ∧
          ∃ p, p.Nodup ∧ IsPath g source n p dn) ∧
      (∀ j K, ExactWeights g j K →
        ∀ n dn, g.has_node n = true → o.return_dist n = some dn →
          dn.lt dt = true ∨ (¬ Reachable g source target ∧ dn.finite = true) →
          (∀ p w, IsPathTotal g source n p w → dn.le w = true) ∧
          ∃ p, p.Nodup ∧ IsPathTotal g source n p dn) := by
  obtain ⟨st, h1, h2, h3⟩ := dijkstra_invN hg hw hs ht rd rp
  have ht' := (g.has_node_iff target).mp ht
  have hdom := h2.core.invA.dom
  have key : ∀ n dn, g.has_node n = true → st.dist n = some dn →
      dn.lt (st.dv target) = true →
      (∀ p w, IsPath g source n p w → dn.le w = true) ∧
      ∃ p, p.Nodup ∧ IsPath g source n p dn := by
    intro n dn hn hdn hlt
    have hn' := (g.has_node_iff n).mp hn
    have e : dn = st.dv n := by
      have := hdom.dist_eq hn'
      rw [hdn] at this
      injection this
    subst e
    exact h2.shortest_of_lt hg hw h3 hn' hlt
  have hinf_of : ¬ Reachable g source target → st.dv target = Dbl.pinf := by
    intro hu
    have := (h2.core.invA.unreachable hs ht' hu).1
    rw [hdom.dist_eq ht'] at this
    injection this
  refine ⟨_, st.dv target, h1, rfl, hdom.dist_eq ht', key, ?_, ?_⟩
  · intro hu n dn hn hdn hfin
    exact key n dn hn hdn (by rw [hinf_of hu]; exact Dbl.lt_pinf_of_finite hfin)
  · intro j K hx n dn hn hdn hcase
    have hlt : dn.lt (st.dv target) = true := by
      rcases hcase with hlt | ⟨hu, hfin⟩
      · exact hlt
      · rw [hinf_of hu]; exact Dbl.lt_pinf_of_finite hfin
    have hn' := (g.has_node_iff n).mp hn
    have e : dn = st.dv n := by
      have := hdom.dist_eq hn'
      rw [show st.dist n = some dn from hdn] at this
      injection this
    subst e
    have hnl : n ∉ st.list := by
      intro hc
      have := Dbl.not_lt_of_le (h3 n hc)
      rw [this] at hlt
      exact Bool.noConfusion hlt
    refine ⟨fun p w hp => (h2.lower_bound_total hg hx hp.walk_total).1 hnl, ?_⟩
    obtain ⟨p, hp, hnd, _⟩ := h2.core.spath n hn' (Dbl.ne_pinf_of_lt hlt)
    exact ⟨p, hnd, (hp.total hg hx hnd).1⟩

/-- The run of `main` on `my_graph`, where no sum rounds. -/
theorem distances_below_target_are_shortest_witness :
    ExactWeights my_graph 1074 11 ∧
    ∃ o dt, dijkstra my_graph 0 5 UMap.empty UMap.empty = .ok o ∧ o.not_in_graph = false ∧
      o.return_dist 5 = some dt ∧
      (∀ n dn, my_graph.has_node n = true → o.return_dist n = some dn → dn.lt dt = true →
        (∀ p w, IsPath my_graph 0 n p w → dn.le w = true) ∧
        ∃ p, p.Nodup ∧ IsPath my_graph 0 n p dn) ∧
      (¬ Reachable my_graph 0 5 →
        ∀ n dn, my_graph.has_node n = true → o.return_dist n = some dn → dn.finite = true →
          (∀ p w, IsPath my_graph 0 n p w → dn.le w = true) ∧
          ∃ p, p.Nodup ∧ IsPath my_graph 0 n p dn) ∧
      (∀ j K, ExactWeights my_graph j K →
        ∀ n dn, my_graph.has_node n = true → o.return_dist n = some dn →
          dn.lt dt = true ∨ (¬ Reachable my_graph 0 5 ∧ dn.finite = true) →
          (∀ p w, IsPathTotal my_graph 0 n p w → dn.le w = true) ∧
          ∃ p, p.Nodup ∧ IsPathTotal my_graph 0 n p dn) :=
  ⟨by decide, distances_below_target_are_shortest my_graph 0 5 UMap.empty UMap.empty
    (by decide) (by decide) (by decide) (by decide)⟩

/-- C15 as stated fails: in `round_chain` with source `0` and target `3`,
which no edge enters, the returned distance `2^53` of node `2` is below the
returned distance `+infinity` of the target, but every directed path from `0`
to `2` has the total weight `2^53 + 1` (`0, 1, 2` is one): line 59 rounds
`2^53 + 1` to `2^53`. -/
theorem distance_below_target_is_not_least_total_weight :
    round_chain.WF ∧ NonnegWeights round_chain ∧ DoubleWeights round_chain ∧
    ∃ o, dijkstra round_chain 0 3 UMap.empty UMap.empty = .ok o ∧
      o.return_dist 3 = some INF ∧
      o.return_dist 2 = some (Dbl.ofInt 9007199254740992) ∧
      (Dbl.ofInt 9007199254740992).lt INF = true ∧
      IsPathTotal round_chain 0 2 [0, 1, 2] (Dbl.ofInt 9007199254740993) ∧
      (∀ p w, IsPathTotal round_chain 0 2 p w → w = Dbl.ofInt 9007199254740993) ∧
      (Dbl.ofInt 9007199254740992).lt (Dbl.ofInt 9007199254740993) = true := by
  refine ⟨by decide, by decide, by decide, _, rfl, by decide, by decide, by decide,
    by decide, round_chain_total, by decide⟩

/-- A node with a predecessor other than none has been assigned to by a
relaxation, and the link to its predecessor is an edge of the graph. -/
theorem Core.pred_link {g : Graph Dbl Dbl} (hg : g.WF) {source target : Nat} {st : LoopState}
    (hc : Core g source target st) {n : Nat} {p : Int} (hp : st.prev n = some p)
    (hne : p ≠ -1) :
    n ∈ g.ids ∧ toUInt32 p ∈ g.ids ∧ toUInt32 p ∉ st.list ∧
    ∃ c, g.weight (toUInt32 p) n = some c ∧ st.dv n = (st.dv (toUInt32 p)).add c ∧
      st.dv (toUInt32 p) ≠ Dbl.pinf := by
  have hn : n ∈ g.ids := by
    by_contra hn
    have := hc.invA.dom.prev_out n hn
    rw [hp] at this
    exact Option.noConfusion this
  have hr : n ∈ st.relaxed := by
    by_contra hr
    have := (hc.invA.untouched n hn hr).1
    rw [hp] at this
    injection this with this
    exact hne this
  obtain ⟨u, c, hu, hul, hp', hwt, hd, hune⟩ := hc.link n hr
  rw [hp] at hp'
  injection hp' with hp'
  have hu32 : toUInt32 p = u := by rw [hp']; exact toUInt32_toInt32 (hg.2.1 u hu)
  rw [hu32]
  exact ⟨hn, hu, hul, c, hwt, hd, hune⟩

/-- C16, as the code has it: on a well-formed graph with non-negative edge
weights that has `source` and `target`, every node `n` whose returned
predecessor `p` is not none has an edge `p -> n` in the graph, `p` being a
node of the graph; `distance[n]` is `distance[p] + weight(p, n)` as line 59
computes it, in double arithmetic, which is the exact sum whenever the exact
sum is a double; and `distance[p]` is finite. -/
theorem predecessor_edge_and_finite_distance (g : Graph Dbl Dbl) (source target : Nat)
    (rd : UMap Dbl) (rp : UMap Int) (hg : g.WF) (hw : NonnegWeights g)
    (hs : g.has_node source = true) (ht : g.has_node target = true) :
    ∃ o, dijkstra g source target rd rp = .ok o ∧ o.not_in_graph = false ∧
      ∀ n p, o.return_prev n = some p → p ≠ -1 →
        g.has_node (toUInt32 p) = true ∧
        ∃ d du c, o.return_dist n = some d ∧ o.return_dist (toUInt32 p) = some du ∧
          g.weight (toUInt32 p) n = some c ∧ d = du.add c ∧
          ((du.sum c).is_double = true → d = du.sum c) ∧ du.finite = true := by
  obtain ⟨st, h1, h2, _⟩ := dijkstra_invN hg hw hs ht rd rp
  refine ⟨_, h1, rfl, ?_⟩
  intro n p hp hne
  have hc := h2.core
  obtain ⟨hn, hu, _, c, hwt, hd, hune⟩ := hc.pred_link hg hp hne
  exact ⟨(g.has_node_iff _).mpr hu, st.dv n, st.dv (toUInt32 p), c,
    hc.invA.dom.dist_eq hn, hc.invA.dom.dist_eq hu, hwt, hd,
    fun hx => by rw [hd]; exact Dbl.add_eq_sum hx,
    Dbl.finite_of_nonneg_ne_pinf (hc.nonneg _ hu) hune⟩

/-- The run of `main` on `my_graph`. -/
theorem predecessor_edge_and_finite_distance_witness :
    ∃ o, dijkstra my_graph 0 5 UMap.empty UMap.empty = .ok o ∧ o.not_in_graph = false ∧
      ∀ n p, o.return_prev n = some p → p ≠ -1 →
        my_graph.has_node (toUInt32 p) = true ∧
        ∃ d du c, o.return_dist n = some d ∧ o.return_dist (toUInt32 p) = some du ∧
          my_graph.weight (toUInt32 p) n = some c ∧ d = du.add c ∧
          ((du.sum c).is_double = true → d = du.sum c) ∧ du.finite = true :=
  predecessor_edge_and_finite_distance my_graph 0 5 UMap.empty UMap.empty (by decide)
    (by decide) (by decide) (by decide)

/-- C16 as stated fails: in `round_fork` with source `0` and target `3` the
returned predecessor of node `2` is node `1`, the edge `1 -> 2` has weight `1`,
and both `distance[1]` and `distance[2]` are `10^16`, since `10^16 + 1` is not
a double and line 59 rounds it to `10^16`: `distance[2]` is not the sum
`distance[1] + weight(1, 2)`. -/
theorem rounded_sum_is_not_the_sum :
    round_fork.WF ∧ NonnegWeights round_fork ∧ DoubleWeights round_fork ∧
    ∃ o, dijkstra round_fork 0 3 UMap.empty UMap.empty = .ok o ∧
      o.return_prev 2 = some 1 ∧ round_fork.weight 1 2 = some (Dbl.ofInt 1) ∧
      o.return_dist 1 = some (Dbl.ofInt 10000000000000000) ∧
      o.return_dist 2 = some (Dbl.ofInt 10000000000000000) ∧
      (Dbl.ofInt 10000000000000000).sum (Dbl.ofInt 1) = Dbl.ofInt 10000000000000001 ∧
      Dbl.ofInt 10000000000000000 ≠ Dbl.ofInt 10000000000000001 := by
  refine ⟨by decide, by decide, by decide, _, rfl, by decide, by decide, by decide,
    by decide, by decide, by decide⟩

/-- C17: on a well-formed graph with non-negative edge weights that has
`source` and `target`, the loop of lines 120-126 of `main`, started at any
node of the graph on the predecessor map that `dijkstra` returns, visits no
node twice and stops: it returns its vector `path` for every fuel from the
number of nodes less one on, so after fewer rounds than there are nodes. -/
theorem predecessor_chains_terminate (g : Graph Dbl Dbl) (source target : Nat)
    (rd : UMap Dbl) (rp : UMap Int) (hg : g.WF) (hw : NonnegWeights g)
    (hs : g.has_node source = true) (ht : g.has_node target = true) :
    ∃ o, dijkstra g source target rd rp = .ok o ∧ o.not_in_graph = false ∧
      ∀ n, g.has_node n = true →
        ∃ path, path.Nodup ∧ path.length ≤ g.ids.length ∧
          (∀ x ∈ path, g.has_node x = true) ∧
          ∀ fuel, g.ids.length ≤ fuel + 1 →
            construct_path o.return_prev fuel n = .ok path := by
  obtain ⟨st, h1, h2, _⟩ := dijkstra_invN hg hw hs ht rd rp
  refine ⟨_, h1, rfl, ?_⟩
  intro n hn
  obtain ⟨c, hch, hsub, hnd⟩ := h2.core.chain_all hg ((g.has_node_iff n).mp hn)
  have hlen : c.length ≤ g.ids.length := (List.subperm_of_subset hnd hsub).length_le
  refine ⟨c, hnd, hlen, fun x hx => (g.has_node_iff x).mpr (hsub x hx), ?_⟩
  intro fuel hfuel
  have := hch.construct fuel [] (by omega)
  unfold construct_path
  rw [this]
  rfl

/-- The run of `main` on `my_graph`. -/
theorem predecessor_chains_terminate_witness :
    ∃ o, dijkstra my_graph 0 5 UMap.empty UMap.empty = .ok o ∧ o.not_in_graph = false ∧
      ∀ n, my_graph.has_node n = true →
        ∃ path, path.Nodup ∧ path.length ≤ my_graph.ids.length ∧
          (∀ x ∈ path, my_graph.has_node x = true) ∧
          ∀ fuel, my_graph.ids.length ≤ fuel + 1 →
            construct_path o.return_prev fuel n = .ok path :=
  predecessor_chains_terminate my_graph 0 5 UMap.empty UMap.empty (by decide) (by decide)
    (by decide) (by decide)

/-- C18, as the code has it: on a well-formed graph that has `source` and
`target`, whatever the sign of the weights, every finite distance that
`dijkstra` returns is the weight of a directed walk from `source` to that
node, the weights of a walk being added up in double arithmetic from `source`
on; hence, when the weights are non-negative, no returned distance is below
the least weight, added up in this way, of a path from `source` to that
node.  When no sum along a path can round (`ExactWeights`, which makes the
weights non-negative), the same holds of the total weights: every finite
returned distance is the total weight of a walk, and none is below the least
total weight of a path. -/
theorem finite_distance_is_walk_weight (g : Graph Dbl Dbl) (source target : Nat)
    (rd : UMap Dbl) (rp : UMap Int) (hg : g.WF) (hs : g.has_node source = true)
    (ht : g.has_node target = true) :
    ∃ o, dijkstra g source target rd rp = .ok o ∧ o.not_in_graph = false ∧
      (∀ n d, o.return_dist n = some d → d.finite = true → ∃ p, IsPath g source n p d) ∧
      (NonnegWeights g → ∀ n d δ p, o.return_dist n = some d → IsPath g source n p δ →
        (∀ p' w, IsPath g source n p' w → δ.le w = true) → δ.le d = true) ∧
      (∀ j K, ExactWeights g j K →
        (∀ n d, o.return_dist n = some d → d.finite = true →
          ∃ p, IsPathTotal g source n p d) ∧
        (∀ n d δ p, o.return_dist n = some d → IsPathTotal g source n p δ →
          (∀ p' w, IsPathTotal g source n p' w → δ.le w = true) → δ.le d = true)) := by
  obtain ⟨st, h1, h2⟩ := dijkstra_invA hg hs ht rd rp
  have hmem : ∀ n d, st.dist n = some d → n ∈ g.ids ∧ d = st.dv n := by
    intro n d hd
    have hn : n ∈ g.ids := by
      by_contra hn
      have := h2.dom.dist_out n hn
      rw [hd] at this
      exact Option.noConfusion this
    refine ⟨hn, ?_⟩
    have := h2.dom.dist_eq hn
    rw [hd] at this
    injection this
  have key : ∀ n d, st.dist n = some d → d ≠ Dbl.pinf → ∃ p, IsPath g source n p d := by
    intro n d hd hne
    obtain ⟨hn, e⟩ := hmem n d hd
    subst e
    exact (h2.walk n hn hne).exists_path
  refine ⟨_, h1, rfl, fun n d hd hf => key n d hd (Dbl.ne_pinf_of_finite hf), ?_, ?_⟩
  · intro hw n d δ p hd hp hleast
    by_cases hinf : d = Dbl.pinf
    · rw [hinf]
      exact Dbl.le_pinf (hp.walk.nonneg hw)
    · obtain ⟨p', hp'⟩ := key n d hd hinf
      exact hleast p' d hp'
  · intro j K hx
    obtain ⟨st', h1', h2', _⟩ := dijkstra_invN hg hx.nonneg_weights hs ht rd rp
    have hst : st.dist = st'.dist := by
      have := h1.symm.trans h1'
      injection this with this
      injection this
    have keyt : ∀ n d, st.dist n = some d → d ≠ Dbl.pinf →
        ∃ p, IsPathTotal g source n p d := by
      intro n d hd hne
      obtain ⟨hn, _⟩ := hmem n d hd
      have e : d = st'.dv n := by
        have := h2'.core.invA.dom.dist_eq hn
        rw [← hst, hd] at this
        injection this
      subst e
      obtain ⟨p, hp, hnd, _⟩ := h2'.core.spath n hn hne
      exact ⟨p, (hp.total hg hx hnd).1⟩
    refine ⟨fun n d hd hf => keyt n d hd (Dbl.ne_pinf_of_finite hf), ?_⟩
    intro n d δ p hd hp hleast
    by_cases hinf : d = Dbl.pinf
    · rw [hinf]
      exact Dbl.le_pinf (hp.walk_total.total_nonneg hx.nonneg_weights)
    · obtain ⟨p', hp'⟩ := keyt n d hd hinf
      exact hleast p' d hp'

/-- The run of `main` on `my_graph`, where no sum rounds. -/
theorem finite_distance_is_walk_weight_witness :
    ExactWeights my_graph 1074 11 ∧
    ∃ o, dijkstra my_graph 0 5 UMap.empty UMap.empty = .ok o ∧ o.not_in_graph = false ∧
      (∀ n d, o.return_dist n = some d → d.finite = true → ∃ p, IsPath my_graph 0 n p d) ∧
      (NonnegWeights my_graph → ∀ n d δ p, o.return_dist n = some d →
        IsPath my_graph 0 n p δ →
        (∀ p' w, IsPath my_graph 0 n p' w → δ.le w = true) → δ.le d = true) ∧
      (∀ j K, ExactWeights my_graph j K →
        (∀ n d, o.return_dist n = some d → d.finite = true →
          ∃ p, IsPathTotal my_graph 0 n p d) ∧
        (∀ n d δ p, o.return_dist n = some d → IsPathTotal my_graph 0 n p δ →
          (∀ p' w, IsPathTotal my_graph 0 n p' w → δ.le w = true) → δ.le d = true)) :=
  ⟨by decide, finite_distance_is_walk_weight my_graph 0 5 UMap.empty UMap.empty (by decide)
    (by decide) (by decide)⟩

/-- C18 as stated fails: in `round_fork` with source `0` and target `3` the
returned distance of node `2` is the finite value `10^16`, but every directed
walk from `0` to `2` has the total weight `10^16 + 1` (`0, 1, 2` is one): the
returned distance is the total weight of no walk, and it is below the least
total weight of a path to node `2`, although the weights are non-negative. -/
theorem finite_distance_is_no_total_weight :
    round_fork.WF ∧ NonnegWeights round_fork ∧ DoubleWeights round_fork ∧
    ∃ o, dijkstra round_fork 0 3 UMap.empty UMap.empty = .ok o ∧
      o.return_dist 2 = some (Dbl.ofInt 10000000000000000) ∧
      (Dbl.ofInt 10000000000000000).finite = true ∧
      IsPathTotal round_fork 0 2 [0, 1, 2] (Dbl.ofInt 10000000000000001) ∧
      (∀ p w, IsPathTotal round_fork 0 2 p w → w = Dbl.ofInt 10000000000000001) ∧
      (Dbl.ofInt 10000000000000000).lt (Dbl.ofInt 10000000000000001) = true := by
  refine ⟨by decide, by decide, by decide, _, rfl, by decide, by decide, by decide,
    fun p w h => (round_fork_total p w).1 h, by decide⟩

/-! ## The stress loop -/

theorem lookup_append_of_ne {β : Type} (l1 l2 : List (Nat × β)) (k : Nat)
    (h : ∀ p ∈ l1, p.1 ≠ k) : (l1 ++ l2).lookup k = l2.lookup k := by
  induction l1 with
  | nil => rfl
  | cons a l1 ih =>
    obtain ⟨j, b⟩ := a
    have hj : (k == j) = false := by
      simpa using fun hc => h (j, b) (List.mem_cons_self _ _) hc.symm
    simp only [List.cons_append, List.lookup, hj]
    exact ih (fun p hp => h p (List.mem_cons_of_mem _ hp))

theorem stress_base_lt : ∀ p ∈ stress_base, p.1 < 8 ∧ p.2.edges_in = [] ∧ p.2.edges_out = [] := by
  decide

theorem stress_base_lookup (l : List (Nat × Node Data Data)) {k : Nat} (hk : 8 ≤ k) :
    (stress_base ++ l).lookup k = l.lookup k :=
  lookup_append_of_ne _ _ _ (fun p hp hc => by have := (stress_base_lt p hp).1; omega)

theorem stress_base_map (f : Nat × Node Data Data → Nat × Node Data Data)
    (h : ∀ p ∈ stress_base, f p = p) : stress_base.map f = stress_base := by
  conv_rhs => rw [← List.map_id stress_base]
  exact List.map_congr_left h

theorem stress_step_add_node (n : Nat) :
    (stress_state n).add_node (n + 11) ⟨[]⟩ = (none, stress_mid1 n) := by
  have h : (stress_state n).has_node (n + 11) = false := by
    unfold Graph.has_node stress_state
    rw [stress_base_lookup _ (by omega)]
    have a : (n + 11 == n + 9) = false := by simp
    have b : (n + 11 == n + 10) = false := by simp
    simp [List.lookup, stress_node, a, b]
  unfold Graph.add_node
  rw [h]
  simp [stress_state, stress_mid1, stress_node]

theorem stress_step_add_edge (n : Nat) :
    (stress_mid1 n).add_edge (n + 10) (n + 11) ⟨[]⟩ = (none, stress_mid2 n) := by
  have h1 : (stress_mid1 n).has_node (n + 10) = true := by
    unfold Graph.has_node stress_mid1
    rw [stress_base_lookup _ (by omega)]
    have a : (n + 10 == n + 9) = false := by simp
    simp [List.lookup, stress_node, a]
  have h2 : (stress_mid1 n).has_node (n + 11) = true := by
    unfold Graph.has_node stress_mid1
    rw [stress_base_lookup _ (by omega)]
    have a : (n + 11 == n + 9) = false := by simp
    have b : (n + 11 == n + 10) = false := by simp
    simp [List.lookup, stress_node, a, b]
  have h3 : (stress_mid1 n).edges.lookup (n + 10, n + 11) = none := by
    have a : ((n + 10, n + 11) == (n + 9, n + 10)) = false := by simp
    simp [stress_mid1, List.lookup, a]
  unfold Graph.add_edge
  rw [h1, h2, h3]
  simp only [Bool.not_true, Bool.or_self, Bool.false_eq_true, if_false, Option.isSome_none]
  have hb : (stress_mid1 n).nodes = stress_base ++
    [stress_node (n + 9) [] [stress_edge (n + 9) (n + 10)],
     stress_node (n + 10) [stress_edge (n + 9) (n + 10)] [],
     stress_node (n + 11) [] []] := rfl
  rw [hb, List.map_append, stress_base_map]
  · simp [stress_mid1, stress_mid2, stress_node, stress_edge]
  · intro p hp
    have := (stress_base_lt p hp).1
    have a : p.1 ≠ n + 10 := by omega
    have b : p.1 ≠ n + 11 := by omega
    simp [a, b]

theorem stress_step_remove_edge (n : Nat) :
    (stress_mid2 n).remove_edge (n + 9) (n + 10) = stress_mid3 n := by
  have h3 : (stress_mid2 n).edges.lookup (n + 9, n + 10) =
      some (stress_edge (n + 9) (n + 10)) := by
    simp [stress_mid2, List.lookup]
  unfold Graph.remove_edge
  rw [h3]
  simp only [Option.isSome_some, if_true]
  have hb : (stress_mid2 n).nodes = stress_base ++
    [stress_node (n + 9) [] [stress_edge (n + 9) (n + 10)],
     stress_node (n + 10) [stress_edge (n + 9) (n + 10)] [stress_edge (n + 10) (n + 11)],
     stress_node (n + 11) [stress_edge (n + 10) (n + 11)] []] := rfl
  rw [hb, List.map_append, stress_base_map]
  · simp [stress_mid2, stress_mid3, stress_node, stress_edge]
  · intro p hp
    obtain ⟨h1, h2, h3⟩ := stress_base_lt p hp
    have a : p.1 ≠ n + 9 := by omega
    have b : p.1 ≠ n + 10 := by omega
    simp [a, b]

theorem stress_step_remove_node (n : Nat) :
    (stress_mid2 n).remove_node (n + 9) = stress_state (n + 1) := by
  have h1 : (stress_mid2 n).has_node (n + 9) = true := by
    unfold Graph.has_node stress_mid2
    rw [stress_base_lookup _ (by omega)]
    simp [List.lookup, stress_node]
  have a1 : (n + 1 == n) = false := by simp
  have a2 : (n + 2 == n) = false := by simp
  have b1 : (n + 1 != n) = true := by simp
  have b2 : (n + 2 != n) = true := by simp
  have h2 : ((stress_mid2 n).edges.map Prod.fst).filter
      (fun k => k.1 == n + 9 || k.2 == n + 9) = [(n + 9, n + 10)] := by
    simp [stress_mid2, List.filter, a1, a2]
  unfold Graph.remove_node
  rw [h1]
  simp only [if_true, h2, List.foldl_cons, List.foldl_nil, stress_step_remove_edge]
  have hf : stress_base.filter (fun p => p.1 != n + 9) = stress_base := by
    apply List.filter_eq_self.mpr
    intro p hp
    have := (stress_base_lt p hp).1
    have a : p.1 ≠ n + 9 := by omega
    simpa using a
  unfold stress_state
  rw [show n + 1 + 9 = n + 10 from by omega, show n + 1 + 10 = n + 11 from by omega]
  simp [stress_mid3, List.filter_append, hf, stress_node, List.filter, b1, b2]
  rfl

/-- One round of the stress loop leads from one of the stores `stress_state`
to the next. -/
theorem stress_round_state (n : Nat) :
    stress_round (stress_state n) (n + 11) = stress_state (n + 1) := by
  unfold stress_round
  have e1 : n + 11 - 1 = n + 10 := by omega
  have e2 : n + 11 - 2 = n + 9 := by omega
  rw [e1, e2, stress_step_add_node, stress_step_add_edge, stress_step_remove_node]

/-- After every round of the stress loop the store is `stress_state`. -/
theorem stress_run_state (n : Nat) : stress_run (n + 1) = stress_state n := by
  induction n with
  | zero => rfl
  | succ n ih =>
    have e : 10 + (n + 1) = n + 11 := by omega
    show stress_round (stress_run (n + 1)) (10 + (n + 1)) = _
    rw [ih, e, stress_round_state]

theorem stress_state_counts (n : Nat) :
    (stress_state n).node_count = 10 ∧ (stress_state n).edge_count = 1 ∧
      (stress_state n).adjacency_count = 2 := by
  refine ⟨?_, ?_, ?_⟩
  · simp [Graph.node_count, stress_state, stress_base]
  · simp [Graph.edge_count, stress_state]
  · simp [Graph.adjacency_count, stress_state, stress_base, stress_node, List.range,
      List.range.loop]

/-! ## Removing a node removes its edges -/

theorem Graph.Consistent.linked {N E : Type} {g : Graph N E} (h : g.Consistent) : g.Linked := by
  obtain ⟨_, _, h3, h4, _⟩ := h
  refine ⟨fun q hq => (h3 q hq).1, fun p hp => ⟨fun e he => ?_, fun e he => ?_⟩⟩
  · exact ⟨((h4 p hp).1 e he).1, List.mem_map_of_mem Prod.fst ((h4 p hp).1 e he).2⟩
  · exact ⟨((h4 p hp).2 e he).1, List.mem_map_of_mem Prod.fst ((h4 p hp).2 e he).2⟩

theorem lookup_pair_none {β : Type} (l : List ((Nat × Nat) × β)) (k : Nat × Nat)
    (h : (l.lookup k).isSome = false) : k ∉ l.map Prod.fst := by
  induction l with
  | nil => simp
  | cons a l ih =>
    obtain ⟨j, b⟩ := a
    by_cases hk : k = j
    · subst hk; simp [List.lookup] at h
    · have h' : (k == j) = false := by simpa using hk
      simp only [List.lookup, h'] at h
      simp only [List.map_cons, List.mem_cons, not_or]
      exact ⟨hk, ih h⟩

theorem Graph.mem_edges_remove_edge {N E : Type} (g : Graph N E) (a b : Nat)
    {q : (Nat × Nat) × Edge E} (hq : q ∈ (g.remove_edge a b).edges) :
    q ∈ g.edges ∧ q.1 ≠ (a, b) := by
  unfold Graph.remove_edge at hq
  cases hl : (g.edges.lookup (a, b)).isSome with
  | true =>
    simp only [hl, if_true] at hq
    have := List.mem_filter.mp hq
    exact ⟨this.1, by simpa using this.2⟩
  | false =>
    simp only [hl, Bool.false_eq_true, if_false] at hq
    refine ⟨hq, fun hc => ?_⟩
    exact lookup_pair_none g.edges (a, b) hl (hc ▸ List.mem_map_of_mem Prod.fst hq)

theorem Graph.linked_remove_edge {N E : Type} {g : Graph N E} (h : g.Linked) (a b : Nat) :
    (g.remove_edge a b).Linked := by
  cases hl : (g.edges.lookup (a, b)).isSome with
  | false =>
    have : g.remove_edge a b = g := by simp [Graph.remove_edge, hl]
    rw [this]; exact h
  | true =>
    have hkey : ∀ k, k ∈ g.edges.map Prod.fst → k ≠ (a, b) →
        k ∈ (g.remove_edge a b).edges.map Prod.fst := by
      intro k hk hne
      obtain ⟨q, hq, hqk⟩ := List.mem_map.mp hk
      refine List.mem_map.mpr ⟨q, ?_, hqk⟩
      simp only [Graph.remove_edge, hl, if_true]
      exact List.mem_filter.mpr ⟨hq, by simpa [hqk] using hne⟩
    refine ⟨fun q hq => h.1 q (g.mem_edges_remove_edge a b hq).1, ?_⟩
    intro p' hp'
    simp only [Graph.remove_edge, hl, if_true] at hp'
    obtain ⟨p, hp, hpp⟩ := List.mem_map.mp hp'
    subst hpp
    refine ⟨fun e he => ?_, fun e he => ?_⟩
    · simp only at he ⊢
      have he0 : e ∈ p.2.edges_out := by
        split at he
        · exact List.mem_of_mem_filter he
        · exact he
      obtain ⟨h1, h2⟩ := (h.2 p hp).1 e he0
      refine ⟨h1, hkey _ h2 ?_⟩
      intro hc
      injection hc with ha hb
      have hpa : p.1 = a := by rw [← h1, ha]
      rw [if_pos hpa] at he
      have := (List.mem_filter.mp he).2
      simp [ha, hb] at this
    · simp only at he ⊢
      have he0 : e ∈ p.2.edges_in := by
        split at he
        · exact List.mem_of_mem_filter he
        · exact he
      obtain ⟨h1, h2⟩ := (h.2 p hp).2 e he0
      refine ⟨h1, hkey _ h2 ?_⟩
      intro hc
      injection hc with ha hb
      have hpb : p.1 = b := by rw [← h1, hb]
      rw [if_pos hpb] at he
      have := (List.mem_filter.mp he).2
      simp [ha, hb] at this

theorem Graph.fold_remove_edge {N E : Type} (ks : List (Nat × Nat)) :
    ∀ (g : Graph N E), g.Linked →
      (ks.foldl (fun acc k => acc.remove_edge k.1 k.2) g).Linked ∧
      ∀ q ∈ (ks.foldl (fun acc k => acc.remove_edge k.1 k.2) g).edges,
        q ∈ g.edges ∧ q.1 ∉ ks := by
  induction ks with
  | nil => intro g h; exact ⟨h, fun q hq => ⟨hq, by simp⟩⟩
  | cons k ks ih =>
    intro g h
    obtain ⟨h1, h2⟩ := ih (g.remove_edge k.1 k.2) (Graph.linked_remove_edge h k.1 k.2)
    refine ⟨h1, fun q hq => ?_⟩
    obtain ⟨h3, h4⟩ := h2 q hq
    obtain ⟨h5, h6⟩ := g.mem_edges_remove_edge k.1 k.2 h3
    refine ⟨h5, ?_⟩
    simp only [List.mem_cons, not_or]
    exact ⟨h6, h4⟩

/-- After `remove_node(id)` no edge of the store starts or ends at `id`, and
no list of a node holds such an edge. -/
theorem Graph.remove_node_severs {N E : Type} {g : Graph N E} (h : g.Linked) (id : Nat)
    (hid : g.has_node id = true) :
    (∀ q ∈ (g.remove_node id).edges,
      q.1.1 ≠ id ∧ q.1.2 ≠ id ∧ q.2.from_ ≠ id ∧ q.2.to_ ≠ id) ∧
    ∀ p ∈ (g.remove_node id).nodes,
      p.1 ≠ id ∧ (∀ e ∈ p.2.edges_out, e.from_ ≠ id ∧ e.to_ ≠ id) ∧
      (∀ e ∈ p.2.edges_in, e.from_ ≠ id ∧ e.to_ ≠ id) := by
  unfold Graph.remove_node
  rw [hid]
  simp only [if_true]
  obtain ⟨hL, hE⟩ := Graph.fold_remove_edge
    ((g.edges.map Prod.fst).filter (fun k => k.1 == id || k.2 == id)) g h
  have hkey : ∀ k, k ∈ (List.foldl (fun acc k => acc.remove_edge k.1 k.2) g
      ((g.edges.map Prod.fst).filter (fun k => k.1 == id || k.2 == id))).edges.map Prod.fst →
      k.1 ≠ id ∧ k.2 ≠ id := by
    intro k hk
    obtain ⟨q, hq, hqk⟩ := List.mem_map.mp hk
    obtain ⟨h1, h2⟩ := hE q hq
    have h3 : ¬ (q.1 ∈ g.edges.map Prod.fst ∧ (q.1.1 == id || q.1.2 == id) = true) :=
      fun hc => h2 (List.mem_filter.mpr hc)
    have h4 : ¬ ((q.1.1 == id || q.1.2 == id) = true) :=
      fun hc => h3 ⟨List.mem_map_of_mem Prod.fst h1, hc⟩
    rw [← hqk]
    simpa using h4
  refine ⟨fun q hq => ?_, fun p hp => ?_⟩
  · have h1 := hkey q.1 (List.mem_map_of_mem Prod.fst hq)
    have h2 := hL.1 q hq
    rw [h2] at h1
    refine ⟨?_, ?_, h1.1, h1.2⟩
    · rw [h2]; exact h1.1
    · rw [h2]; exact h1.2
  · have hp' := List.mem_filter.mp hp
    refine ⟨by simpa using hp'.2, fun e he => ?_, fun e he => ?_⟩
    · exact hkey _ ((hL.2 p hp'.1).1 e he).2
    · exact hkey _ ((hL.2 p hp'.1).2 e he).2

/-! ## Claims about the store -/

/-- C11: in a store that satisfies the invariants of the data model, after
`remove_node(id)` of a node that is present no edge of the edge mapping has
`id` as its source or destination, and no outbound or inbound list of a
remaining node holds such an edge; and after every round of the stress loop
of `main` (`add_node(i)`, `add_edge(i-1, i)`, `remove_node(i-2)`) the store
has 10 nodes, 1 edge and 2 entries in its adjacency lists, so that the three
counts stay the same from one round to the next. -/
theorem remove_node_removes_incident_edges {N E : Type} (g : Graph N E) (id : Nat)
    (hc : g.Consistent) (hid : g.has_node id = true) :
    (∀ q ∈ (g.remove_node id).edges,
      q.1.1 ≠ id ∧ q.1.2 ≠ id ∧ q.2.from_ ≠ id ∧ q.2.to_ ≠ id) ∧
    (∀ p ∈ (g.remove_node id).nodes,
      p.1 ≠ id ∧ (∀ e ∈ p.2.edges_out, e.from_ ≠ id ∧ e.to_ ≠ id) ∧
      (∀ e ∈ p.2.edges_in, e.from_ ≠ id ∧ e.to_ ≠ id)) ∧
    ∀ n, (stress_run (n + 1)).node_count = 10 ∧ (stress_run (n + 1)).edge_count = 1 ∧
      (stress_run (n + 1)).adjacency_count = 2 := by
  obtain ⟨h1, h2⟩ := Graph.remove_node_severs hc.linked id hid
  refine ⟨h1, h2, fun n => ?_⟩
  rw [stress_run_state]
  exact stress_state_counts n

/-- The store `my_graph` of `main` and its node `2`. -/
theorem remove_node_removes_incident_edges_witness :
    (∀ q ∈ (my_graph.remove_node 2).edges,
      q.1.1 ≠ 2 ∧ q.1.2 ≠ 2 ∧ q.2.from_ ≠ 2 ∧ q.2.to_ ≠ 2) ∧
    (∀ p ∈ (my_graph.remove_node 2).nodes,
      p.1 ≠ 2 ∧ (∀ e ∈ p.2.edges_out, e.from_ ≠ 2 ∧ e.to_ ≠ 2) ∧
      (∀ e ∈ p.2.edges_in, e.from_ ≠ 2 ∧ e.to_ ≠ 2)) ∧
    ∀ n, (stress_run (n + 1)).node_count = 10 ∧ (stress_run (n + 1)).edge_count = 1 ∧
      (stress_run (n + 1)).adjacency_count = 2 :=
  remove_node_removes_incident_edges my_graph 2 (by decide) (by decide)

/-- C12: for every store and every id that is present in it, `add_node(id)`
fails with `DuplicateNode` and leaves the store as it is: the node mapping,
the edge mapping and every adjacency list. -/
theorem add_node_duplicate_fails {N E : Type} (g : Graph N E) (id : Nat) (data : N)
    (h : g.has_node id = true) :
    g.add_node id data = (some StoreErr.DuplicateNode, g) := by
  unfold Graph.add_node
  rw [h]
  rfl

/-- Node `0` is present in `my_graph`. -/
theorem add_node_duplicate_fails_witness :
    my_graph.add_node 0 (Dbl.fin 7) = (some StoreErr.DuplicateNode, my_graph) :=
  add_node_duplicate_fails my_graph 0 (Dbl.fin 7) (by decide)

end GraphStore
